import Mathlib

/-!
Verification of the NCPC 2025 algorithm library against its specification.

This file shallowly embeds the components referenced by the claims:
* the Fenwick tree (`src/cpp/fenwick_tree.cpp`, `src/java/fenwick_tree.java`),
* the priority queue (`src/cpp/priority_queue.cpp`),
* the topological sort (`src/cpp/topological_sort.cpp`),
* the Edmonds-Karp max-flow (`src/cpp/edmonds_karp.cpp`, `src/java/edmonds_karp.java`).

Machine integers (`int` in C++, `long` in Java) are modelled as unbounded `Int`;
none of the verified properties exercises overflow.  `std::vector<T>` cells are
modelled as a total function `Nat → Int`: every access performed by the source
is proved (or checked by the guards) to lie inside the allocated range, so the
function model and the vector agree on all reads the source performs.
Exceptions are modelled with `Except String`.
-/

namespace NCPC

/-- `lowbit n` is `n & (-n)` on two's-complement integers: the lowest set bit
of `n`, with `lowbit 0 = 0`. -/
def lowbit (n : Nat) : Nat :=
  if n = 0 then 0
  else if n % 2 = 1 then 1
  else 2 * lowbit (n / 2)
termination_by n
decreasing_by
  rename_i h _
  exact Nat.div_lt_self (Nat.pos_of_ne_zero h) (by omega)

@[simp] theorem lowbit_zero : lowbit 0 = 0 := by
  rw [lowbit]; simp

theorem lowbit_odd {n : Nat} (h : n % 2 = 1) : lowbit n = 1 := by
  rw [lowbit]
  have : n ≠ 0 := by omega
  simp [this, h]

theorem lowbit_even {n : Nat} (hn : n ≠ 0) (h : n % 2 = 0) :
    lowbit n = 2 * lowbit (n / 2) := by
  rw [lowbit]
  simp [hn, h]

theorem lowbit_pos {n : Nat} (hn : 0 < n) : 0 < lowbit n := by
  induction n using Nat.strong_induction_on with
  | _ n ih =>
    rcases Nat.even_or_odd n with he | ho
    · have h2 : n % 2 = 0 := Nat.even_iff.mp he
      rw [lowbit_even (by omega) h2]
      have : 0 < lowbit (n / 2) := ih (n / 2) (Nat.div_lt_self hn (by omega)) (by omega)
      omega
    · rw [lowbit_odd (Nat.odd_iff.mp ho)]; omega

theorem lowbit_le {n : Nat} (hn : 0 < n) : lowbit n ≤ n := by
  induction n using Nat.strong_induction_on with
  | _ n ih =>
    rcases Nat.even_or_odd n with he | ho
    · have h2 : n % 2 = 0 := Nat.even_iff.mp he
      rw [lowbit_even (by omega) h2]
      have : lowbit (n / 2) ≤ n / 2 := ih (n / 2) (Nat.div_lt_self hn (by omega)) (by omega)
      omega
    · rw [lowbit_odd (Nat.odd_iff.mp ho)]; omega

/-- `n - lowbit n` is even: removing the lowest set bit leaves bits ≥ the next
position, and if the lowest set bit is bit 0 the remainder has bit 0 clear. -/
theorem lowbit_sub_even {n : Nat} (hn : 0 < n) : (n - lowbit n) % 2 = 0 := by
  rcases Nat.even_or_odd n with he | ho
  · have h2 : n % 2 = 0 := Nat.even_iff.mp he
    rw [lowbit_even (by omega) h2]
    omega
  · rw [lowbit_odd (Nat.odd_iff.mp ho)]
    have h1 : n % 2 = 1 := Nat.odd_iff.mp ho
    omega

/-- A step of the Fenwick update walk: any cell `j` responsible for position `s`
(`j - lowbit j < s < j`) is at or above the next walk position `s + lowbit s`. -/
theorem update_chain_step {s j : Nat} (hs : 0 < s) (hsj : s < j)
    (hcov : j - lowbit j < s) : s + lowbit s ≤ j := by
  induction j using Nat.strong_induction_on generalizing s with
  | _ j ih =>
    rcases Nat.even_or_odd j with hje | hjo
    · have hj2 : j % 2 = 0 := Nat.even_iff.mp hje
      rcases Nat.even_or_odd s with hse | hso
      · -- both even: divide by two and recurse
        have hs2 : s % 2 = 0 := Nat.even_iff.mp hse
        have hlj := lowbit_even (by omega) hj2
        have hls := lowbit_even (by omega) hs2
        have hljle : lowbit (j / 2) ≤ j / 2 := lowbit_le (by omega)
        have hrec := ih (j / 2) (Nat.div_lt_self (by omega) (by omega))
          (s := s / 2) (by omega) (by omega) (by omega)
        omega
      · -- s odd: lowbit s = 1 and s < j suffices
        rw [lowbit_odd (Nat.odd_iff.mp hso)]; omega
    · -- j odd: lowbit j = 1 so j - 1 < s < j is impossible
      have := lowbit_odd (Nat.odd_iff.mp hjo)
      omega

/-- Converse step of the Fenwick update walk: a cell at or above the next walk
position that is responsible for it is responsible for the current position. -/
theorem update_chain_step_rev {s j : Nat} (hs : 0 < s)
    (hsj : s + lowbit s ≤ j) (hcov : j - lowbit j < s + lowbit s) :
    j - lowbit j < s := by
  induction j using Nat.strong_induction_on generalizing s with
  | _ j ih =>
    have hls : 0 < lowbit s := lowbit_pos hs
    have hlj : 0 < lowbit j := lowbit_pos (by omega)
    have hljle : lowbit j ≤ j := lowbit_le (by omega)
    rcases Nat.even_or_odd s with hse | hso
    · have hs2 : s % 2 = 0 := Nat.even_iff.mp hse
      rcases Nat.even_or_odd j with hje | hjo
      · -- both even: divide by two and recurse
        have hj2 : j % 2 = 0 := Nat.even_iff.mp hje
        have hlje := lowbit_even (by omega) hj2
        have hlse := lowbit_even (by omega) hs2
        have hjle2 : lowbit (j / 2) ≤ j / 2 := lowbit_le (by omega)
        have hrec := ih (j / 2) (Nat.div_lt_self (by omega) (by omega))
          (s := s / 2) (by omega) (by omega) (by omega)
        omega
      · -- s even, j odd: j = s + lowbit s is even, contradiction
        have hj1 := lowbit_odd (Nat.odd_iff.mp hjo)
        have hj2 : j % 2 = 1 := Nat.odd_iff.mp hjo
        have hlse := lowbit_even (by omega) hs2
        omega
    · -- s odd: j - lowbit j ≤ s, and j - lowbit j is even while s is odd
      have hs1 := lowbit_odd (Nat.odd_iff.mp hso)
      have heven : (j - lowbit j) % 2 = 0 := lowbit_sub_even (by omega)
      have hs2 : s % 2 = 1 := Nat.odd_iff.mp hso
      omega

/-!
## Fenwick tree (`src/cpp/fenwick_tree.cpp`, class `FenwickTree<T>`, `T = int`)

`tree : Nat → Int` models the `std::vector<T> tree` of `size + 1` cells
(1-indexed; cell 0 is never read).  Every source access `tree[i]` happens with
`1 ≤ i ≤ size`, where the two models agree.
-/

structure FenwickTree where
  size : Nat
  zero : Int
  tree : Nat → Int

/-- `FenwickTree(size, zero)`: allocates `size + 1` cells initialized to `zero`. -/
def mkFenwickTree (size : Nat) (zero : Int) : FenwickTree :=
  ⟨size, zero, fun _ => zero⟩

/-- The `while (index <= size)` loop of `FenwickTree::update`, after conversion
to 1-based indexing.  The loop is entered with `index ≥ 1` and every iteration
increases it, so the extra `1 ≤ i` guard (needed for termination) never differs
from the source condition on reachable arguments. -/
def updateLoop (size : Nat) (delta : Int) (tree : Nat → Int) (i : Nat) : Nat → Int :=
  if h : 1 ≤ i ∧ i ≤ size then
    updateLoop size delta (fun j => if j = i then tree j + delta else tree j) (i + lowbit i)
  else tree
termination_by size + 1 - i
decreasing_by
  have := lowbit_pos (show 0 < i by omega)
  omega

/-- The `while (index > 0)` loop of `FenwickTree::query`, after conversion to
1-based indexing. -/
def queryLoop (tree : Nat → Int) (acc : Int) (i : Nat) : Int :=
  if h : 1 ≤ i then
    queryLoop tree (acc + tree i) (i - lowbit i)
  else acc
termination_by i
decreasing_by
  have h1 := lowbit_pos (show 0 < i by omega)
  have h2 := lowbit_le (show 0 < i by omega)
  omega

/-- `FenwickTree::update(index, delta)`. -/
def FenwickTree.update (t : FenwickTree) (index : Int) (delta : Int) :
    Except String FenwickTree :=
  if index < 0 ∨ (t.size : Int) ≤ index then
    .error "Index out of bounds"
  else
    .ok { t with tree := updateLoop t.size delta t.tree (index.toNat + 1) }

/-- The value `FenwickTree::query(index)` computes once its bounds check has
passed (the sum of the cells on the 1-based descent from `index + 1`). -/
def FenwickTree.queryVal (t : FenwickTree) (index : Int) : Int :=
  queryLoop t.tree t.zero (index.toNat + 1)

/-- `FenwickTree::query(index)`. -/
def FenwickTree.query (t : FenwickTree) (index : Int) : Except String Int :=
  if index < 0 ∨ (t.size : Int) ≤ index then
    .error "Index out of bounds"
  else
    .ok (t.queryVal index)

/-- `FenwickTree::range_query(left, right)` (C++ version: only `left > right`
short-circuits; other invalid bounds propagate `query`'s exception). -/
def FenwickTree.range_query (t : FenwickTree) (left right : Int) : Except String Int :=
  if left > right then
    .ok t.zero
  else if left = 0 then
    t.query right
  else do
    let a ← t.query right
    let b ← t.query (left - 1)
    return a - b

/-- `FenwickTree.rangeQuery(l, r)` (Java version, `src/java/fenwick_tree.java`:
any invalid bound returns `zero`; the remaining cases are in range, so the
`query` calls cannot throw and the result is a plain value). -/
def FenwickTree.rangeQueryJava (t : FenwickTree) (l r : Int) : Int :=
  if l > r ∨ l < 0 ∨ (t.size : Int) ≤ r then
    t.zero
  else if l = 0 then
    t.queryVal r
  else
    t.queryVal r - t.queryVal (l - 1)

/-- `FenwickTree::get_value(index)` (C++ version). -/
def FenwickTree.get_value (t : FenwickTree) (index : Int) : Except String Int :=
  if index = 0 then
    t.query 0
  else do
    let a ← t.query index
    let b ← t.query (index - 1)
    return a - b

/-- `FenwickTree::length()`. -/
def FenwickTree.length (t : FenwickTree) : Nat := t.size

/-- The prefix array computed by `FenwickTree::from_array`:
`prefix[0] = zero`, `prefix[i+1] = prefix[i] + arr[i]`. -/
def fromArrayPfx (arr : List Int) (zero : Int) : Nat → Int
  | 0 => zero
  | k + 1 => fromArrayPfx arr zero k + arr.getD k 0

/-- `FenwickTree::from_array(arr, zero)`: `tree[i] = prefix[i] - prefix[i - (i & -i)]`
for `1 ≤ i ≤ n` (`range_start - 1 = i - (i & -i)`); cell 0 keeps its initial
`zero`. -/
def FenwickTree.from_array (arr : List Int) (zero : Int) : FenwickTree :=
  let n := arr.length
  { size := n
    zero := zero
    tree := fun i =>
      if 1 ≤ i ∧ i ≤ n then
        fromArrayPfx arr zero i - fromArrayPfx arr zero (i - lowbit i)
      else zero }

/-!
### The abstract model: the implicit underlying array and its prefix sums
-/

/-- `prefixSum a m = a 0 + a 1 + ⋯ + a (m-1)`. -/
def prefixSum (a : Nat → Int) : Nat → Int
  | 0 => 0
  | m + 1 => prefixSum a m + a m

theorem prefixSum_congr {a b : Nat → Int} (h : ∀ k, a k = b k) :
    ∀ m, prefixSum a m = prefixSum b m := by
  intro m
  induction m with
  | zero => rfl
  | succ m ih => simp [prefixSum, ih, h m]

theorem prefixSum_add (a b : Nat → Int) (m : Nat) :
    prefixSum (fun k => a k + b k) m = prefixSum a m + prefixSum b m := by
  induction m with
  | zero => rfl
  | succ m ih => simp [prefixSum, ih]; ring

theorem prefixSum_single (idx : Int) (δ : Int) (m : Nat) :
    prefixSum (fun k => if idx = (k : Int) then δ else 0) m =
      if 0 ≤ idx ∧ idx < (m : Int) then δ else 0 := by
  induction m with
  | zero =>
    rw [if_neg (by omega : ¬(0 ≤ idx ∧ idx < ((0:Nat) : Int)))]
    rfl
  | succ m ih =>
    rw [prefixSum, ih]
    simp only [Nat.cast_succ]
    by_cases h : idx = (m : Int)
    · rw [if_pos h, if_neg (by omega : ¬(0 ≤ idx ∧ idx < (m:Int))),
        if_pos (by omega : 0 ≤ idx ∧ idx < (m:Int) + 1)]
      ring
    · rw [if_neg h]
      by_cases h2 : 0 ≤ idx ∧ idx < (m : Int)
      · rw [if_pos h2, if_pos (by omega : 0 ≤ idx ∧ idx < (m:Int) + 1)]
        ring
      · rw [if_neg h2, if_neg (by omega : ¬(0 ≤ idx ∧ idx < (m:Int) + 1))]
        ring

theorem prefixSum_mono {a : Nat → Int} (ha : ∀ k, 0 ≤ a k) {m₁ m₂ : Nat}
    (h : m₁ ≤ m₂) : prefixSum a m₁ ≤ prefixSum a m₂ := by
  induction m₂ with
  | zero =>
    have h0 : m₁ = 0 := by omega
    subst h0
    exact le_refl _
  | succ m ih =>
    rcases Nat.lt_or_ge m₁ (m + 1) with hlt | hge
    · have h1 := ih (by omega)
      have h2 := ha m
      rw [prefixSum]
      omega
    · have h0 : m₁ = m + 1 := by omega
      subst h0
      exact le_refl _

/-- The Fenwick decomposition invariant: every cell `j` with `1 ≤ j ≤ size`
holds the sum of the logical elements in `(j - lowbit j, j]` (1-based), i.e.
`prefixSum a j - prefixSum a (j - lowbit j)`. -/
def goodTree (a : Nat → Int) (t : FenwickTree) : Prop :=
  ∀ j, 1 ≤ j → j ≤ t.size → t.tree j = prefixSum a j - prefixSum a (j - lowbit j)

theorem goodTree_congr {a b : Nat → Int} (h : ∀ k, a k = b k) {t : FenwickTree}
    (ht : goodTree a t) : goodTree b t := by
  intro j h1 h2
  rw [ht j h1 h2, prefixSum_congr h, prefixSum_congr h]

theorem goodTree_mk (size : Nat) : goodTree (fun _ => 0) (mkFenwickTree size 0) := by
  intro j h1 h2
  have hz : ∀ m, prefixSum (fun _ => (0:Int)) m = 0 := by
    intro m
    induction m with
    | zero => rfl
    | succ m ih => simp [prefixSum, ih]
  simp [mkFenwickTree, hz]

/-- Effect of the update walk on each cell: exactly the cells `j ≤ size` whose
responsibility range `(j - lowbit j, j]` contains the start position `s`
receive `delta`. -/
theorem updateLoop_eq (size : Nat) (δ : Int) (tree : Nat → Int) (s : Nat)
    (hs : 1 ≤ s) (j : Nat) :
    updateLoop size δ tree s j =
      if s ≤ j ∧ j ≤ size ∧ j - lowbit j < s then tree j + δ else tree j := by
  have hls := lowbit_pos (show 0 < s by omega)
  have hlsle := lowbit_le (show 0 < s by omega)
  rw [updateLoop]
  by_cases hcond : 1 ≤ s ∧ s ≤ size
  · rw [dif_pos hcond]
    rw [updateLoop_eq size δ _ (s + lowbit s) (by omega) j]
    by_cases hjs : j = s
    · subst hjs
      have hn : ¬(j + lowbit j ≤ j ∧ j ≤ size ∧ j - lowbit j < j + lowbit j) := by omega
      have hp : j ≤ j ∧ j ≤ size ∧ j - lowbit j < j := ⟨le_refl j, hcond.2, by omega⟩
      rw [if_neg hn, if_pos hp]
      simp
    · have hiff : (s + lowbit s ≤ j ∧ j ≤ size ∧ j - lowbit j < s + lowbit s) ↔
          (s ≤ j ∧ j ≤ size ∧ j - lowbit j < s) := by
        constructor
        · rintro ⟨h1, h2, h3⟩
          exact ⟨by omega, h2, update_chain_step_rev (by omega) h1 h3⟩
        · rintro ⟨h1, h2, h3⟩
          have hlt : s < j := by omega
          exact ⟨update_chain_step (by omega) hlt h3, h2, by omega⟩
      simp only [hjs, ite_false]
      exact if_congr hiff rfl rfl
  · rw [dif_neg hcond]
    rw [if_neg (by omega : ¬(s ≤ j ∧ j ≤ size ∧ j - lowbit j < s))]
termination_by size + 1 - s
decreasing_by
  omega



/-- One `update` preserves the Fenwick invariant, bumping the model array at
the updated position. -/
theorem goodTree_update {a : Nat → Int} {t : FenwickTree} (ht : goodTree a t)
    (idx : Int) (h0 : 0 ≤ idx) (h1 : idx < (t.size : Int)) (δ : Int) :
    goodTree (fun k => a k + if idx = (k : Int) then δ else 0)
      { t with tree := updateLoop t.size δ t.tree (idx.toNat + 1) } := by
  intro j hj1 hj2
  have hidx : (idx.toNat : Int) = idx := Int.toNat_of_nonneg h0
  have hjsize : j ≤ t.size := hj2
  rw [show ({ t with tree := updateLoop t.size δ t.tree (idx.toNat + 1) } :
      FenwickTree).tree = updateLoop t.size δ t.tree (idx.toNat + 1) from rfl]
  rw [updateLoop_eq t.size δ t.tree (idx.toNat + 1) (by omega) j]
  rw [prefixSum_add, prefixSum_add, prefixSum_single, prefixSum_single]
  have hlj1 := lowbit_pos (show 0 < j by omega)
  have hlj2 := lowbit_le (show 0 < j by omega)
  have htj := ht j hj1 hj2
  by_cases hc : idx.toNat + 1 ≤ j ∧ j ≤ t.size ∧ j - lowbit j < idx.toNat + 1
  · rw [if_pos hc, htj]
    rw [if_pos (by omega : 0 ≤ idx ∧ idx < (j : Int)),
      if_neg (by omega : ¬(0 ≤ idx ∧ idx < ((j - lowbit j : Nat) : Int)))]
    ring
  · rw [if_neg hc, htj]
    by_cases hlt : idx.toNat + 1 ≤ j
    · -- the cell is above the position but not responsible: both prefixes contain idx
      have hge : ¬(j - lowbit j < idx.toNat + 1) := by omega
      rw [if_pos (by omega : 0 ≤ idx ∧ idx < (j : Int)),
        if_pos (by omega : 0 ≤ idx ∧ idx < ((j - lowbit j : Nat) : Int))]
      ring
    · -- the cell is below the position: neither prefix contains idx
      rw [if_neg (by omega : ¬(0 ≤ idx ∧ idx < (j : Int))),
        if_neg (by omega : ¬(0 ≤ idx ∧ idx < ((j - lowbit j : Nat) : Int)))]
      ring

/-- The query descent telescopes the invariant cells into a prefix sum. -/
theorem queryLoop_eq {a : Nat → Int} {size : Nat} {tree : Nat → Int}
    (h : ∀ j, 1 ≤ j → j ≤ size → tree j = prefixSum a j - prefixSum a (j - lowbit j))
    (acc : Int) (i : Nat) (hi : i ≤ size) :
    queryLoop tree acc i = acc + prefixSum a i := by
  induction i using Nat.strong_induction_on generalizing acc with
  | _ i ih =>
    rw [queryLoop]
    by_cases h1 : 1 ≤ i
    · rw [dif_pos h1]
      have hl1 := lowbit_pos (show 0 < i by omega)
      have hl2 := lowbit_le (show 0 < i by omega)
      rw [ih (i - lowbit i) (by omega) (acc + tree i) (by omega)]
      rw [h i h1 hi]
      ring
    · rw [dif_neg h1]
      have : i = 0 := by omega
      subst this
      simp [prefixSum]

/-!
### Sequences of updates
-/

/-- Apply a list of `update(index, delta)` calls in order; any thrown
exception propagates. -/
def applyUpdates (t : FenwickTree) : List (Int × Int) → Except String FenwickTree
  | [] => .ok t
  | u :: rest => do applyUpdates (← t.update u.1 u.2) rest

/-- The implicit underlying array determined by a list of updates:
`netDeltas us k` is the sum of all deltas applied at index `k`. -/
def netDeltas (us : List (Int × Int)) (k : Nat) : Int :=
  ((us.filter (fun u => u.1 = (k : Int))).map Prod.snd).sum

theorem netDeltas_nil (k : Nat) : netDeltas [] k = 0 := rfl

theorem netDeltas_cons (u : Int × Int) (us : List (Int × Int)) (k : Nat) :
    netDeltas (u :: us) k = (if u.1 = (k : Int) then u.2 else 0) + netDeltas us k := by
  by_cases h : u.1 = (k : Int)
  · simp [netDeltas, List.filter_cons, h]
  · simp [netDeltas, List.filter_cons, h]

/-- Applying a list of in-range updates succeeds and preserves the Fenwick
invariant with the model array shifted by the updates' net deltas. -/
theorem applyUpdates_invariant (us : List (Int × Int)) (a : Nat → Int)
    (t : FenwickTree) (ht : goodTree a t)
    (hus : ∀ u ∈ us, 0 ≤ u.1 ∧ u.1 < (t.size : Int)) :
    ∃ t', applyUpdates t us = .ok t' ∧ t'.size = t.size ∧ t'.zero = t.zero ∧
      goodTree (fun k => a k + netDeltas us k) t' := by
  induction us generalizing a t with
  | nil =>
    refine ⟨t, rfl, rfl, rfl, ?_⟩
    exact goodTree_congr (fun k => by rw [netDeltas_nil]; ring) ht
  | cons u rest ih =>
    obtain ⟨hu0, hu1⟩ := hus u (List.mem_cons_self u rest)
    have hupd : t.update u.1 u.2 =
        .ok { t with tree := updateLoop t.size u.2 t.tree (u.1.toNat + 1) } := by
      rw [FenwickTree.update, if_neg (by omega)]
    have ht1 := goodTree_update ht u.1 hu0 hu1 u.2
    obtain ⟨t', h1, h2, h3, h4⟩ := ih _ _ ht1
      (fun v hv => hus v (List.mem_cons_of_mem u hv))
    refine ⟨t', ?_, h2, h3, ?_⟩
    · rw [applyUpdates, hupd]
      exact h1
    · refine goodTree_congr (fun k => ?_) h4
      rw [netDeltas_cons]
      ring

/-- `query` on a tree satisfying the invariant returns the prefix sum
`a 0 + ⋯ + a index` (when `zero = 0` and the index is in range). -/
theorem queryVal_eq {a : Nat → Int} {t : FenwickTree} (ht : goodTree a t)
    (hz : t.zero = 0) {index : Int} (h0 : 0 ≤ index) (h1 : index < (t.size : Int)) :
    t.queryVal index = prefixSum a (index.toNat + 1) := by
  rw [FenwickTree.queryVal, queryLoop_eq ht t.zero (index.toNat + 1) (by omega), hz]
  ring

theorem prefixSum_zero (m : Nat) : prefixSum (fun _ => (0 : Int)) m = 0 := by
  induction m with
  | zero => rfl
  | succ m ih => simp [prefixSum, ih]

/-- For updates with non-negative indices, the prefix sum of the net-delta
array up to `m` is the sum of all deltas applied at indices `< m`. -/
theorem prefixSum_netDeltas (us : List (Int × Int)) (hus : ∀ u ∈ us, 0 ≤ u.1)
    (m : Nat) :
    prefixSum (netDeltas us) m =
      ((us.filter (fun u => u.1 < (m : Int))).map Prod.snd).sum := by
  induction us with
  | nil =>
    rw [prefixSum_congr (fun k => netDeltas_nil k), prefixSum_zero]
    simp
  | cons u rest ih =>
    have h0 : 0 ≤ u.1 := hus u (List.mem_cons_self u rest)
    have hrest := ih (fun v hv => hus v (List.mem_cons_of_mem u hv))
    rw [prefixSum_congr (fun k => netDeltas_cons u rest k), prefixSum_add,
      prefixSum_single, hrest]
    by_cases h : u.1 < (m : Int)
    · rw [if_pos ⟨h0, h⟩]
      simp [List.filter_cons, h]
    · rw [if_neg (by omega)]
      simp [List.filter_cons, h]

/-!
### Claim C1
-/

/-- C1: for every Fenwick tree constructed as `FenwickTree(size, zero)` (with
`zero` the additive identity of `Int`) and every sequence of `update(index,
delta)` calls with valid indices, every in-range `query(i)` returns the sum of
all deltas applied at indices `≤ i` — the prefix sum `[0..i]` of the implicit
underlying array. -/
theorem C1_query_is_prefix_sum_of_deltas (size : Nat) (us : List (Int × Int))
    (hus : ∀ u ∈ us, 0 ≤ u.1 ∧ u.1 < (size : Int)) (i : Int)
    (hi : 0 ≤ i ∧ i < (size : Int)) :
    ∃ t, applyUpdates (mkFenwickTree size 0) us = .ok t ∧
      t.query i = .ok (((us.filter (fun u => u.1 ≤ i)).map Prod.snd).sum) := by
  obtain ⟨t, h1, h2, h3, h4⟩ := applyUpdates_invariant us (fun _ => 0)
    (mkFenwickTree size 0) (goodTree_mk size) hus
  refine ⟨t, h1, ?_⟩
  have hz : t.zero = 0 := h3
  have hsz : t.size = size := h2
  rw [FenwickTree.query, if_neg (by omega : ¬(i < 0 ∨ (t.size : Int) ≤ i))]
  have h4' : goodTree (netDeltas us) t :=
    goodTree_congr (fun k => by ring) h4
  rw [queryVal_eq h4' hz hi.1 (by omega)]
  rw [prefixSum_netDeltas us (fun u hu => (hus u hu).1)]
  have hflt : (us.filter (fun u => u.1 < ((i.toNat + 1 : Nat) : Int))) =
      (us.filter (fun u => u.1 ≤ i)) := by
    apply List.filter_congr
    intro u hu
    rw [decide_eq_decide]
    omega
  rw [hflt]

/-- Witness for C1: the spec scenario — a size-5 tree with `update(0,7)`,
`update(2,13)`, `update(4,19)` answers `query(4) = 39`. -/
theorem C1_witness :
    ∃ t, applyUpdates (mkFenwickTree 5 0) [(0, 7), (2, 13), (4, 19)] = .ok t ∧
      t.query 4 = .ok (((([((0:Int), (7:Int)), (2, 13), (4, 19)].filter
        (fun u => u.1 ≤ 4)).map Prod.snd).sum)) :=
  C1_query_is_prefix_sum_of_deltas 5 [(0, 7), (2, 13), (4, 19)]
    (by decide) 4 (by decide)

/-!
### Claim C4: `from_array` against "construct empty, then update each element"
-/

theorem FenwickTree.ext' {t₁ t₂ : FenwickTree} (h1 : t₁.size = t₂.size)
    (h2 : t₁.zero = t₂.zero) (h3 : ∀ j, t₁.tree j = t₂.tree j) : t₁ = t₂ := by
  cases t₁
  cases t₂
  simp only [FenwickTree.mk.injEq]
  exact ⟨h1, h2, funext h3⟩

/-- Updates applied from a list never touch cells outside `[1, size]`. -/
theorem applyUpdates_outside (us : List (Int × Int)) (t t' : FenwickTree)
    (h : applyUpdates t us = .ok t') (j : Nat) (hj : j = 0 ∨ t.size < j) :
    t'.tree j = t.tree j := by
  induction us generalizing t with
  | nil =>
    rw [applyUpdates] at h
    cases h
    rfl
  | cons u rest ih =>
    rw [applyUpdates] at h
    rw [FenwickTree.update] at h
    by_cases hb : u.1 < 0 ∨ (t.size : Int) ≤ u.1
    · rw [if_pos hb] at h
      exact absurd h (by simp [Bind.bind, Except.bind])
    · rw [if_neg hb] at h
      simp only [Bind.bind, Except.bind] at h
      have hrec := ih _ h (by simpa using hj)
      rw [hrec]
      show updateLoop t.size u.2 t.tree (u.1.toNat + 1) j = t.tree j
      rw [updateLoop_eq t.size u.2 t.tree (u.1.toNat + 1) (by omega) j]
      rw [if_neg (by omega)]

theorem fromArrayPfx_eq (arr : List Int) (k : Nat) :
    fromArrayPfx arr 0 k = prefixSum (fun j => arr.getD j 0) k := by
  induction k with
  | zero => rfl
  | succ k ih => rw [fromArrayPfx, prefixSum, ih]

theorem goodTree_from_array (arr : List Int) :
    goodTree (fun j => arr.getD j 0) (FenwickTree.from_array arr 0) := by
  intro j h1 h2
  have hl := lowbit_le (show 0 < j by omega)
  rw [show (FenwickTree.from_array arr 0).tree j =
    (if 1 ≤ j ∧ j ≤ arr.length then
      fromArrayPfx arr 0 j - fromArrayPfx arr 0 (j - lowbit j) else 0) from rfl]
  rw [if_pos ⟨h1, h2⟩, fromArrayPfx_eq, fromArrayPfx_eq]

theorem netDeltas_enumFrom (arr : List Int) (start k : Nat) :
    netDeltas ((List.enumFrom start arr).map (fun p => ((p.1 : Int), p.2))) k =
      if start ≤ k ∧ k < start + arr.length then arr.getD (k - start) 0 else 0 := by
  induction arr generalizing start with
  | nil => simp [netDeltas_nil]
  | cons x rest ih =>
    rw [List.enumFrom, List.map_cons, netDeltas_cons, ih (start + 1)]
    show (if (start : Int) = (k : Int) then x else 0) + _ = _
    simp only [List.length_cons]
    by_cases h : start = k
    · subst h
      rw [if_pos rfl, if_neg (by omega), if_pos (by omega)]
      rw [Nat.sub_self, List.getD_cons_zero]
      ring
    · rw [if_neg (by omega)]
      by_cases h2 : start + 1 ≤ k ∧ k < start + 1 + rest.length
      · rw [if_pos h2, if_pos (by omega)]
        have hks : k - start = (k - (start + 1)) + 1 := by omega
        rw [hks, List.getD_cons_succ]
        ring
      · rw [if_neg h2, if_neg (by omega)]
        ring

/-- The logical array determined by the updates `update(i, arr[i])`,
`i = 0, …, n-1`, is `arr` itself (extended by zeros). -/
theorem netDeltas_enum (arr : List Int) (k : Nat) :
    netDeltas (arr.enum.map (fun p => ((p.1 : Int), p.2))) k = arr.getD k 0 := by
  rw [List.enum, netDeltas_enumFrom]
  by_cases h : k < arr.length
  · rw [if_pos (by omega), Nat.sub_zero]
  · rw [if_neg (by omega)]
    rw [List.getD_eq_default]
    omega

theorem prefixSum_getD_eq_take_sum (arr : List Int) (m : Nat) :
    prefixSum (fun j => arr.getD j 0) m = (arr.take m).sum := by
  induction m with
  | zero => rfl
  | succ m ih =>
    rw [prefixSum, ih, List.take_succ, List.sum_append]
    have hgd : arr.getD m 0 = (arr[m]?).getD 0 := List.getD_eq_getElem?_getD arr m 0
    cases hcm : arr[m]? with
    | none => simp [hgd, hcm]
    | some a => simp [hgd, hcm]

/-- C4: `from_array(arr, zero)` builds exactly the tree obtained by
constructing `FenwickTree(arr.length, zero)` and calling `update(i, arr[i])`
for each `i` in order — the two states are equal, hence every subsequent
`query` / `range_query` / `get_value` / `update` behaves identically — and
`query(i)` is the prefix sum of `arr[0..i]` for every valid `i`. -/
theorem C4_from_array_observationally_equal (arr : List Int) :
    (∃ t, applyUpdates (mkFenwickTree arr.length 0)
        (arr.enum.map (fun p => ((p.1 : Int), p.2))) = .ok t ∧
      FenwickTree.from_array arr 0 = t) ∧
    (∀ i : Int, 0 ≤ i → i < (arr.length : Int) →
      (FenwickTree.from_array arr 0).query i = .ok ((arr.take (i.toNat + 1)).sum)) := by
  constructor
  · have hbounds : ∀ u ∈ arr.enum.map (fun p => ((p.1 : Int), p.2)),
        0 ≤ u.1 ∧ u.1 < ((mkFenwickTree arr.length 0).size : Int) := by
      intro u hu
      simp only [List.mem_map] at hu
      obtain ⟨p, hp, rfl⟩ := hu
      have hlt : p.1 < arr.length := by
        have h2 := List.mem_enum_iff_getElem?.mp hp
        by_contra hge
        rw [List.getElem?_eq_none (by omega)] at h2
        cases h2
      refine ⟨?_, ?_⟩
      · show (0 : Int) ≤ (p.1 : Int)
        exact Int.natCast_nonneg p.1
      · show (p.1 : Int) < (arr.length : Int)
        exact_mod_cast hlt
    obtain ⟨t, h1, h2, h3, h4⟩ := applyUpdates_invariant _ (fun _ => 0)
      (mkFenwickTree arr.length 0) (goodTree_mk arr.length) hbounds
    refine ⟨t, h1, FenwickTree.ext' ?_ ?_ ?_⟩
    · exact h2.symm
    · exact h3.symm
    · intro j
      by_cases hj : 1 ≤ j ∧ j ≤ arr.length
      · have hfa := goodTree_from_array arr j hj.1 hj.2
        have ht : goodTree (fun k => arr.getD k 0) t := by
          refine goodTree_congr (fun k => ?_) h4
          rw [netDeltas_enum]
          ring
        rw [hfa, ht j hj.1 (by rw [h2]; exact hj.2)]
      · have hout := applyUpdates_outside _ _ _ h1 j
          (by simpa using (by omega : j = 0 ∨ arr.length < j))
        rw [hout]
        rw [show (FenwickTree.from_array arr 0).tree j =
          (if 1 ≤ j ∧ j ≤ arr.length then
            fromArrayPfx arr 0 j - fromArrayPfx arr 0 (j - lowbit j) else 0) from rfl]
        rw [if_neg hj]
        rfl
  · intro i h0 h1
    have hgt := goodTree_from_array arr
    rw [FenwickTree.query, if_neg (by simp only [FenwickTree.from_array]; omega)]
    rw [queryVal_eq hgt rfl h0 (by simpa using h1)]
    rw [prefixSum_getD_eq_take_sum]

/-- Witness for C4: the spec scenario `from_array([1,2,3,4,5], 0)` has
`query(4) = 15`. -/
theorem C4_witness :
    (∃ t, applyUpdates (mkFenwickTree ([1,2,3,4,5] : List Int).length 0)
        (([1,2,3,4,5] : List Int).enum.map (fun p => ((p.1 : Int), p.2))) = .ok t ∧
      FenwickTree.from_array [1,2,3,4,5] 0 = t) ∧
    (FenwickTree.from_array ([1,2,3,4,5] : List Int) 0).query 4 =
      .ok ((([1,2,3,4,5] : List Int).take 5).sum) := by
  obtain ⟨ha, hb⟩ := C4_from_array_observationally_equal ([1,2,3,4,5] : List Int)
  exact ⟨ha, hb 4 (by decide) (by decide)⟩

/-!
### Claims C5, C9: failure semantics and the frame of read-only operations

`applyFOp` runs one method call against a tree state.  `query`, `range_query`,
`get_value` and `length` contain no write to any field in the source, so their
state effect is the identity; `update` throws before its first write, so a
failed `update` also leaves the object unchanged.
-/

inductive FOp where
  | update (index δ : Int)
  | query (index : Int)
  | range_query (l r : Int)
  | get_value (index : Int)
  | length

def applyFOp (t : FenwickTree) : FOp → FenwickTree
  | .update i δ =>
    match t.update i δ with
    | .ok t' => t'
    | .error _ => t
  | .query _ => t
  | .range_query _ _ => t
  | .get_value _ => t
  | .length => t

def applyFOps (t : FenwickTree) (ops : List FOp) : FenwickTree :=
  ops.foldl applyFOp t

theorem applyFOp_size (t : FenwickTree) (op : FOp) : (applyFOp t op).size = t.size := by
  cases op with
  | update i δ =>
    rw [applyFOp]
    rw [FenwickTree.update]
    by_cases h : i < 0 ∨ (t.size : Int) ≤ i
    · rw [if_pos h]
    · rw [if_neg h]
  | query i => rfl
  | range_query l r => rfl
  | get_value i => rfl
  | length => rfl

theorem applyFOps_size (t : FenwickTree) (ops : List FOp) :
    (applyFOps t ops).size = t.size := by
  induction ops generalizing t with
  | nil => rfl
  | cons op rest ih =>
    rw [applyFOps, List.foldl_cons]
    rw [show List.foldl applyFOp (applyFOp t op) rest = applyFOps (applyFOp t op) rest from rfl]
    rw [ih, applyFOp_size]

/-- C9: `query`, `range_query`, `get_value` and `length` leave the tree state
(tree array and size) unchanged; no operation changes the size fixed at
construction: after any operation sequence, `length()` still returns the
constructor's size (or the input array's length for `from_array`). -/
theorem C9_reads_pure_and_size_immutable :
    (∀ (t : FenwickTree) (i l r : Int),
      applyFOp t (.query i) = t ∧ applyFOp t (.range_query l r) = t ∧
      applyFOp t (.get_value i) = t ∧ applyFOp t .length = t) ∧
    (∀ (t : FenwickTree) (ops : List FOp), (applyFOps t ops).size = t.size) ∧
    (∀ (n : Nat) (z : Int) (ops : List FOp),
      (applyFOps (mkFenwickTree n z) ops).length = n) ∧
    (∀ (arr : List Int) (z : Int) (ops : List FOp),
      (applyFOps (FenwickTree.from_array arr z) ops).length = arr.length) := by
  refine ⟨fun t i l r => ⟨rfl, rfl, rfl, rfl⟩, applyFOps_size, ?_, ?_⟩
  · intro n z ops
    rw [FenwickTree.length, applyFOps_size]
    rfl
  · intro arr z ops
    rw [FenwickTree.length, applyFOps_size]
    rfl

/-- C5: `update`, `query` and `get_value` raise the out-of-range error exactly
when `index < 0 ∨ index ≥ size`; a failing `update` leaves the state unchanged
(the throw precedes every write), and in-range calls succeed. -/
theorem C5_strict_bounds_update_query_get_value (t : FenwickTree) (index δ : Int) :
    ((∃ e, t.update index δ = .error e) ↔ (index < 0 ∨ (t.size : Int) ≤ index)) ∧
    ((∃ e, t.query index = .error e) ↔ (index < 0 ∨ (t.size : Int) ≤ index)) ∧
    ((∃ e, t.get_value index = .error e) ↔ (index < 0 ∨ (t.size : Int) ≤ index)) ∧
    ((index < 0 ∨ (t.size : Int) ≤ index) → applyFOp t (.update index δ) = t) ∧
    (¬(index < 0 ∨ (t.size : Int) ≤ index) →
      (∃ t', t.update index δ = .ok t') ∧ (∃ v, t.query index = .ok v) ∧
        (∃ v, t.get_value index = .ok v)) := by
  have hq : ∀ (j : Int), (∃ e, t.query j = .error e) ↔ (j < 0 ∨ (t.size : Int) ≤ j) := by
    intro j
    rw [FenwickTree.query]
    by_cases h : j < 0 ∨ (t.size : Int) ≤ j
    · rw [if_pos h]
      exact ⟨fun _ => h, fun _ => ⟨_, rfl⟩⟩
    · rw [if_neg h]
      simp [h]
  refine ⟨?_, hq index, ?_, ?_, ?_⟩
  · rw [FenwickTree.update]
    by_cases h : index < 0 ∨ (t.size : Int) ≤ index
    · rw [if_pos h]
      exact ⟨fun _ => h, fun _ => ⟨_, rfl⟩⟩
    · rw [if_neg h]
      simp [h]
  · rw [FenwickTree.get_value]
    by_cases h0 : index = 0
    · rw [if_pos h0]
      rw [hq 0]
      subst h0
      constructor
      · intro h
        omega
      · intro h
        omega
    · rw [if_neg h0]
      by_cases hb : index < 0 ∨ (t.size : Int) ≤ index
      · have he : t.query index = .error "Index out of bounds" := by
          rw [FenwickTree.query, if_pos hb]
        rw [he]
        simp only [Bind.bind, Except.bind]
        exact ⟨fun _ => hb, fun _ => ⟨_, rfl⟩⟩
      · have ho : t.query index = .ok (t.queryVal index) := by
          rw [FenwickTree.query, if_neg hb]
        have hb2 : ¬(index - 1 < 0 ∨ (t.size : Int) ≤ index - 1) := by omega
        have ho2 : t.query (index - 1) = .ok (t.queryVal (index - 1)) := by
          rw [FenwickTree.query, if_neg hb2]
        rw [ho]
        simp only [Bind.bind, Except.bind]
        rw [ho2]
        simp only [pure, Except.pure]
        constructor
        · rintro ⟨e, he⟩
          cases he
        · intro h
          exact absurd h hb
  · intro h
    rw [applyFOp, FenwickTree.update, if_pos h]
  · intro h
    refine ⟨?_, ?_, ?_⟩
    · exact ⟨_, by rw [FenwickTree.update, if_neg h]⟩
    · exact ⟨_, by rw [FenwickTree.query, if_neg h]⟩
    · rw [FenwickTree.get_value]
      by_cases h0 : index = 0
      · rw [if_pos h0]
        refine ⟨t.queryVal 0, ?_⟩
        rw [FenwickTree.query, if_neg (by omega)]
      · rw [if_neg h0]
        have ho : t.query index = .ok (t.queryVal index) := by
          rw [FenwickTree.query, if_neg h]
        have ho2 : t.query (index - 1) = .ok (t.queryVal (index - 1)) := by
          rw [FenwickTree.query, if_neg (by omega)]
        refine ⟨t.queryVal index - t.queryVal (index - 1), ?_⟩
        rw [ho]
        simp only [Bind.bind, Except.bind]
        rw [ho2]
        rfl

/-- Witness for C5: on a size-5 tree, `update(-1, 3)` errors and leaves the
state unchanged, while `update(2, 3)`, `query(2)` and `get_value(2)` succeed. -/
theorem C5_witness :
    (∃ e, (mkFenwickTree 5 0).update (-1) 3 = .error e) ∧
    applyFOp (mkFenwickTree 5 0) (.update (-1) 3) = mkFenwickTree 5 0 ∧
    (∃ t', (mkFenwickTree 5 0).update 2 3 = .ok t') ∧
    (∃ v, (mkFenwickTree 5 0).query 2 = .ok v) ∧
    (∃ v, (mkFenwickTree 5 0).get_value 2 = .ok v) := by
  have h1 := C5_strict_bounds_update_query_get_value (mkFenwickTree 5 0) (-1) 3
  have h2 := C5_strict_bounds_update_query_get_value (mkFenwickTree 5 0) 2 3
  refine ⟨h1.1.mpr (by decide), h1.2.2.2.1 (by decide), ?_⟩
  have hs := h2.2.2.2.2 (by decide)
  exact ⟨hs.1, hs.2.1, hs.2.2⟩

/-!
### Claim C2: `range_query` edge-case policy

The C++ `range_query` only short-circuits on `left > right`; an ordered pair
with an out-of-range bound reaches `query`, which throws.  The Java
`rangeQuery` checks `l > r || l < 0 || r >= size` and returns `zero` for all
of them (and its `testBoundsChecking` asserts exactly that).
-/

/-- C2: `range_query(left, right)` returns `zero` for `left > right` in both
implementations, but the C++ version propagates `query`'s out-of-range
exception for an ordered pair with an out-of-range bound — e.g.
`range_query(-1, 2)` on a size-5 tree — where the Java version returns `zero`. -/
theorem C2_cpp_range_query_throws_on_out_of_range_bound :
    (∀ (t : FenwickTree) (l r : Int), l > r → t.range_query l r = .ok t.zero) ∧
    (mkFenwickTree 5 0).range_query (-1) 2 = .error "Index out of bounds" ∧
    (mkFenwickTree 5 0).rangeQueryJava (-1) 2 = 0 ∧
    (mkFenwickTree 5 0).range_query 5 3 = .ok 0 := by
  refine ⟨?_, ?_, ?_, ?_⟩
  · intro t l r h
    rw [FenwickTree.range_query, if_pos h]
  · rw [FenwickTree.range_query, if_neg (by omega), if_neg (by omega)]
    have hq : (mkFenwickTree 5 0).query 2 = .ok ((mkFenwickTree 5 0).queryVal 2) := by
      rw [FenwickTree.query, if_neg (by decide)]
    have he : (mkFenwickTree 5 0).query (-1 - 1) = .error "Index out of bounds" := by
      rw [FenwickTree.query, if_pos (by decide)]
    rw [hq]
    simp only [Bind.bind, Except.bind]
    rw [he]
  · rfl
  · rw [FenwickTree.range_query, if_pos (by decide)]
    rfl

/-- Witness for C2's universally quantified part: `range_query(5, 3)` on a
size-10 tree returns the zero element. -/
theorem C2_witness : (mkFenwickTree 10 0).range_query 5 3 = .ok (mkFenwickTree 10 0).zero :=
  C2_cpp_range_query_throws_on_out_of_range_bound.1 (mkFenwickTree 10 0) 5 3 (by decide)

/-!
### Claim C3: `firstNonzeroIndex` (Java, `src/java/fenwick_tree.java`)

The instantiation is `T = Long` with `Long::compare`, modelled as `Int` with
its order.  `Integer.highestOneBit(size)` is the largest power of two `≤ size`
(0 for 0).
-/

/-- `Integer.highestOneBit(n)` for non-negative `n`. -/
def highestOneBit (n : Nat) : Nat :=
  if n = 0 then 0
  else if n = 1 then 1
  else 2 * highestOneBit (n / 2)
termination_by n
decreasing_by
  rename_i h1 h2
  exact Nat.div_lt_self (by omega) (by omega)

theorem highestOneBit_spec {n : Nat} (hn : 0 < n) :
    ∃ k, highestOneBit n = 2 ^ k ∧ 2 ^ k ≤ n ∧ n < 2 ^ (k + 1) := by
  induction n using Nat.strong_induction_on with
  | _ n ih =>
    by_cases h1 : n = 1
    · subst h1
      refine ⟨0, ?_, by omega, by omega⟩
      rw [highestOneBit]
      simp
    · obtain ⟨k, hk1, hk2, hk3⟩ := ih (n / 2) (Nat.div_lt_self hn (by omega)) (by omega)
      refine ⟨k + 1, ?_, ?_, ?_⟩
      · rw [highestOneBit, if_neg (by omega), if_neg h1, hk1]
        rw [pow_succ]
        ring
      · rw [pow_succ]
        omega
      · rw [pow_succ]
        omega

/-- The lowest set bit of an odd multiple of `2 ^ k` is `2 ^ k`. -/
theorem lowbit_odd_mul_pow2 (c k : Nat) : lowbit ((2 * c + 1) * 2 ^ k) = 2 ^ k := by
  induction k with
  | zero =>
    rw [pow_zero, Nat.mul_one]
    exact lowbit_odd (by omega)
  | succ k ih =>
    have hpos : 0 < (2 * c + 1) * 2 ^ k := by positivity
    have hrw : (2 * c + 1) * 2 ^ (k + 1) = 2 * ((2 * c + 1) * 2 ^ k) := by
      rw [pow_succ]
      ring
    rw [hrw, lowbit_even (by omega) (by omega)]
    rw [Nat.mul_div_cancel_left _ (by omega : 0 < 2), ih, pow_succ]
    ring

/-- The `while (bit > 0)` descent of `firstNonzeroIndex` (the local variables
`nxt` and `cand` of the source are inlined). -/
def fniLoop (tree : Nat → Int) (size : Nat) (target : Int)
    (idx : Nat) (cur : Int) (bit : Nat) : Nat :=
  if bit = 0 then idx
  else if idx + bit ≤ size then
    if cur + tree (idx + bit) ≤ target then
      fniLoop tree size target (idx + bit) (cur + tree (idx + bit)) (bit / 2)
    else
      fniLoop tree size target idx cur (bit / 2)
  else
    fniLoop tree size target idx cur (bit / 2)
termination_by bit
decreasing_by
  all_goals omega

/-- `FenwickTree.firstNonzeroIndex(startIndex, comparator)`: `null` is `none`.
The source's locals `prefixBefore` (the target) and `total` are written out in
place.  All `query` calls of the source are in range on this path, so they are
the plain values `queryVal`. -/
def FenwickTree.firstNonzeroIndex (t : FenwickTree) (startIndex : Int) : Option Nat :=
  if (t.size : Int) ≤ max startIndex 0 then none
  else if t.queryVal ((t.size : Int) - 1) =
      (if 0 < max startIndex 0 then t.queryVal (max startIndex 0 - 1) else t.zero) then
    none
  else
    some (fniLoop t.tree t.size
      (if 0 < max startIndex 0 then t.queryVal (max startIndex 0 - 1) else t.zero)
      0 t.zero (highestOneBit t.size))

theorem prefixSum_succ_sub (a : Nat → Int) (m : Nat) :
    prefixSum a (m + 1) - prefixSum a m = a m := by
  rw [prefixSum]
  ring

/-- Postcondition of the descent: it stops at the largest reachable position
whose prefix sum still fits under the target. -/
theorem fniLoop_spec (a : Nat → Int) (size : Nat) (tree : Nat → Int)
    (hg : ∀ j, 1 ≤ j → j ≤ size → tree j = prefixSum a j - prefixSum a (j - lowbit j))
    (hnn : ∀ k, 0 ≤ a k) (target : Int) (bit idx : Nat) (cur : Int)
    (hbit : bit = 0 ∨ ∃ k, bit = 2 ^ k)
    (hdvd : bit ≠ 0 → 2 * bit ∣ idx)
    (hidx : idx ≤ size) (hcur : cur = prefixSum a idx)
    (hle : prefixSum a idx ≤ target)
    (hub : ∀ m, idx + max (2 * bit) 1 ≤ m → m ≤ size → target < prefixSum a m) :
    fniLoop tree size target idx cur bit ≤ size ∧
    prefixSum a (fniLoop tree size target idx cur bit) ≤ target ∧
    (∀ m, fniLoop tree size target idx cur bit < m → m ≤ size →
      target < prefixSum a m) := by
  induction bit using Nat.strong_induction_on generalizing idx cur with
  | _ bit ih =>
    rw [fniLoop]
    by_cases hb0 : bit = 0
    · rw [if_pos hb0]
      subst hb0
      refine ⟨hidx, hle, ?_⟩
      intro m h1 h2
      exact hub m (by omega) h2
    · rw [if_neg hb0]
      obtain ⟨k, hk⟩ := hbit.resolve_left hb0
      have hbpos : 0 < bit := by omega
      have hhalf : bit = 1 ∨ (2 ≤ bit ∧ bit / 2 = 2 ^ (k - 1) ∧ 2 * (bit / 2) = bit) := by
        cases k with
        | zero => left; rw [hk, pow_zero]
        | succ k' =>
          right
          rw [hk, pow_succ]
          have hp2 : 0 < 2 ^ k' := pow_pos (by omega) k'
          refine ⟨by omega, ?_, ?_⟩
          · rw [Nat.mul_div_cancel _ (by omega : 0 < 2)]
            simp
          · rw [Nat.mul_div_cancel _ (by omega : 0 < 2)]
            ring
      have hbit' : bit / 2 = 0 ∨ ∃ k', bit / 2 = 2 ^ k' := by
        rcases hhalf with h | ⟨_, h, _⟩
        · left; omega
        · right; exact ⟨k - 1, h⟩
      by_cases hnxt : idx + bit ≤ size
      · rw [if_pos hnxt]
        -- the cell read is exactly the block (idx, idx + bit]
        obtain ⟨c, hc⟩ := hdvd hb0
        have hlow : lowbit (idx + bit) = bit := by
          have hib : idx + bit = (2 * c + 1) * 2 ^ k := by
            rw [← hk, hc]
            ring
          rw [hib, lowbit_odd_mul_pow2, ← hk]
        have htree : tree (idx + bit) = prefixSum a (idx + bit) - prefixSum a idx := by
          rw [hg (idx + bit) (by omega) hnxt, hlow]
          congr 2
          omega
        have hcand : cur + tree (idx + bit) = prefixSum a (idx + bit) := by
          rw [hcur, htree]
          ring
        by_cases hacc : cur + tree (idx + bit) ≤ target
        · rw [if_pos hacc]
          refine ih (bit / 2) (by omega) (idx + bit) _ hbit' ?_ hnxt hcand
            (by rw [hcand] at hacc; exact hacc) ?_
          · intro hb2
            rcases hhalf with h | ⟨hge, hhk, h⟩
            · omega
            · refine ⟨2 * c + 1, ?_⟩
              rw [h, hc]
              ring
          · intro m h1 h2
            refine hub m ?_ h2
            rcases hhalf with h | ⟨hge, _, h⟩ <;> omega
        · rw [if_neg hacc]
          have hgt : target < prefixSum a (idx + bit) := by
            rw [← hcand]
            omega
          refine ih (bit / 2) (by omega) idx cur hbit' ?_ hidx hcur hle ?_
          · intro hb2
            have h2b : 2 * (bit / 2) ∣ 2 * bit := by
              rcases hhalf with h | ⟨_, _, h⟩
              · omega
              · rw [h]
                exact ⟨2, by ring⟩
            exact dvd_trans h2b (hdvd hb0)
          · intro m h1 h2
            have hm : idx + bit ≤ m := by
              rcases hhalf with h | ⟨hge, _, h⟩ <;> omega
            calc target < prefixSum a (idx + bit) := hgt
              _ ≤ prefixSum a m := prefixSum_mono hnn hm
      · rw [if_neg hnxt]
        refine ih (bit / 2) (by omega) idx cur hbit' ?_ hidx hcur hle ?_
        · intro hb2
          have h2b : 2 * (bit / 2) ∣ 2 * bit := by
            rcases hhalf with h | ⟨_, _, h⟩
            · omega
            · rw [h]
              exact ⟨2, by ring⟩
          exact dvd_trans h2b (hdvd hb0)
        · intro m h1 h2
          have : idx + bit ≤ m := by
            rcases hhalf with h | ⟨hge, _, h⟩ <;> omega
          omega

theorem netDeltas_nonneg (us : List (Int × Int)) (hnn : ∀ u ∈ us, 0 ≤ u.2) :
    ∀ k, 0 ≤ netDeltas us k := by
  intro k
  apply List.sum_nonneg
  intro x hx
  simp only [List.mem_map, List.mem_filter] at hx
  obtain ⟨u, ⟨hu, _⟩, rfl⟩ := hx
  exact hnn u hu

/-- C3: on a tree whose updates all had non-negative deltas,
`firstNonzeroIndex(startIndex)` answers `some r` exactly when `r` is the
smallest index `≥ max(startIndex, 0)` whose logical value is strictly
positive, and `none` (the "not found" sentinel, no error) otherwise. -/
theorem C3_first_nonzero_index (size : Nat) (us : List (Int × Int))
    (hus : ∀ u ∈ us, 0 ≤ u.1 ∧ u.1 < (size : Int)) (hnn : ∀ u ∈ us, 0 ≤ u.2)
    (startIndex : Int) :
    ∃ t, applyUpdates (mkFenwickTree size 0) us = .ok t ∧
      ∀ r : Nat, (t.firstNonzeroIndex startIndex = some r ↔
        (startIndex.toNat ≤ r ∧ r < size ∧ 0 < netDeltas us r ∧
          ∀ i : Nat, startIndex.toNat ≤ i → i < r → netDeltas us i = 0)) := by
  obtain ⟨t, h1, h2, h3, h4⟩ := applyUpdates_invariant us (fun _ => 0)
    (mkFenwickTree size 0) (goodTree_mk size) hus
  have hz : t.zero = 0 := h3
  have hsz : t.size = size := h2
  have h4' : goodTree (netDeltas us) t :=
    goodTree_congr (fun k => by ring) h4
  have hann : ∀ k, 0 ≤ netDeltas us k := netDeltas_nonneg us hnn
  refine ⟨t, h1, ?_⟩
  intro r
  rw [FenwickTree.firstNonzeroIndex]
  rw [show max startIndex 0 = ((startIndex.toNat : Nat) : Int) from
    (Int.toNat_eq_max startIndex).symm]
  by_cases hg : (t.size : Int) ≤ ((startIndex.toNat : Nat) : Int)
  · rw [if_pos hg]
    constructor
    · intro h
      cases h
    · rintro ⟨hr1, hr2, hr3, hr4⟩
      exfalso
      rw [hsz] at hg
      have : size ≤ startIndex.toNat := by exact_mod_cast hg
      omega
  · rw [if_neg hg]
    have hslt : startIndex.toNat < size := by
      rw [hsz] at hg
      omega
    have hsz1 : 1 ≤ size := by omega
    have htarget : (if 0 < ((startIndex.toNat : Nat) : Int) then
        t.queryVal (((startIndex.toNat : Nat) : Int) - 1) else t.zero) =
        prefixSum (netDeltas us) startIndex.toNat := by
      by_cases hs0 : 0 < ((startIndex.toNat : Nat) : Int)
      · rw [if_pos hs0]
        rw [queryVal_eq h4' hz (by omega) (by rw [hsz]; omega)]
        congr 1
        omega
      · rw [if_neg hs0]
        have h0 : startIndex.toNat = 0 := by omega
        rw [h0, hz]
        rfl
    have htotal : t.queryVal ((t.size : Int) - 1) = prefixSum (netDeltas us) size := by
      rw [queryVal_eq h4' hz (by rw [hsz]; omega) (by omega)]
      congr 1
      rw [hsz]
      omega
    rw [htarget, htotal]
    by_cases heq : prefixSum (netDeltas us) size = prefixSum (netDeltas us) startIndex.toNat
    · rw [if_pos heq]
      constructor
      · intro h
        cases h
      · rintro ⟨hr1, hr2, hr3, hr4⟩
        exfalso
        have e1 : prefixSum (netDeltas us) startIndex.toNat ≤ prefixSum (netDeltas us) r :=
          prefixSum_mono hann hr1
        have e2 : prefixSum (netDeltas us) (r + 1) ≤ prefixSum (netDeltas us) size :=
          prefixSum_mono hann (by omega)
        have e3 := prefixSum_succ_sub (netDeltas us) r
        omega
    · rw [if_neg heq]
      obtain ⟨k, hk1, hk2, hk3⟩ := highestOneBit_spec (show 0 < t.size by omega)
      have hbit : highestOneBit t.size = 0 ∨ ∃ k', highestOneBit t.size = 2 ^ k' :=
        Or.inr ⟨k, hk1⟩
      have hdvd : highestOneBit t.size ≠ 0 → 2 * highestOneBit t.size ∣ 0 :=
        fun _ => dvd_zero _
      have hcur0 : t.zero = prefixSum (netDeltas us) 0 := by
        rw [hz]
        rfl
      have hle0 : prefixSum (netDeltas us) 0 ≤ prefixSum (netDeltas us) startIndex.toNat :=
        prefixSum_mono hann (Nat.zero_le _)
      have hub : ∀ m, 0 + max (2 * highestOneBit t.size) 1 ≤ m → m ≤ t.size →
          prefixSum (netDeltas us) startIndex.toNat < prefixSum (netDeltas us) m := by
        intro m hm1 hm2
        exfalso
        rw [hk1] at hm1
        have hlt : t.size < 2 ^ (k + 1) := hk3
        rw [pow_succ] at hlt
        omega
      set L := fniLoop t.tree t.size (prefixSum (netDeltas us) startIndex.toNat)
        0 t.zero (highestOneBit t.size) with hLdef
      obtain ⟨hL1, hL2, hL3⟩ := fniLoop_spec (netDeltas us) t.size t.tree h4' hann
        (prefixSum (netDeltas us) startIndex.toNat) (highestOneBit t.size) 0 t.zero
        hbit hdvd (Nat.zero_le _) hcur0 hle0 hub
      rw [← hLdef] at hL1 hL2 hL3
      have hLlt : L < size := by
        by_contra hge
        have hLe : L = size := by omega
        rw [hLe] at hL2
        have := prefixSum_mono hann (show startIndex.toNat ≤ size by omega)
        omega
      have hLge : startIndex.toNat ≤ L := by
        by_contra hlt
        have := hL3 startIndex.toNat (by omega) (by omega)
        omega
      have hLpos : 0 < netDeltas us L := by
        have e1 := hL3 (L + 1) (by omega) (by omega)
        have e2 := prefixSum_succ_sub (netDeltas us) L
        omega
      have hLzero : ∀ i, startIndex.toNat ≤ i → i < L → netDeltas us i = 0 := by
        intro i hi1 hi2
        have e1 : prefixSum (netDeltas us) (i + 1) ≤ prefixSum (netDeltas us) L :=
          prefixSum_mono hann (by omega)
        have e2 : prefixSum (netDeltas us) startIndex.toNat ≤ prefixSum (netDeltas us) i :=
          prefixSum_mono hann hi1
        have e3 := prefixSum_succ_sub (netDeltas us) i
        have e4 := hann i
        omega
      constructor
      · intro h
        have hLr := Option.some_inj.mp h
        rw [← hLr]
        exact ⟨hLge, hLlt, hLpos, hLzero⟩
      · rintro ⟨hr1, hr2, hr3, hr4⟩
        have hLr : L = r := by
          rcases Nat.lt_trichotomy L r with h | h | h
          · exact absurd (hr4 _ hLge h) (by omega)
          · exact h
          · exact absurd (hLzero r hr1 h) (by omega)
        rw [hLr]

/-- Witness for C3: the spec scenario — after `update(2,1)` and `update(8,1)`
on a size-10 tree, `firstNonzeroIndex(5) = some 8` and
`firstNonzeroIndex(9) = none`. -/
theorem C3_witness :
    ∃ t, applyUpdates (mkFenwickTree 10 0) [(2, 1), (8, 1)] = .ok t ∧
      t.firstNonzeroIndex 5 = some 8 ∧ t.firstNonzeroIndex 9 = none := by
  obtain ⟨t, ht, hiff5⟩ := C3_first_nonzero_index 10 [(2, 1), (8, 1)]
    (by decide) (by decide) 5
  obtain ⟨t', ht', hiff9⟩ := C3_first_nonzero_index 10 [(2, 1), (8, 1)]
    (by decide) (by decide) 9
  have htt : t' = t := by
    rw [ht] at ht'
    exact (Except.ok.inj ht').symm
  rw [htt] at hiff9
  refine ⟨t, ht, ?_, ?_⟩
  · refine (hiff5 8).mpr ⟨by decide, by decide, by decide, ?_⟩
    intro i h1 h2
    have h5 : (5 : Int).toNat = 5 := rfl
    rw [h5] at h1
    interval_cases i <;> decide
  · cases h : t.firstNonzeroIndex 9 with
    | none => rfl
    | some r =>
      obtain ⟨ha, hb, hc, hd⟩ := (hiff9 r).mp h
      have hr9 : r = 9 := by
        have : (9 : Int).toNat = 9 := by decide
        omega
      subst hr9
      revert hc
      decide

/-!
## Priority queue (`src/cpp/priority_queue.cpp`, `PriorityQueue<KeyT, PriorityT>`)

Instantiated with `KeyT = Nat` (the tests use `std::string`; only decidable
equality of keys is used) and `PriorityT = Int`.  `std::priority_queue` with
`std::greater` is a min-heap on `priority` whose tie order among equal
priorities the C++ standard leaves unspecified; it is modelled as a list kept
sorted by priority (ties FIFO), a legal refinement.  `std::unordered_map` is
an association list with distinct keys; its iteration order is never used.
-/

structure PQEntry where
  priority : Int
  key : Nat
  version : Nat
deriving DecidableEq

structure PQState where
  pq : List PQEntry
  key_versions : List (Nat × Nat)
  next_version : Nat
  size_count : Int
deriving DecidableEq

/-- `key_versions.find(k)`. -/
def lookupKV : List (Nat × Nat) → Nat → Option Nat
  | [], _ => none
  | p :: rest, k => if p.1 = k then some p.2 else lookupKV rest k

/-- `key_versions[k] = v` (overwrite or insert). -/
def setKV : List (Nat × Nat) → Nat → Nat → List (Nat × Nat)
  | [], k, v => [(k, v)]
  | p :: rest, k, v => if p.1 = k then (k, v) :: rest else p :: setKV rest k v

/-- `key_versions.erase(k)`. -/
def eraseKV : List (Nat × Nat) → Nat → List (Nat × Nat)
  | [], _ => []
  | p :: rest, k => if p.1 = k then rest else p :: eraseKV rest k

/-- `pq.push(e)` on the sorted-list heap model: insert keeping the list sorted
by priority, after existing entries of equal priority. -/
def pushHeap (e : PQEntry) : List PQEntry → List PQEntry
  | [] => [e]
  | x :: rest => if e.priority < x.priority then e :: x :: rest else x :: pushHeap e rest

/-- `PriorityQueue()`. -/
def emptyPQ : PQState := ⟨[], [], 0, 0⟩

/-- `PriorityQueue::set(key, priority)`. -/
def PQState.set (s : PQState) (key : Nat) (priority : Int) : PQState :=
  { pq := pushHeap ⟨priority, key, s.next_version⟩ s.pq
    key_versions := setKV s.key_versions key s.next_version
    next_version := s.next_version + 1
    size_count :=
      (if (lookupKV s.key_versions key).isSome then s.size_count - 1 else s.size_count) + 1 }

/-- `PriorityQueue::remove(key)`: the throw happens before the erase, so the
error case returns the state unchanged. -/
def PQState.remove (s : PQState) (key : Nat) : Except String Unit × PQState :=
  match lookupKV s.key_versions key with
  | none => (.error "Key not found in priority queue", s)
  | some _ =>
    (.ok (), { s with key_versions := eraseKV s.key_versions key,
                      size_count := s.size_count - 1 })

/-- The `while (!pq.empty())` scan of `PriorityQueue::pop`: discard stale
entries until a current one surfaces; return it with the remaining heap. -/
def popGo (kv : List (Nat × Nat)) : List PQEntry → Option (PQEntry × List PQEntry)
  | [] => none
  | e :: rest =>
    if lookupKV kv e.key = some e.version then some (e, rest) else popGo kv rest

/-- `PriorityQueue::pop()`: on success the popped key leaves the map; on
failure every (stale) heap entry has been discarded and the map is untouched. -/
def PQState.pop (s : PQState) : Except String (Nat × Int) × PQState :=
  match popGo s.key_versions s.pq with
  | some (e, rest) =>
    (.ok (e.key, e.priority),
      { s with pq := rest, key_versions := eraseKV s.key_versions e.key,
               size_count := s.size_count - 1 })
  | none => (.error "pop from an empty priority queue", { s with pq := [] })

/-- `PriorityQueue::size()`. -/
def PQState.size (s : PQState) : Int := s.size_count

/-- The live entry of a key: the heap entry carrying the key's current
version, if any. -/
def liveEntry (s : PQState) (k : Nat) : Option PQEntry :=
  match lookupKV s.key_versions k with
  | none => none
  | some v => s.pq.find? (fun e => e.key == k && e.version == v)

/-- The priority currently associated with a live key. -/
def livePriority (s : PQState) (k : Nat) : Option Int :=
  (liveEntry s k).map PQEntry.priority

/-- Well-formedness of a queue state; every reachable state satisfies it. -/
def PQWF (s : PQState) : Prop :=
  s.pq.Pairwise (fun e1 e2 => e1.priority ≤ e2.priority) ∧
  (s.key_versions.map Prod.fst).Nodup ∧
  (∀ p ∈ s.key_versions, ∃ e ∈ s.pq, e.key = p.1 ∧ e.version = p.2) ∧
  (s.pq.map PQEntry.version).Nodup ∧
  (∀ e ∈ s.pq, e.version < s.next_version) ∧
  (∀ p ∈ s.key_versions, p.2 < s.next_version) ∧
  s.size_count = (s.key_versions.length : Int)

/-!
### Association-list and heap-model lemmas
-/

theorem lookupKV_eq_none {kv : List (Nat × Nat)} {k : Nat} :
    lookupKV kv k = none ↔ k ∉ kv.map Prod.fst := by
  induction kv with
  | nil => simp [lookupKV]
  | cons p rest ih =>
    rw [lookupKV]
    by_cases h : p.1 = k
    · simp [h]
    · simp [h, ih, Ne.symm h]

theorem lookupKV_some_mem {kv : List (Nat × Nat)} {k v : Nat}
    (h : lookupKV kv k = some v) : (k, v) ∈ kv := by
  induction kv with
  | nil => cases h
  | cons p rest ih =>
    rw [lookupKV] at h
    by_cases hp : p.1 = k
    · rw [if_pos hp] at h
      have hv : p.2 = v := Option.some.inj h
      have hpk : p = (k, v) := by
        cases p
        simp_all
      rw [← hpk]
      exact List.mem_cons_self p rest
    · rw [if_neg hp] at h
      exact List.mem_cons_of_mem p (ih h)

theorem lookupKV_mem {kv : List (Nat × Nat)} {k v : Nat}
    (hmem : (k, v) ∈ kv) (hnd : (kv.map Prod.fst).Nodup) : lookupKV kv k = some v := by
  induction kv with
  | nil => cases hmem
  | cons p rest ih =>
    rw [List.map_cons, List.nodup_cons] at hnd
    rw [lookupKV]
    rcases List.mem_cons.mp hmem with h | h
    · rw [← h]
      simp
    · have hne : p.1 ≠ k := by
        intro he
        exact hnd.1 (he ▸ (List.mem_map.mpr ⟨(k, v), h, rfl⟩))
      rw [if_neg hne]
      exact ih h hnd.2

theorem lookup_setKV_self (kv : List (Nat × Nat)) (k v : Nat) :
    lookupKV (setKV kv k v) k = some v := by
  induction kv with
  | nil => simp [setKV, lookupKV]
  | cons p rest ih =>
    rw [setKV]
    by_cases h : p.1 = k
    · rw [if_pos h, lookupKV]
      simp
    · rw [if_neg h, lookupKV, if_neg h]
      exact ih

theorem lookup_setKV_other (kv : List (Nat × Nat)) (k v k' : Nat) (h : k' ≠ k) :
    lookupKV (setKV kv k v) k' = lookupKV kv k' := by
  induction kv with
  | nil => simp [setKV, lookupKV, show k ≠ k' by omega]
  | cons p rest ih =>
    rw [setKV]
    by_cases hp : p.1 = k
    · rw [if_pos hp, lookupKV, if_neg (by omega), lookupKV, if_neg (by omega)]
    · rw [if_neg hp, lookupKV, lookupKV]
      by_cases hp' : p.1 = k'
      · rw [if_pos hp', if_pos hp']
      · rw [if_neg hp', if_neg hp', ih]

theorem mem_setKV {kv : List (Nat × Nat)} {k v : Nat} {p : Nat × Nat}
    (h : p ∈ setKV kv k v) : p = (k, v) ∨ p ∈ kv := by
  induction kv with
  | nil =>
    rw [setKV] at h
    exact Or.inl (List.mem_singleton.mp h)
  | cons q rest ih =>
    rw [setKV] at h
    by_cases hq : q.1 = k
    · rw [if_pos hq] at h
      rcases List.mem_cons.mp h with h1 | h1
      · exact Or.inl h1
      · exact Or.inr (List.mem_cons_of_mem q h1)
    · rw [if_neg hq] at h
      rcases List.mem_cons.mp h with h1 | h1
      · exact Or.inr (h1 ▸ List.mem_cons_self q rest)
      · rcases ih h1 with h2 | h2
        · exact Or.inl h2
        · exact Or.inr (List.mem_cons_of_mem q h2)

theorem setKV_map_fst_nodup {kv : List (Nat × Nat)} {k v : Nat}
    (hnd : (kv.map Prod.fst).Nodup) : ((setKV kv k v).map Prod.fst).Nodup := by
  induction kv with
  | nil => simp [setKV]
  | cons p rest ih =>
    rw [List.map_cons, List.nodup_cons] at hnd
    rw [setKV]
    by_cases h : p.1 = k
    · rw [if_pos h, List.map_cons, List.nodup_cons]
      exact ⟨h ▸ hnd.1, hnd.2⟩
    · rw [if_neg h, List.map_cons, List.nodup_cons]
      refine ⟨?_, ih hnd.2⟩
      intro hc
      obtain ⟨q, hq1, hq2⟩ := List.mem_map.mp hc
      rcases mem_setKV hq1 with h2 | h2
      · rw [h2] at hq2
        exact h (by rw [← hq2])
      · exact hnd.1 (List.mem_map.mpr ⟨q, h2, hq2⟩)

theorem setKV_length (kv : List (Nat × Nat)) (k v : Nat) :
    ((setKV kv k v).length : Int) =
      if (lookupKV kv k).isSome then (kv.length : Int) else (kv.length : Int) + 1 := by
  induction kv with
  | nil => simp [setKV, lookupKV]
  | cons p rest ih =>
    rw [setKV, lookupKV]
    by_cases h : p.1 = k
    · rw [if_pos h, if_pos h]
      simp
    · rw [if_neg h, if_neg h, List.length_cons, List.length_cons]
      push_cast
      rw [ih]
      by_cases h2 : (lookupKV rest k).isSome
      · rw [if_pos h2, if_pos h2]
      · rw [if_neg h2, if_neg h2]

theorem mem_eraseKV {kv : List (Nat × Nat)} {k : Nat} {p : Nat × Nat}
    (h : p ∈ eraseKV kv k) : p ∈ kv := by
  induction kv with
  | nil => cases h
  | cons q rest ih =>
    rw [eraseKV] at h
    by_cases hq : q.1 = k
    · rw [if_pos hq] at h
      exact List.mem_cons_of_mem q h
    · rw [if_neg hq] at h
      rcases List.mem_cons.mp h with h1 | h1
      · exact h1 ▸ List.mem_cons_self q rest
      · exact List.mem_cons_of_mem q (ih h1)

theorem mem_eraseKV_of_ne {kv : List (Nat × Nat)} {k : Nat} {p : Nat × Nat}
    (hmem : p ∈ kv) (hne : p.1 ≠ k) : p ∈ eraseKV kv k := by
  induction kv with
  | nil => cases hmem
  | cons q rest ih =>
    rw [eraseKV]
    by_cases hq : q.1 = k
    · rw [if_pos hq]
      rcases List.mem_cons.mp hmem with h1 | h1
      · exact absurd (h1 ▸ hq : p.1 = k) hne
      · exact h1
    · rw [if_neg hq]
      rcases List.mem_cons.mp hmem with h1 | h1
      · rw [h1]
        exact List.mem_cons_self q (eraseKV rest k)
      · exact List.mem_cons_of_mem q (ih h1)

theorem eraseKV_sublist (kv : List (Nat × Nat)) (k : Nat) :
    (eraseKV kv k).Sublist kv := by
  induction kv with
  | nil => exact List.Sublist.refl _
  | cons q rest ih =>
    rw [eraseKV]
    by_cases hq : q.1 = k
    · rw [if_pos hq]
      exact List.sublist_cons_self q rest
    · rw [if_neg hq]
      exact List.Sublist.cons₂ q ih

theorem eraseKV_map_fst_nodup {kv : List (Nat × Nat)} {k : Nat}
    (hnd : (kv.map Prod.fst).Nodup) : ((eraseKV kv k).map Prod.fst).Nodup :=
  List.Nodup.sublist (List.Sublist.map Prod.fst (eraseKV_sublist kv k)) hnd

theorem lookup_eraseKV_self {kv : List (Nat × Nat)} {k : Nat}
    (hnd : (kv.map Prod.fst).Nodup) : lookupKV (eraseKV kv k) k = none := by
  induction kv with
  | nil => rfl
  | cons q rest ih =>
    rw [List.map_cons, List.nodup_cons] at hnd
    rw [eraseKV]
    by_cases hq : q.1 = k
    · rw [if_pos hq, lookupKV_eq_none, ← hq]
      exact hnd.1
    · rw [if_neg hq]
      rw [show lookupKV (q :: eraseKV rest k) k =
          (if q.1 = k then some q.2 else lookupKV (eraseKV rest k) k) from rfl]
      rw [if_neg hq]
      exact ih hnd.2

theorem lookup_eraseKV_other (kv : List (Nat × Nat)) (k k' : Nat) (h : k' ≠ k) :
    lookupKV (eraseKV kv k) k' = lookupKV kv k' := by
  induction kv with
  | nil => rfl
  | cons q rest ih =>
    rw [eraseKV]
    by_cases hq : q.1 = k
    · rw [if_pos hq, lookupKV, if_neg (by omega)]
    · rw [if_neg hq, lookupKV, lookupKV]
      by_cases hq' : q.1 = k'
      · rw [if_pos hq', if_pos hq']
      · rw [if_neg hq', if_neg hq', ih]

theorem eraseKV_length {kv : List (Nat × Nat)} {k v : Nat}
    (h : lookupKV kv k = some v) :
    ((eraseKV kv k).length : Int) = (kv.length : Int) - 1 := by
  induction kv with
  | nil => cases h
  | cons q rest ih =>
    rw [lookupKV] at h
    rw [eraseKV]
    by_cases hq : q.1 = k
    · rw [if_pos hq, List.length_cons]
      push_cast
      ring
    · rw [if_neg hq] at h
      rw [if_neg hq, List.length_cons, List.length_cons]
      push_cast
      rw [ih h]
      ring

theorem mem_pushHeap {e a : PQEntry} {l : List PQEntry} :
    a ∈ pushHeap e l ↔ a = e ∨ a ∈ l := by
  induction l with
  | nil => simp [pushHeap]
  | cons x rest ih =>
    rw [pushHeap]
    by_cases h : e.priority < x.priority
    · rw [if_pos h]
      simp only [List.mem_cons]
    · rw [if_neg h]
      simp only [List.mem_cons, ih]
      tauto

theorem pushHeap_sorted {e : PQEntry} {l : List PQEntry}
    (hs : l.Pairwise (fun e1 e2 => e1.priority ≤ e2.priority)) :
    (pushHeap e l).Pairwise (fun e1 e2 => e1.priority ≤ e2.priority) := by
  induction l with
  | nil => simp [pushHeap]
  | cons x rest ih =>
    rw [List.pairwise_cons] at hs
    rw [pushHeap]
    by_cases h : e.priority < x.priority
    · rw [if_pos h]
      rw [List.pairwise_cons]
      constructor
      · intro a ha
        rcases List.mem_cons.mp ha with h1 | h1
        · rw [h1]
          omega
        · have := hs.1 a h1
          omega
      · rw [List.pairwise_cons]
        exact hs
    · rw [if_neg h]
      rw [List.pairwise_cons]
      constructor
      · intro a ha
        rcases mem_pushHeap.mp ha with h1 | h1
        · rw [h1]
          omega
        · exact hs.1 a h1
      · exact ih hs.2

theorem pushHeap_map_version_nodup {e : PQEntry} {l : List PQEntry}
    (hnd : (l.map PQEntry.version).Nodup) (hfresh : ∀ x ∈ l, x.version ≠ e.version) :
    ((pushHeap e l).map PQEntry.version).Nodup := by
  induction l with
  | nil => simp [pushHeap]
  | cons x rest ih =>
    rw [List.map_cons, List.nodup_cons] at hnd
    rw [pushHeap]
    by_cases h : e.priority < x.priority
    · rw [if_pos h, List.map_cons, List.map_cons, List.nodup_cons, List.nodup_cons]
      refine ⟨?_, hnd⟩
      intro hc
      rcases List.mem_cons.mp hc with h1 | h1
      · exact hfresh x (List.mem_cons_self x rest) h1.symm
      · obtain ⟨y, hy1, hy2⟩ := List.mem_map.mp h1
        exact hfresh y (List.mem_cons_of_mem x hy1) hy2
    · rw [if_neg h, List.map_cons, List.nodup_cons]
      refine ⟨?_, ih hnd.2 (fun y hy => hfresh y (List.mem_cons_of_mem x hy))⟩
      intro hc
      obtain ⟨y, hy1, hy2⟩ := List.mem_map.mp hc
      rcases mem_pushHeap.mp hy1 with h1 | h1
      · rw [h1] at hy2
        exact hfresh x (List.mem_cons_self x rest) hy2.symm
      · exact hnd.1 (List.mem_map.mpr ⟨y, h1, hy2⟩)

theorem popGo_eq_none_iff {kv : List (Nat × Nat)} {l : List PQEntry} :
    popGo kv l = none ↔ ∀ e ∈ l, lookupKV kv e.key ≠ some e.version := by
  induction l with
  | nil => simp [popGo]
  | cons e rest ih =>
    rw [popGo]
    by_cases h : lookupKV kv e.key = some e.version
    · rw [if_pos h]
      simp only [List.mem_cons]
      constructor
      · intro hc
        cases hc
      · intro hc
        exact absurd h (hc e (Or.inl rfl))
    · rw [if_neg h]
      rw [ih]
      constructor
      · intro hc x hx
        rcases List.mem_cons.mp hx with h1 | h1
        · rw [h1]
          exact h
        · exact hc x h1
      · intro hc x hx
        exact hc x (List.mem_cons_of_mem e hx)

theorem popGo_eq_some {kv : List (Nat × Nat)} {l : List PQEntry}
    {e : PQEntry} {rest : List PQEntry} (h : popGo kv l = some (e, rest)) :
    ∃ dropped, l = dropped ++ e :: rest ∧
      (∀ d ∈ dropped, lookupKV kv d.key ≠ some d.version) ∧
      lookupKV kv e.key = some e.version := by
  induction l generalizing e rest with
  | nil => cases h
  | cons x xs ih =>
    rw [popGo] at h
    by_cases hx : lookupKV kv x.key = some x.version
    · rw [if_pos hx] at h
      have h0 := Option.some.inj h
      have hxe : x = e := congrArg Prod.fst h0
      have hxs : xs = rest := congrArg Prod.snd h0
      subst hxe
      subst hxs
      refine ⟨[], rfl, ?_, hx⟩
      intro d hd
      cases hd
    · rw [if_neg hx] at h
      obtain ⟨dropped, hd1, hd2, hd3⟩ := ih h
      refine ⟨x :: dropped, by rw [List.cons_append, hd1], ?_, hd3⟩
      intro d hd
      rcases List.mem_cons.mp hd with h1 | h1
      · exact h1 ▸ hx
      · exact hd2 d h1

/-- If exactly one element can satisfy the predicate, `find?` returns the
member that does. -/
theorem find?_unique {l : List PQEntry} {p : PQEntry → Bool} {e : PQEntry}
    (hmem : e ∈ l) (hp : p e = true)
    (huniq : ∀ x ∈ l, p x = true → x = e) : l.find? p = some e := by
  induction l with
  | nil => cases hmem
  | cons x rest ih =>
    rw [List.find?]
    cases hx : p x with
    | true =>
      simp only [hx]
      rw [huniq x (List.mem_cons_self x rest) hx]
    | false =>
      simp only [hx]
      rcases List.mem_cons.mp hmem with h1 | h1
      · exfalso
        rw [← h1, hp] at hx
        cases hx
      · exact ih h1 (fun y hy hpy => huniq y (List.mem_cons_of_mem x hy) hpy)

/-!
### Live entries and well-formedness preservation
-/

theorem mem_version_inj {l : List PQEntry} (h : (l.map PQEntry.version).Nodup) :
    ∀ x ∈ l, ∀ y ∈ l, x.version = y.version → x = y := by
  induction l with
  | nil => intro x hx; cases hx
  | cons a rest ih =>
    rw [List.map_cons, List.nodup_cons] at h
    intro x hx y hy hv
    rcases List.mem_cons.mp hx with h1 | h1 <;> rcases List.mem_cons.mp hy with h2 | h2
    · rw [h1, h2]
    · exfalso
      apply h.1
      rw [h1] at hv
      exact hv ▸ List.mem_map.mpr ⟨y, h2, rfl⟩
    · exfalso
      apply h.1
      rw [h2] at hv
      exact hv ▸ List.mem_map.mpr ⟨x, h1, rfl⟩
    · exact ih h.2 x h1 y h2 hv

theorem liveEntry_eq_some {s : PQState} (hWF : PQWF s) {k v : Nat} {e : PQEntry}
    (hkv : lookupKV s.key_versions k = some v) (he : e ∈ s.pq)
    (hek : e.key = k) (hev : e.version = v) : liveEntry s k = some e := by
  obtain ⟨h1, h2, h3, h4, h5, h6, h7⟩ := hWF
  rw [liveEntry, hkv]
  apply find?_unique he
  · simp [hek, hev]
  · intro x hx hpx
    simp only [Bool.and_eq_true, beq_iff_eq] at hpx
    exact mem_version_inj h4 x hx e he (by rw [hpx.2, hev])

theorem liveEntry_mem {s : PQState} {k : Nat} {e : PQEntry}
    (h : liveEntry s k = some e) :
    e ∈ s.pq ∧ e.key = k ∧ lookupKV s.key_versions k = some e.version := by
  rw [liveEntry] at h
  cases hkv : lookupKV s.key_versions k with
  | none =>
    rw [hkv] at h
    cases h
  | some v =>
    rw [hkv] at h
    have hmem := List.mem_of_find?_eq_some h
    have hpred := List.find?_some h
    simp only [Bool.and_eq_true, beq_iff_eq] at hpred
    have hv : some v = some e.version := by rw [hpred.2]
    exact ⟨hmem, hpred.1, hv⟩

/-- An entry matching the version map is never one of the stale entries a pop
discards, so it survives into the remaining heap. -/
theorem live_mem_rest {s : PQState} (hWF : PQWF s) {e : PQEntry} {rest : List PQEntry}
    (hpop : popGo s.key_versions s.pq = some (e, rest)) {x : PQEntry}
    (hx : x ∈ s.pq) (hlive : lookupKV s.key_versions x.key = some x.version)
    (hne : x ≠ e) : x ∈ rest := by
  obtain ⟨dropped, hd1, hd2, hd3⟩ := popGo_eq_some hpop
  rw [hd1] at hx
  rcases List.mem_append.mp hx with h1 | h1
  · exact absurd hlive (hd2 x h1)
  · rcases List.mem_cons.mp h1 with h2 | h2
    · exact absurd h2 hne
    · exact h2

/-- `set` preserves well-formedness. -/
theorem PQWF_set {s : PQState} (hWF : PQWF s) (key : Nat) (p : Int) :
    PQWF (s.set key p) := by
  obtain ⟨h1, h2, h3, h4, h5, h6, h7⟩ := hWF
  refine ⟨?_, ?_, ?_, ?_, ?_, ?_, ?_⟩
  · exact pushHeap_sorted h1
  · exact setKV_map_fst_nodup h2
  · intro q hq
    rcases mem_setKV hq with h | h
    · refine ⟨⟨p, key, s.next_version⟩, mem_pushHeap.mpr (Or.inl rfl), ?_, ?_⟩
      · rw [h]
      · rw [h]
    · obtain ⟨e, he1, he2⟩ := h3 q h
      exact ⟨e, mem_pushHeap.mpr (Or.inr he1), he2⟩
  · exact pushHeap_map_version_nodup h4 (fun x hx => by
      have := h5 x hx
      show x.version ≠ s.next_version
      omega)
  · intro e he
    rcases mem_pushHeap.mp he with h | h
    · rw [h]
      show s.next_version < s.next_version + 1
      omega
    · have := h5 e h
      show e.version < s.next_version + 1
      omega
  · intro q hq
    rcases mem_setKV hq with h | h
    · rw [h]
      show s.next_version < s.next_version + 1
      omega
    · have := h6 q h
      show q.2 < s.next_version + 1
      omega
  · show (if (lookupKV s.key_versions key).isSome then s.size_count - 1 else s.size_count) + 1
      = ((setKV s.key_versions key s.next_version).length : Int)
    rw [setKV_length]
    by_cases h : (lookupKV s.key_versions key).isSome
    · rw [if_pos h, if_pos h, h7]
      ring
    · rw [if_neg h, if_neg h, h7]

/-- `remove` preserves well-formedness (in both the error and success case). -/
theorem PQWF_remove {s : PQState} (hWF : PQWF s) (key : Nat) :
    PQWF (s.remove key).2 := by
  obtain ⟨h1, h2, h3, h4, h5, h6, h7⟩ := hWF
  rw [PQState.remove]
  cases hkv : lookupKV s.key_versions key with
  | none => exact ⟨h1, h2, h3, h4, h5, h6, h7⟩
  | some v =>
    refine ⟨h1, eraseKV_map_fst_nodup h2, ?_, h4, h5, ?_, ?_⟩
    · intro q hq
      exact h3 q (mem_eraseKV hq)
    · intro q hq
      exact h6 q (mem_eraseKV hq)
    · show s.size_count - 1 = _
      rw [eraseKV_length hkv, h7]

/-- In the error case of `pop`, the key map must already be empty. -/
theorem pop_error_kv_nil {s : PQState} (hWF : PQWF s)
    (h : popGo s.key_versions s.pq = none) : s.key_versions = [] := by
  obtain ⟨h1, h2, h3, h4, h5, h6, h7⟩ := hWF
  cases hkv : s.key_versions with
  | nil => rfl
  | cons q rest =>
    exfalso
    obtain ⟨e, he1, he2, he3⟩ := h3 q (by rw [hkv]; exact List.mem_cons_self q rest)
    have hlook : lookupKV s.key_versions e.key = some e.version := by
      rw [he2, he3]
      exact lookupKV_mem (by rw [hkv]; exact List.mem_cons_self q rest) h2
    exact (popGo_eq_none_iff.mp h) e he1 hlook

theorem fst_ne_of_mem_eraseKV {kv : List (Nat × Nat)} {k : Nat} {p : Nat × Nat}
    (hnd : (kv.map Prod.fst).Nodup) (h : p ∈ eraseKV kv k) : p.1 ≠ k := by
  intro he
  have h1 : lookupKV (eraseKV kv k) p.1 = some p.2 :=
    lookupKV_mem (by cases p; exact h) (eraseKV_map_fst_nodup hnd)
  rw [he, lookup_eraseKV_self hnd] at h1
  cases h1

/-- `pop` preserves well-formedness (in both the error and success case). -/
theorem PQWF_pop {s : PQState} (hWF : PQWF s) : PQWF (s.pop).2 := by
  have hWF' := hWF
  obtain ⟨h1, h2, h3, h4, h5, h6, h7⟩ := hWF
  rw [PQState.pop]
  cases hpop : popGo s.key_versions s.pq with
  | none =>
    have hnil := pop_error_kv_nil hWF' hpop
    refine ⟨List.Pairwise.nil, h2, ?_, List.nodup_nil, ?_, h6, h7⟩
    · intro q hq
      rw [hnil] at hq
      cases hq
    · intro e he
      cases he
  | some pr =>
    obtain ⟨e, rest⟩ := pr
    obtain ⟨dropped, hd1, hd2, hd3⟩ := popGo_eq_some hpop
    have hrest_sub : rest.Sublist s.pq := by
      rw [hd1]
      exact List.Sublist.trans (List.sublist_cons_self e rest)
        (List.sublist_append_right dropped (e :: rest))
    refine ⟨?_, eraseKV_map_fst_nodup h2, ?_, ?_, ?_, ?_, ?_⟩
    · rw [hd1] at h1
      have := (List.pairwise_append.mp h1).2.1
      exact (List.pairwise_cons.mp this).2
    · intro q hq
      have hqkv : q ∈ s.key_versions := mem_eraseKV hq
      have hqne : q.1 ≠ e.key := fst_ne_of_mem_eraseKV h2 hq
      obtain ⟨x, hx1, hx2, hx3⟩ := h3 q hqkv
      have hxlive : lookupKV s.key_versions x.key = some x.version := by
        rw [hx2, hx3]
        exact lookupKV_mem (by cases q; exact hqkv) h2
      have hxne : x ≠ e := by
        intro hxe
        exact hqne (by rw [← hx2, hxe])
      exact ⟨x, live_mem_rest hWF' hpop hx1 hxlive hxne, hx2, hx3⟩
    · exact List.Nodup.sublist (List.Sublist.map PQEntry.version hrest_sub) h4
    · intro x hx
      exact h5 x (hrest_sub.mem hx)
    · intro q hq
      exact h6 q (mem_eraseKV hq)
    · show s.size_count - 1 = _
      rw [eraseKV_length hd3, h7]

/-- A successful `pop` returns a currently live (key, priority) pair. -/
theorem pop_ok_live {s : PQState} (hWF : PQWF s) {k : Nat} {p : Int}
    (h : (s.pop).1 = .ok (k, p)) : livePriority s k = some p := by
  rw [PQState.pop] at h
  cases hpop : popGo s.key_versions s.pq with
  | none =>
    rw [hpop] at h
    cases h
  | some pr =>
    obtain ⟨e, rest⟩ := pr
    rw [hpop] at h
    have hinj := Except.ok.inj h
    have hk : e.key = k := congrArg Prod.fst hinj
    have hp : e.priority = p := congrArg Prod.snd hinj
    obtain ⟨dropped, hd1, hd2, hd3⟩ := popGo_eq_some hpop
    have hmem : e ∈ s.pq := by
      rw [hd1]
      exact List.mem_append.mpr (Or.inr (List.mem_cons_self e rest))
    have hle := liveEntry_eq_some hWF (hk ▸ hd3) hmem hk rfl
    rw [livePriority, hle]
    show some e.priority = some p
    rw [hp]

/-- A successful `pop` returns a pair of minimal priority among live keys. -/
theorem pop_ok_min {s : PQState} (hWF : PQWF s) {k : Nat} {p : Int}
    (h : (s.pop).1 = .ok (k, p)) :
    ∀ k' p', livePriority s k' = some p' → p ≤ p' := by
  intro k' p' hlp
  have hWF' := hWF
  obtain ⟨h1, h2, h3, h4, h5, h6, h7⟩ := hWF'
  rw [PQState.pop] at h
  cases hpop : popGo s.key_versions s.pq with
  | none =>
    rw [hpop] at h
    cases h
  | some pr =>
    obtain ⟨e, rest⟩ := pr
    rw [hpop] at h
    have hinj := Except.ok.inj h
    have hp : e.priority = p := congrArg Prod.snd hinj
    rw [livePriority] at hlp
    cases hle : liveEntry s k' with
    | none =>
      rw [hle] at hlp
      cases hlp
    | some e' =>
      rw [hle] at hlp
      have hp' : e'.priority = p' := Option.some.inj hlp
      obtain ⟨he'1, he'2, he'3⟩ := liveEntry_mem hle
      obtain ⟨dropped, hd1, hd2, hd3⟩ := popGo_eq_some hpop
      by_cases hee : e' = e
      · rw [← hp, ← hp', hee]
      · have hrest : e' ∈ rest :=
          live_mem_rest hWF hpop he'1 (by rw [he'2]; exact he'3) hee
        rw [hd1] at h1
        have hpe := (List.pairwise_append.mp h1).2.1
        have := (List.pairwise_cons.mp hpe).1 e' hrest
        omega

/-- After `set(key, p)` the key is live with priority `p`. -/
theorem livePriority_set_self {s : PQState} (hWF : PQWF s) (key : Nat) (p : Int) :
    livePriority (s.set key p) key = some p := by
  have hWF2 := PQWF_set hWF key p
  have hkv : lookupKV (s.set key p).key_versions key = some s.next_version := by
    show lookupKV (setKV s.key_versions key s.next_version) key = some s.next_version
    exact lookup_setKV_self s.key_versions key s.next_version
  have hmem : (⟨p, key, s.next_version⟩ : PQEntry) ∈ (s.set key p).pq := by
    show _ ∈ pushHeap ⟨p, key, s.next_version⟩ s.pq
    exact mem_pushHeap.mpr (Or.inl rfl)
  have := liveEntry_eq_some hWF2 hkv hmem rfl rfl
  rw [livePriority, this]
  rfl

theorem liveEntry_lookup_none {s : PQState} {k : Nat}
    (h : lookupKV s.key_versions k = none) : liveEntry s k = none := by
  rw [liveEntry, h]

theorem liveEntry_lookup_some {s : PQState} {k v : Nat}
    (h : lookupKV s.key_versions k = some v) :
    liveEntry s k = s.pq.find? (fun e => e.key == k && e.version == v) := by
  rw [liveEntry, h]

/-- `set(key, p)` does not affect the live priority of other keys. -/
theorem livePriority_set_other {s : PQState} (hWF : PQWF s) (key : Nat) (p : Int)
    {k' : Nat} (hne : k' ≠ key) :
    livePriority (s.set key p) k' = livePriority s k' := by
  obtain ⟨h1, h2, h3, h4, h5, h6, h7⟩ := hWF
  have hlk : lookupKV (s.set key p).key_versions k' = lookupKV s.key_versions k' := by
    show lookupKV (setKV s.key_versions key s.next_version) k' = _
    exact lookup_setKV_other s.key_versions key s.next_version k' hne
  cases hkv : lookupKV s.key_versions k' with
  | none =>
    rw [livePriority, livePriority, liveEntry_lookup_none (hlk.trans hkv),
      liveEntry_lookup_none hkv]
  | some v =>
    rw [livePriority, livePriority, liveEntry_lookup_some (hlk.trans hkv),
      liveEntry_lookup_some hkv]
    congr 1
    cases hf : s.pq.find? (fun e => e.key == k' && e.version == v) with
    | none =>
      apply List.find?_eq_none.mpr
      intro x hx
      rcases mem_pushHeap.mp (show x ∈ pushHeap ⟨p, key, s.next_version⟩ s.pq from hx)
        with hh | hh
      · rw [hh]
        simp only [Bool.and_eq_true, beq_iff_eq]
        intro hc
        exact hne (by rw [← hc.1])
      · exact List.find?_eq_none.mp hf x hh
    | some e' =>
      have hmem := List.mem_of_find?_eq_some hf
      have hpred := List.find?_some hf
      have hmem2 : e' ∈ (s.set key p).pq := by
        show _ ∈ pushHeap ⟨p, key, s.next_version⟩ s.pq
        exact mem_pushHeap.mpr (Or.inr hmem)
      refine find?_unique hmem2 hpred ?_
      intro x hx hpx
      simp only [Bool.and_eq_true, beq_iff_eq] at hpx
      have hpred' : e'.key = k' ∧ e'.version = v := by
        have := List.find?_some hf
        simpa only [Bool.and_eq_true, beq_iff_eq] using this
      rcases mem_pushHeap.mp (show x ∈ pushHeap ⟨p, key, s.next_version⟩ s.pq from hx)
        with hh | hh
      · exfalso
        rw [hh] at hpx
        exact hne (by rw [← hpx.1])
      · exact mem_version_inj h4 x hh e' hmem (by rw [hpx.2, hpred'.2])

/-- After `remove(key)` (successful or not) the key is not live. -/
theorem livePriority_remove_self {s : PQState} (hWF : PQWF s) (key : Nat) :
    livePriority ((s.remove key).2) key = none := by
  obtain ⟨h1, h2, h3, h4, h5, h6, h7⟩ := hWF
  rw [PQState.remove]
  cases hkv : lookupKV s.key_versions key with
  | none =>
    rw [livePriority, liveEntry_lookup_none hkv]
    rfl
  | some v =>
    rw [livePriority, liveEntry_lookup_none
      (show lookupKV (eraseKV s.key_versions key) key = none from lookup_eraseKV_self h2)]
    rfl

/-- `remove(key)` does not affect the live priority of other keys. -/
theorem livePriority_remove_other {s : PQState} (hWF : PQWF s) (key : Nat)
    {k' : Nat} (hne : k' ≠ key) :
    livePriority ((s.remove key).2) k' = livePriority s k' := by
  rw [PQState.remove]
  cases hkv : lookupKV s.key_versions key with
  | none => rfl
  | some v =>
    have hlk : lookupKV (eraseKV s.key_versions key) k' = lookupKV s.key_versions k' :=
      lookup_eraseKV_other s.key_versions key k' hne
    cases hkv' : lookupKV s.key_versions k' with
    | none =>
      rw [livePriority, livePriority, liveEntry_lookup_none (hlk.trans hkv'),
        liveEntry_lookup_none hkv']
    | some v' =>
      rw [livePriority, livePriority, liveEntry_lookup_some (hlk.trans hkv'),
        liveEntry_lookup_some hkv']

theorem pop_snd_none {s : PQState} (hpop : popGo s.key_versions s.pq = none) :
    (s.pop).2 = { s with pq := [] } := by
  rw [PQState.pop, hpop]

theorem pop_fst_none {s : PQState} (hpop : popGo s.key_versions s.pq = none) :
    (s.pop).1 = .error "pop from an empty priority queue" := by
  rw [PQState.pop, hpop]

theorem pop_snd_some {s : PQState} {e : PQEntry} {rest : List PQEntry}
    (hpop : popGo s.key_versions s.pq = some (e, rest)) :
    (s.pop).2 = { s with
      pq := rest,
      key_versions := eraseKV s.key_versions e.key,
      size_count := s.size_count - 1 } := by
  rw [PQState.pop, hpop]

theorem pop_fst_some {s : PQState} {e : PQEntry} {rest : List PQEntry}
    (hpop : popGo s.key_versions s.pq = some (e, rest)) :
    (s.pop).1 = .ok (e.key, e.priority) := by
  rw [PQState.pop, hpop]

/-- `pop` either kills a key's live priority or leaves it unchanged. -/
theorem livePriority_pop_preserve {s : PQState} (hWF : PQWF s) (k' : Nat) :
    livePriority ((s.pop).2) k' = none ∨
      livePriority ((s.pop).2) k' = livePriority s k' := by
  have hWF' := hWF
  obtain ⟨h1, h2, h3, h4, h5, h6, h7⟩ := hWF'
  cases hpop : popGo s.key_versions s.pq with
  | none =>
    left
    rw [pop_snd_none hpop]
    cases hkv : lookupKV s.key_versions k' with
    | none =>
      rw [livePriority, liveEntry_lookup_none (s := { s with pq := [] }) hkv]
      rfl
    | some v =>
      rw [livePriority, liveEntry_lookup_some (s := { s with pq := [] }) hkv]
      rfl
  | some pr =>
    obtain ⟨e, rest⟩ := pr
    rw [pop_snd_some hpop]
    by_cases hk : k' = e.key
    · left
      have hed : lookupKV (eraseKV s.key_versions e.key) k' = none := by
        rw [hk]
        exact lookup_eraseKV_self h2
      rw [livePriority, liveEntry_lookup_none
        (s := { s with
          pq := rest,
          key_versions := eraseKV s.key_versions e.key,
          size_count := s.size_count - 1 }) hed]
      rfl
    · right
      have hlk : lookupKV (eraseKV s.key_versions e.key) k' = lookupKV s.key_versions k' :=
        lookup_eraseKV_other s.key_versions e.key k' hk
      cases hkv : lookupKV s.key_versions k' with
      | none =>
        rw [livePriority, livePriority,
          liveEntry_lookup_none (s := { s with
            pq := rest,
            key_versions := eraseKV s.key_versions e.key,
            size_count := s.size_count - 1 }) (hlk.trans hkv),
          liveEntry_lookup_none hkv]
      | some v =>
        rw [livePriority, livePriority,
          liveEntry_lookup_some (s := { s with
            pq := rest,
            key_versions := eraseKV s.key_versions e.key,
            size_count := s.size_count - 1 }) (hlk.trans hkv),
          liveEntry_lookup_some hkv]
        show (List.find? (fun x => x.key == k' && x.version == v) rest).map _ =
          (List.find? (fun x => x.key == k' && x.version == v) s.pq).map _
        congr 1
        obtain ⟨dropped, hd1, hd2, hd3⟩ := popGo_eq_some hpop
        have hrest_sub : rest.Sublist s.pq := by
          rw [hd1]
          exact List.Sublist.trans (List.sublist_cons_self e rest)
            (List.sublist_append_right dropped (e :: rest))
        cases hf : s.pq.find? (fun x => x.key == k' && x.version == v) with
        | none =>
          exact List.find?_eq_none.mpr
            (fun x hx => List.find?_eq_none.mp hf x (hrest_sub.mem hx))
        | some e' =>
          have hmem := List.mem_of_find?_eq_some hf
          have hpredb := List.find?_some hf
          have hpred : e'.key = k' ∧ e'.version = v := by
            simpa only [Bool.and_eq_true, beq_iff_eq] using hpredb
          have he'live : lookupKV s.key_versions e'.key = some e'.version := by
            rw [hpred.1, hkv, hpred.2]
          have he'ne : e' ≠ e := by
            intro hc
            exact hk (by rw [← hpred.1, hc])
          have he'rest : e' ∈ rest := live_mem_rest hWF hpop hmem he'live he'ne
          refine find?_unique he'rest hpredb ?_
          intro x hx hpx
          simp only [Bool.and_eq_true, beq_iff_eq] at hpx
          exact mem_version_inj h4 x (hrest_sub.mem hx) e' hmem (by rw [hpx.2, hpred.2])


/-!
### Operation traces and claims C7, C8
-/

inductive POp where
  | set (k : Nat) (p : Int)
  | remove (k : Nat)
  | pop
deriving DecidableEq

def stepPQ (s : PQState) : POp → PQState
  | .set k p => s.set k p
  | .remove k => (s.remove k).2
  | .pop => (s.pop).2

/-- The pop results (if any) produced by one operation. -/
def popResultList (s : PQState) : POp → List (Nat × Int)
  | POp.pop =>
    match (s.pop).1 with
    | .ok pr => [pr]
    | .error _ => []
  | _ => []

/-- The successful pop results produced while running a list of operations. -/
def popsOf (s : PQState) : List POp → List (Nat × Int)
  | [] => []
  | op :: rest => popResultList s op ++ popsOf (stepPQ s op) rest

theorem popResultList_set (s : PQState) (k : Nat) (p : Int) :
    popResultList s (POp.set k p) = [] := rfl

theorem popResultList_remove (s : PQState) (k : Nat) :
    popResultList s (POp.remove k) = [] := rfl

theorem popResultList_pop_none {s : PQState}
    (hpop : popGo s.key_versions s.pq = none) :
    popResultList s POp.pop = [] := by
  rw [popResultList, pop_fst_none hpop]

theorem popResultList_pop_some {s : PQState} {e : PQEntry} {r : List PQEntry}
    (hpop : popGo s.key_versions s.pq = some (e, r)) :
    popResultList s POp.pop = [(e.key, e.priority)] := by
  rw [popResultList, pop_fst_some hpop]

theorem PQWF_empty : PQWF emptyPQ := by
  refine ⟨List.Pairwise.nil, List.nodup_nil, ?_, List.nodup_nil, ?_, ?_, rfl⟩
  · intro q hq
    cases hq
  · intro e he
    cases he
  · intro q hq
    cases hq

theorem PQWF_step {s : PQState} (hWF : PQWF s) (op : POp) : PQWF (stepPQ s op) := by
  cases op with
  | set k p => exact PQWF_set hWF k p
  | remove k => exact PQWF_remove hWF k
  | pop => exact PQWF_pop hWF

/-- Core trace lemma: if a key's live priority is never `p1` (and no later
`set` makes it `p1`), no pop in the trace returns `(key, p1)`. -/
theorem popsOf_avoid {key : Nat} {p1 : Int} (ops : List POp)
    (hops : ∀ op ∈ ops, op ≠ POp.set key p1) {s : PQState} (hWF : PQWF s)
    (hlp : livePriority s key ≠ some p1) : (key, p1) ∉ popsOf s ops := by
  induction ops generalizing s with
  | nil =>
    intro h
    cases h
  | cons op rest ih =>
    rw [popsOf]
    intro hmem
    rcases List.mem_append.mp hmem with h | h
    · cases op with
      | set k p =>
        rw [popResultList_set] at h
        cases h
      | remove k =>
        rw [popResultList_remove] at h
        cases h
      | pop =>
        cases hpop : popGo s.key_versions s.pq with
        | none =>
          rw [popResultList_pop_none hpop] at h
          cases h
        | some pr =>
          obtain ⟨e, r⟩ := pr
          rw [popResultList_pop_some hpop] at h
          have hpr : (e.key, e.priority) = (key, p1) := (List.mem_singleton.mp h).symm
          refine hlp (pop_ok_live hWF ?_)
          rw [pop_fst_some hpop, hpr]
    · have hops' : ∀ o ∈ rest, o ≠ POp.set key p1 :=
        fun o ho => hops o (List.mem_cons_of_mem op ho)
      refine ih hops' (PQWF_step hWF op) ?_ h
      cases op with
      | set k p =>
        by_cases hk : k = key
        · subst hk
          rw [show stepPQ s (POp.set k p) = s.set k p from rfl,
            livePriority_set_self hWF k p]
          intro hc
          have hp1 : p = p1 := Option.some.inj hc
          exact hops (POp.set k p) (List.mem_cons_self _ _) (by rw [hp1])
        · rw [show stepPQ s (POp.set k p) = s.set k p from rfl,
            livePriority_set_other hWF k p (fun he => hk he.symm)]
          exact hlp
      | remove k =>
        by_cases hk : k = key
        · subst hk
          rw [show stepPQ s (POp.remove k) = (s.remove k).2 from rfl,
            livePriority_remove_self hWF k]
          intro hc
          cases hc
        · rw [show stepPQ s (POp.remove k) = (s.remove k).2 from rfl,
            livePriority_remove_other hWF k (fun he => hk he.symm)]
          exact hlp
      | pop =>
        rcases livePriority_pop_preserve hWF key with hc | hc
        · rw [show stepPQ s POp.pop = (s.pop).2 from rfl, hc]
          intro hx
          cases hx
        · rw [show stepPQ s POp.pop = (s.pop).2 from rfl, hc]
          exact hlp

/-- C7 as frozen is falsified by re-setting the key to the same priority: with
`p2 = p1`, a later pop returns exactly the pair `(key, p1)` — taken from the
fresh entry, not the stale one. -/
theorem C7_counterexample :
    livePriority (emptyPQ.set 0 1) 0 = some 1 ∧
    (((emptyPQ.set 0 1).set 0 1).pop).1 = .ok (0, 1) := by
  constructor
  · rfl
  · rfl

/-- C7 (amended): `set(key, p2)` on a live key leaves `size()` unchanged and
invalidates the stale entry: provided `p2 ≠ p1` and no later operation sets
`key` back to priority `p1`, no subsequent pop returns `(key, p1)`; moreover a
successful pop always returns a live key of minimal live priority. -/
theorem C7_set_invalidates_stale_entry (s : PQState) (hWF : PQWF s) (key : Nat)
    (p1 p2 : Int) (hlive : livePriority s key = some p1) (hne : p2 ≠ p1)
    (ops : List POp) (hops : ∀ op ∈ ops, op ≠ POp.set key p1) :
    (s.set key p2).size = s.size ∧
    (key, p1) ∉ popsOf (s.set key p2) ops ∧
    (∀ (s' : PQState), PQWF s' → ∀ k p, ((s'.pop).1 = .ok (k, p) →
      livePriority s' k = some p ∧ ∀ k' p', livePriority s' k' = some p' → p ≤ p')) := by
  refine ⟨?_, ?_, ?_⟩
  · have hsome : (lookupKV s.key_versions key).isSome := by
      rw [livePriority, liveEntry] at hlive
      cases hkv : lookupKV s.key_versions key with
      | none =>
        rw [hkv] at hlive
        cases hlive
      | some v => rfl
    show (if (lookupKV s.key_versions key).isSome then s.size_count - 1
      else s.size_count) + 1 = s.size_count
    rw [if_pos hsome]
    ring
  · apply popsOf_avoid ops hops (PQWF_set hWF key p2)
    rw [livePriority_set_self hWF key p2]
    intro hc
    exact hne (Option.some.inj hc)
  · intro s' hWF' k p hok
    exact ⟨pop_ok_live hWF' hok, pop_ok_min hWF' hok⟩

/-- Witness for C7: starting from `set(0, 5)`, re-setting key 0 to priority 7
keeps the size at 1, and a subsequent pop does not return `(0, 5)`. -/
theorem C7_witness :
    ((emptyPQ.set 0 5).set 0 7).size = (emptyPQ.set 0 5).size ∧
    (0, 5) ∉ popsOf ((emptyPQ.set 0 5).set 0 7) [POp.pop] := by
  have h := C7_set_invalidates_stale_entry (emptyPQ.set 0 5)
    (PQWF_set PQWF_empty 0 5) 0 5 7 (by rfl) (by decide) [POp.pop] (by decide)
  exact ⟨h.1, h.2.1⟩

/-- C8: `pop()` errors exactly when the queue holds no live entry
(`empty()`), and `remove(key)` errors exactly when the key is absent; in both
error cases the live contents are unchanged. -/
theorem C8_pop_remove_error_conditions (s : PQState) (hWF : PQWF s) (key : Nat) :
    ((∃ e, (s.pop).1 = .error e) ↔ s.size_count = 0) ∧
    ((∃ e, (s.pop).1 = .error e) → (s.pop).2.key_versions = s.key_versions ∧
      ∀ k, livePriority ((s.pop).2) k = livePriority s k) ∧
    ((∃ e, (s.remove key).1 = .error e) ↔ lookupKV s.key_versions key = none) ∧
    ((∃ e, (s.remove key).1 = .error e) → (s.remove key).2 = s) := by
  have hWF' := hWF
  obtain ⟨h1, h2, h3, h4, h5, h6, h7⟩ := hWF'
  have hpop_err : (∃ e, (s.pop).1 = .error e) ↔ popGo s.key_versions s.pq = none := by
    constructor
    · rintro ⟨e, he⟩
      cases hpop : popGo s.key_versions s.pq with
      | none => rfl
      | some pr =>
        obtain ⟨en, rest⟩ := pr
        rw [pop_fst_some hpop] at he
        cases he
    · intro hpop
      exact ⟨_, pop_fst_none hpop⟩
  refine ⟨?_, ?_, ?_, ?_⟩
  · rw [hpop_err]
    constructor
    · intro hpop
      have hnil := pop_error_kv_nil hWF hpop
      rw [h7, hnil]
      rfl
    · intro hsz
      have hlen : s.key_versions.length = 0 := by omega
      have hnil : s.key_versions = [] := List.length_eq_zero.mp hlen
      apply popGo_eq_none_iff.mpr
      intro e he
      rw [hnil]
      intro hc
      cases hc
  · intro herr
    have hpop := hpop_err.mp herr
    have hnil := pop_error_kv_nil hWF hpop
    constructor
    · rw [pop_snd_none hpop]
    · intro k
      have hkv : lookupKV s.key_versions k = none := by
        rw [hnil]
        rfl
      rw [pop_snd_none hpop, livePriority, livePriority,
        liveEntry_lookup_none (s := { s with pq := [] }) hkv, liveEntry_lookup_none hkv]
  · rw [PQState.remove]
    cases hkv : lookupKV s.key_versions key with
    | none =>
      constructor
      · intro _
        rfl
      · intro _
        exact ⟨_, rfl⟩
    | some v =>
      constructor
      · rintro ⟨e, he⟩
        cases he
      · intro hc
        cases hc
  · rw [PQState.remove]
    cases hkv : lookupKV s.key_versions key with
    | none =>
      intro _
      rfl
    | some v =>
      rintro ⟨e, he⟩
      cases he

/-- Witness for C8: the empty queue — `pop` errors with the live contents
unchanged, and `remove(0)` errors leaving the state unchanged. -/
theorem C8_witness :
    (∃ e, (emptyPQ.pop).1 = .error e) ∧
    ((emptyPQ.pop).2.key_versions = emptyPQ.key_versions) ∧
    (∃ e, (emptyPQ.remove 0).1 = .error e) ∧
    (emptyPQ.remove 0).2 = emptyPQ := by
  have h := C8_pop_remove_error_conditions emptyPQ PQWF_empty 0
  have he : ∃ e, (emptyPQ.pop).1 = .error e := h.1.mpr rfl
  have hr : ∃ e, (emptyPQ.remove 0).1 = .error e := h.2.2.1.mpr rfl
  exact ⟨he, (h.2.1 he).1, hr, h.2.2.2 hr⟩

/-!
## Edmonds-Karp (`src/cpp/edmonds_karp.cpp`, `EdmondsKarp<T>`, `T = int`)

The `capacity` and `flow` matrices are function matrices.  The `while` loops
carry explicit fuel and return `none` on exhaustion only; every theorem below
evaluates to `some _`, so the runs shown never hit the fuel bound and agree
with the source.  `std::numeric_limits<int>::max()` is the literal
`2147483647`.
-/

structure EdmondsKarp where
  n : Nat
  capacity : Nat → Nat → Int
  flow : Nat → Nat → Int
  total_flow : Int

/-- `EdmondsKarp(vertices)`. -/
def mkEdmondsKarp (n : Nat) : EdmondsKarp :=
  ⟨n, fun _ _ => 0, fun _ _ => 0, 0⟩

/-- `EdmondsKarp::add_edge(from, to, cap)`: `capacity[from][to] += cap`. -/
def EdmondsKarp.add_edge (g : EdmondsKarp) (u v : Nat) (cap : Int) : EdmondsKarp :=
  { g with
    capacity := fun a b =>
      if a = u ∧ b = v then g.capacity a b + cap else g.capacity a b }

/-- The `for (int v = 0; v < n; v++)` neighbour scan of `EdmondsKarp::bfs`,
with the early `return true` on reaching the sink.  `fuel` counts the
remaining iterations (`n` at entry, matching `v = 0`). -/
def ekScan (g : EdmondsKarp) (u sink : Nat) :
    Nat → Nat → (Nat → Bool) → (Nat → Int) → List Nat →
    Bool × (Nat → Bool) × (Nat → Int) × List Nat
  | 0, _, visited, parent, q => (false, visited, parent, q)
  | fuel + 1, v, visited, parent, q =>
    if g.n ≤ v then (false, visited, parent, q)
    else
      if ¬visited v ∧ 0 < g.capacity u v - g.flow u v then
        let parent' := fun w => if w = v then (u : Int) else parent w
        let visited' := fun w => if w = v then true else visited w
        if v = sink then (true, visited', parent', q ++ [v])
        else ekScan g u sink fuel (v + 1) visited' parent' (q ++ [v])
      else ekScan g u sink fuel (v + 1) visited parent q

/-- The `while (!q.empty())` loop of `EdmondsKarp::bfs`. -/
def ekBfsLoop (g : EdmondsKarp) (sink : Nat) :
    Nat → List Nat → (Nat → Bool) → (Nat → Int) → Option (Bool × (Nat → Int))
  | 0, _, _, _ => none
  | _ + 1, [], _, parent => some (false, parent)
  | fuel + 1, u :: q, visited, parent =>
    match ekScan g u sink g.n 0 visited parent q with
    | (true, _, parent', _) => some (true, parent')
    | (false, visited', parent', q') => ekBfsLoop g sink fuel q' visited' parent'

/-- `EdmondsKarp::bfs(source, sink, parent)`. -/
def EdmondsKarp.bfs (g : EdmondsKarp) (source sink : Nat) (parent : Nat → Int) :
    Option (Bool × (Nat → Int)) :=
  ekBfsLoop g sink (g.n + 1) [source]
    (fun w => w = source)
    (fun w => if w = source then -1 else parent w)

/-- The first `for (v = sink; v != source; v = parent[v])` walk of
`max_flow`: the minimum residual capacity along the found path. -/
def ekPathMin (g : EdmondsKarp) (parent : Nat → Int) (source : Nat) :
    Nat → Nat → Int → Option Int
  | 0, _, _ => none
  | fuel + 1, v, acc =>
    if v = source then some acc
    else ekPathMin g parent source fuel ((parent v).toNat)
      (min acc (g.capacity (parent v).toNat v - g.flow (parent v).toNat v))

/-- The second walk of `max_flow`: push `path_flow` along the path. -/
def ekAugment (parent : Nat → Int) (source : Nat) (pf : Int) :
    Nat → Nat → (Nat → Nat → Int) → Option (Nat → Nat → Int)
  | 0, _, _ => none
  | fuel + 1, v, flow =>
    if v = source then some flow
    else
      let u := (parent v).toNat
      let flow' := fun a b =>
        if a = u ∧ b = v then flow a b + pf
        else if a = v ∧ b = u then flow a b - pf
        else flow a b
      ekAugment parent source pf fuel u flow'

/-- The `while (bfs(source, sink, parent))` loop of `EdmondsKarp::max_flow`.
The `parent` vector is allocated once per call and reused (stale entries
included), exactly as in the source. -/
def ekMaxFlowLoop (g : EdmondsKarp) (source sink : Nat) :
    Nat → (Nat → Int) → Option EdmondsKarp
  | 0, _ => none
  | fuel + 1, parent =>
    match g.bfs source sink parent with
    | none => none
    | some (false, _) => some g
    | some (true, parent') =>
      match ekPathMin g parent' source (g.n + 1) sink 2147483647 with
      | none => none
      | some pf =>
        match ekAugment parent' source pf (g.n + 1) sink g.flow with
        | none => none
        | some flow' =>
          ekMaxFlowLoop
            { g with flow := flow', total_flow := g.total_flow + pf }
            source sink fuel parent'

/-- `EdmondsKarp::max_flow(source, sink)`: resets `total_flow` (but not the
`flow` matrix) and runs the augmenting loop.  Returns the value together with
the post-call object. -/
def EdmondsKarp.max_flow (g : EdmondsKarp) (source sink : Nat) (fuel : Nat) :
    Option (Int × EdmondsKarp) :=
  match ekMaxFlowLoop { g with total_flow := 0 } source sink fuel (fun _ => 0) with
  | none => none
  | some g' => some (g'.total_flow, g')

/-- Two consecutive `max_flow` calls on the same object, same source/sink. -/
def maxFlowTwice (g : EdmondsKarp) (source sink : Nat) (fuel : Nat) :
    Option (Int × Int) :=
  match g.max_flow source sink fuel with
  | none => none
  | some (v1, g1) =>
    match g1.max_flow source sink fuel with
    | none => none
    | some (v2, _) => some (v1, v2)

/-- C10: on `EdmondsKarp<int>(2)` with `add_edge(0, 1, 5)`, the first
`max_flow(0, 1)` returns 5 but the second returns 0 — `max_flow` resets
`total_flow` yet not the `flow` matrix, so the saturated residual graph of the
first call admits no augmenting path in the second. -/
theorem C10_second_max_flow_call_returns_zero :
    maxFlowTwice ((mkEdmondsKarp 2).add_edge 0 1 5) 0 1 10 = some (5, 0) := by
  rfl


/-!
## Topological sort (`src/unnamed/part_018`, `TopologicalSort<NodeT>`, `NodeT = int`)

The two `std::map` members are sorted association lists; `std::map` iteration
order is ascending key order, which the key lists reproduce.  `operator[]`
reads on maps whose keys are never absent at that point are modelled with
`Option.getD` of the default-constructed value (`[]`, `0`, `WHITE`).  The
recursion of `dfs_helper` and the `while` loop of `kahn_sort` carry explicit
fuel; fuel exhaustion yields `none` and is proven unreachable for any graph
built by `add_edge` calls.
-/

inductive Color where
  | WHITE
  | GRAY
  | BLACK
  deriving DecidableEq

def mapFind? {α : Type} (m : List (Nat × α)) (k : Nat) : Option α :=
  match m with
  | [] => none
  | (k', x) :: rest => if k = k' then some x else mapFind? rest k

/-- Insert or overwrite a binding, keeping the list sorted by key (the
behaviour of `std::map` writes). -/
def mapSet {α : Type} (m : List (Nat × α)) (k : Nat) (x : α) : List (Nat × α) :=
  match m with
  | [] => [(k, x)]
  | (k', y) :: rest =>
    if k < k' then (k, x) :: (k', y) :: rest
    else if k = k' then (k, x) :: rest
    else (k', y) :: mapSet rest k x

structure TopologicalSort where
  graph : List (Nat × List Nat)
  in_degree : List (Nat × Nat)

def emptyTopo : TopologicalSort := ⟨[], []⟩

/-- The body of both `if` blocks in `add_edge`: `graph[n] = {}; in_degree[n] = 0;`. -/
def registerNode (g : TopologicalSort) (n : Nat) : TopologicalSort :=
  ⟨mapSet g.graph n [], mapSet g.in_degree n 0⟩

/-- `TopologicalSort::add_edge(u, v)`. -/
def TopologicalSort.add_edge (g : TopologicalSort) (u v : Nat) : TopologicalSort :=
  let g1 := if mapFind? g.graph u = none then registerNode g u else g
  let g2 := if mapFind? g1.in_degree v = none then registerNode g1 v else g1
  TopologicalSort.mk
    (mapSet g2.graph u ((mapFind? g2.graph u).getD [] ++ [v]))
    (mapSet g2.in_degree v ((mapFind? g2.in_degree v).getD 0 + 1))

/-- The node set, in `std::map` iteration order. -/
def keysOf (g : TopologicalSort) : List Nat := g.in_degree.map Prod.fst

/-- `graph[u]` (empty for nodes without an entry, as `operator[]` would
default-construct). -/
def adjOf (g : TopologicalSort) (u : Nat) : List Nat := (mapFind? g.graph u).getD []

/-- `in_degree[v]`. -/
def indegOf (g : TopologicalSort) (v : Nat) : Nat := (mapFind? g.in_degree v).getD 0

def Edge (g : TopologicalSort) (u v : Nat) : Prop := v ∈ adjOf g u

/-- `ReachesIn g n u v`: a directed walk of exactly `n` edges from `u` to `v`. -/
def ReachesIn (g : TopologicalSort) : Nat → Nat → Nat → Prop
  | 0, u, v => u = v
  | n + 1, u, v => ∃ w, Edge g u w ∧ ReachesIn g n w v

def HasCycle (g : TopologicalSort) : Prop := ∃ u n, ReachesIn g (n + 1) u u

/-- Position of the first occurrence of `u` in `l`. -/
def posIn (l : List Nat) (u : Nat) : Nat :=
  match l with
  | [] => 0
  | x :: t => if x = u then 0 else posIn t u + 1

/-- A topological ordering of all nodes: a permutation of the node set in
which the source of every edge appears strictly before its target. -/
def ValidTopo (g : TopologicalSort) (l : List Nat) : Prop :=
  l.Perm (keysOf g) ∧
  ∀ u v, Edge g u v → ∃ l1 l2, l = l1 ++ l2 ∧ u ∈ l1 ∧ v ∈ l2

/-- The `for (neighbor : graph[node])` body of `kahn_sort`: decrement each
neighbour's count, enqueueing those that reach zero. -/
def kahnRelax (adjl : List Nat) (ind : Nat → Int) (q : List Nat) :
    (Nat → Int) × List Nat :=
  match adjl with
  | [] => (ind, q)
  | v :: rest =>
    let ind' := fun w => if w = v then ind w - 1 else ind w
    let q' := if ind' v = 0 then q ++ [v] else q
    kahnRelax rest ind' q'

/-- The `while (!q.empty())` loop of `kahn_sort` (fuel-counted). -/
def kahnLoop (g : TopologicalSort) : Nat → List Nat → (Nat → Int) → List Nat →
    Option (List Nat)
  | _, [], _, result => some result
  | 0, _ :: _, _, _ => none
  | fuel + 1, node :: q, ind, result =>
    let p := kahnRelax (adjOf g node) ind q
    kahnLoop g fuel p.2 p.1 (result ++ [node])

/-- `TopologicalSort::kahn_sort()`. -/
def TopologicalSort.kahn_sort (g : TopologicalSort) : Option (List Nat) :=
  let q0 := (keysOf g).filter fun v => indegOf g v == 0
  match kahnLoop g ((keysOf g).length + 1) q0 (fun v => (indegOf g v : Int)) [] with
  | none => none
  | some result => if result.length = (keysOf g).length then some result else none

/-- `dfs_helper` fused with the `for (neighbor : graph[node])` loop of its
caller: `dfsGo g fuel [node] color result` is one `dfs_helper(node)` call, and
`dfsGo g fuel l color result` runs `dfs_helper` on each element of `l` in
order, stopping at the first failure.  Fuel is spent only when a `WHITE` node
is first entered. -/
def dfsGo (g : TopologicalSort) (fuel : Nat) (l : List Nat) (color : Nat → Color)
    (result : List Nat) : Option (Bool × (Nat → Color) × List Nat) :=
  match l with
  | [] => some (true, color, result)
  | node :: rest =>
    if color node = Color.GRAY then some (false, color, result)
    else if color node = Color.BLACK then dfsGo g fuel rest color result
    else
      match fuel with
      | 0 => none
      | fuel' + 1 =>
        match dfsGo g fuel' (adjOf g node)
            (fun w => if w = node then Color.GRAY else color w) result with
        | none => none
        | some (false, c, r) => some (false, c, r)
        | some (true, c, r) =>
          dfsGo g (fuel' + 1) rest (fun w => if w = node then Color.BLACK else c w)
            (r ++ [node])
termination_by (fuel, l.length)

/-- `TopologicalSort::dfs_helper(node, color, result)`. -/
def dfs_helper (g : TopologicalSort) (fuel : Nat) (node : Nat) (color : Nat → Color)
    (result : List Nat) : Option (Bool × (Nat → Color) × List Nat) :=
  dfsGo g fuel [node] color result

/-- The `for ([node, _] : in_degree)` loop of `dfs_sort`. -/
def dfsOuter (g : TopologicalSort) : List Nat → (Nat → Color) → List Nat →
    Option (Bool × (Nat → Color) × List Nat)
  | [], color, result => some (true, color, result)
  | node :: rest, color, result =>
    if color node = Color.WHITE then
      match dfs_helper g ((keysOf g).length + 1) node color result with
      | none => none
      | some (false, c, r) => some (false, c, r)
      | some (true, c, r) => dfsOuter g rest c r
    else dfsOuter g rest color result

/-- `TopologicalSort::dfs_sort()`. -/
def TopologicalSort.dfs_sort (g : TopologicalSort) : Option (List Nat) :=
  match dfsOuter g (keysOf g) (fun _ => Color.WHITE) [] with
  | none => none
  | some (false, _, _) => none
  | some (true, _, r) => some r.reverse

/-- The graph built by a sequence of `add_edge` calls. -/
def topoOf (edges : List (Nat × Nat)) : TopologicalSort :=
  edges.foldl (fun g e => g.add_edge e.1 e.2) emptyTopo


/-! ### Association-list lemmas -/

theorem mapFind?_eq_none_iff {α : Type} (m : List (Nat × α)) (k : Nat) :
    mapFind? m k = none ↔ k ∉ m.map Prod.fst := by
  induction m with
  | nil => simp [mapFind?]
  | cons p rest ih =>
    obtain ⟨k', x⟩ := p
    by_cases hk : k = k' <;> simp [mapFind?, hk, ih]

theorem mapFind?_mapSet_self {α : Type} (m : List (Nat × α)) (k : Nat) (x : α) :
    mapFind? (mapSet m k x) k = some x := by
  induction m with
  | nil => simp [mapSet, mapFind?]
  | cons p rest ih =>
    obtain ⟨k', y⟩ := p
    by_cases h1 : k < k'
    · simp [mapSet, h1, mapFind?]
    · by_cases h2 : k = k' <;> simp [mapSet, h1, h2, mapFind?, ih]

theorem mapFind?_mapSet_ne {α : Type} (m : List (Nat × α)) (k k' : Nat) (x : α)
    (h : k' ≠ k) : mapFind? (mapSet m k x) k' = mapFind? m k' := by
  induction m with
  | nil => simp [mapSet, mapFind?, h]
  | cons p rest ih =>
    obtain ⟨k'', y⟩ := p
    by_cases h1 : k < k''
    · simp [mapSet, h1, mapFind?, h]
    · by_cases h2 : k = k''
      · subst h2
        simp [mapSet, h1, mapFind?, h]
      · by_cases h3 : k' = k''
        · subst h3
          simp [mapSet, h1, h2, mapFind?, ih]
        · simp [mapSet, h1, h2, mapFind?, h3, ih]

theorem mapSet_map_fst_mem {α : Type} (m : List (Nat × α)) (k k' : Nat) (x : α) :
    k' ∈ (mapSet m k x).map Prod.fst ↔ k' = k ∨ k' ∈ m.map Prod.fst := by
  induction m with
  | nil => simp [mapSet]
  | cons p rest ih =>
    obtain ⟨k'', y⟩ := p
    by_cases h1 : k < k''
    · simp [mapSet, h1]
    · by_cases h2 : k = k'' <;> simp [mapSet, h1, h2, ih] <;> tauto

theorem mapSet_map_fst_of_mem {α : Type} (m : List (Nat × α)) (k : Nat) (x : α)
    (hs : (m.map Prod.fst).Pairwise (· < ·)) (h : k ∈ m.map Prod.fst) :
    (mapSet m k x).map Prod.fst = m.map Prod.fst := by
  induction m with
  | nil => simp at h
  | cons p rest ih =>
    obtain ⟨k'', y⟩ := p
    simp only [List.map_cons, List.pairwise_cons] at hs
    simp only [List.map_cons, List.mem_cons] at h
    rcases h with h | h
    · subst h
      simp [mapSet, lt_irrefl]
    · have hk : k'' < k := hs.1 k h
      have h1 : ¬k < k'' := by omega
      have h2 : ¬k = k'' := by omega
      simp [mapSet, h1, h2, ih hs.2 h]

theorem mapSet_sorted {α : Type} (m : List (Nat × α)) (k : Nat) (x : α)
    (hs : (m.map Prod.fst).Pairwise (· < ·)) :
    ((mapSet m k x).map Prod.fst).Pairwise (· < ·) := by
  induction m with
  | nil => simp [mapSet]
  | cons p rest ih =>
    obtain ⟨k'', y⟩ := p
    simp only [List.map_cons, List.pairwise_cons] at hs
    by_cases h1 : k < k''
    · simp only [mapSet, if_pos h1, List.map_cons, List.pairwise_cons]
      refine ⟨?_, hs.1, hs.2⟩
      intro a ha
      simp only [List.mem_cons] at ha
      rcases ha with ha | ha
      · omega
      · have := hs.1 a ha
        omega
    · by_cases h2 : k = k''
      · subst h2
        have hset : mapSet ((k, y) :: rest) k x = (k, x) :: rest := by
          simp [mapSet]
        rw [hset]
        simp only [List.map_cons, List.pairwise_cons]
        exact ⟨hs.1, hs.2⟩
      · simp only [mapSet, if_neg h1, if_neg h2, List.map_cons, List.pairwise_cons]
        refine ⟨?_, ih hs.2⟩
        intro a ha
        rw [mapSet_map_fst_mem] at ha
        rcases ha with ha | ha
        · omega
        · exact hs.1 a ha

theorem mapSet_perm_of_not_mem {α : Type} (m : List (Nat × α)) (k : Nat) (x : α)
    (h : k ∉ m.map Prod.fst) : (mapSet m k x).Perm ((k, x) :: m) := by
  induction m with
  | nil => simp [mapSet]
  | cons p rest ih =>
    obtain ⟨k'', y⟩ := p
    simp only [List.map_cons, List.mem_cons] at h
    push_neg at h
    by_cases h1 : k < k''
    · simp [mapSet, h1]
    · simp only [mapSet, if_neg h1, if_neg h.1]
      exact ((ih h.2).cons _).trans (List.Perm.swap (k, x) (k'', y) rest)


/-! ### Well-formedness of graphs built by `add_edge` -/

/-- Total number of edges into `v` (with multiplicity). -/
def edgesInto (g : TopologicalSort) (v : Nat) : Nat :=
  (g.graph.map (fun p => p.2.count v)).sum

def WFG (g : TopologicalSort) : Prop :=
  (g.in_degree.map Prod.fst).Pairwise (· < ·) ∧
  g.graph.map Prod.fst = g.in_degree.map Prod.fst ∧
  (∀ u v, v ∈ adjOf g u → v ∈ keysOf g) ∧
  (∀ v, indegOf g v = edgesInto g v)

theorem keysOf_nodup (g : TopologicalSort) (h : WFG g) : (keysOf g).Nodup :=
  h.1.imp Nat.ne_of_lt

theorem mapFind?_of_mem_nodup {α : Type} (m : List (Nat × α)) (k : Nat) (x : α)
    (hn : (m.map Prod.fst).Nodup) (h : (k, x) ∈ m) : mapFind? m k = some x := by
  induction m with
  | nil => simp at h
  | cons p rest ih =>
    obtain ⟨k'', y⟩ := p
    simp only [List.map_cons, List.nodup_cons] at hn
    rcases List.mem_cons.mp h with h' | h'
    · rw [Prod.mk.injEq] at h'
      obtain ⟨hk, hx⟩ := h'
      simp_all [mapFind?]
    · have hk : k ≠ k'' := by
        intro he
        subst he
        exact hn.1 (List.mem_map.mpr ⟨(k, x), h', rfl⟩)
      simp [mapFind?, hk, ih hn.2 h']

theorem mapSet_decomp {α : Type} (m : List (Nat × α)) (k : Nat) (x : α)
    (hs : (m.map Prod.fst).Pairwise (· < ·)) (h : k ∈ m.map Prod.fst) :
    ∃ m1 y m2, m = m1 ++ (k, y) :: m2 ∧ mapSet m k x = m1 ++ (k, x) :: m2 := by
  induction m with
  | nil => simp at h
  | cons p rest ih =>
    obtain ⟨k'', y⟩ := p
    simp only [List.map_cons, List.pairwise_cons] at hs
    simp only [List.map_cons, List.mem_cons] at h
    by_cases h2 : k = k''
    · subst h2
      refine ⟨[], y, rest, by simp, ?_⟩
      simp [mapSet]
    · have hmem : k ∈ rest.map Prod.fst := by tauto
      have hk : k'' < k := hs.1 k hmem
      have h1 : ¬k < k'' := by omega
      obtain ⟨m1, y', m2, he, hset⟩ := ih hs.2 hmem
      exact ⟨(k'', y) :: m1, y', m2, by simp [he], by simp [mapSet, h1, h2, hset]⟩

theorem sumCount_mapSet_fresh (m : List (Nat × List Nat)) (k : Nat) (l0 : List Nat)
    (v : Nat) (h : k ∉ m.map Prod.fst) :
    ((mapSet m k l0).map (fun p => p.2.count v)).sum =
      l0.count v + (m.map (fun p => p.2.count v)).sum := by
  have hp := (mapSet_perm_of_not_mem m k l0 h).map (fun p => p.2.count v)
  rw [hp.sum_eq]
  simp

theorem mapSet_map_fst_congr {α β : Type} (m : List (Nat × α)) (m' : List (Nat × β))
    (k : Nat) (x : α) (y : β) (h : m.map Prod.fst = m'.map Prod.fst) :
    (mapSet m k x).map Prod.fst = (mapSet m' k y).map Prod.fst := by
  induction m generalizing m' with
  | nil =>
    cases m' with
    | nil => simp [mapSet]
    | cons q r => simp at h
  | cons p rest ih =>
    cases m' with
    | nil => simp at h
    | cons q r =>
      obtain ⟨k1, a⟩ := p
      obtain ⟨k1', b⟩ := q
      simp only [List.map_cons, List.cons.injEq] at h
      obtain ⟨hk, ht⟩ := h
      subst hk
      by_cases h1 : k < k1
      · simp [mapSet, h1, ht]
      · by_cases h2 : k = k1 <;> simp [mapSet, h1, h2, ht, ih r ht]

theorem WFG_registerNode (g : TopologicalSort) (n : Nat) (h : WFG g)
    (hn : n ∉ keysOf g) :
    WFG (registerNode g n) ∧
    (∀ w, w ∈ keysOf (registerNode g n) ↔ w = n ∨ w ∈ keysOf g) := by
  obtain ⟨w1, w2, w3, w4⟩ := h
  have hmem : ∀ w, w ∈ keysOf (registerNode g n) ↔ w = n ∨ w ∈ keysOf g := by
    intro w
    exact mapSet_map_fst_mem g.in_degree n w 0
  have hadj : adjOf (registerNode g n) = adjOf g := by
    funext u
    by_cases hu : u = n
    · subst hu
      have hfind : mapFind? g.graph u = none := by
        rw [mapFind?_eq_none_iff, w2]
        exact hn
      simp [adjOf, registerNode, mapFind?_mapSet_self, hfind]
    · simp [adjOf, registerNode, mapFind?_mapSet_ne _ _ _ _ hu]
  have hindeg : indegOf (registerNode g n) = indegOf g := by
    funext u
    by_cases hu : u = n
    · subst hu
      have hfind : mapFind? g.in_degree u = none := by
        rw [mapFind?_eq_none_iff]
        exact hn
      simp [indegOf, registerNode, mapFind?_mapSet_self, hfind]
    · simp [indegOf, registerNode, mapFind?_mapSet_ne _ _ _ _ hu]
  have hedges : edgesInto (registerNode g n) = edgesInto g := by
    funext v
    have : n ∉ g.graph.map Prod.fst := by
      rw [w2]
      exact hn
    simp [edgesInto, registerNode, sumCount_mapSet_fresh g.graph n [] v this]
  refine ⟨⟨mapSet_sorted g.in_degree n 0 w1, ?_, ?_, ?_⟩, hmem⟩
  · exact mapSet_map_fst_congr g.graph g.in_degree n [] 0 w2
  · intro u v hv
    rw [hadj] at hv
    rw [hmem]
    exact Or.inr (w3 u v hv)
  · intro v
    rw [hindeg, hedges]
    exact w4 v

theorem WFG_addArc (g : TopologicalSort) (u v : Nat) (h : WFG g)
    (hu : u ∈ keysOf g) (hv : v ∈ keysOf g) :
    WFG ⟨mapSet g.graph u ((mapFind? g.graph u).getD [] ++ [v]),
         mapSet g.in_degree v ((mapFind? g.in_degree v).getD 0 + 1)⟩ := by
  obtain ⟨w1, w2, w3, w4⟩ := h
  set g' : TopologicalSort :=
    ⟨mapSet g.graph u ((mapFind? g.graph u).getD [] ++ [v]),
     mapSet g.in_degree v ((mapFind? g.in_degree v).getD 0 + 1)⟩ with hg'
  have hgs : (g.graph.map Prod.fst).Pairwise (· < ·) := w2 ▸ w1
  have hug : u ∈ g.graph.map Prod.fst := w2 ▸ hu
  have hkeys : keysOf g' = keysOf g :=
    mapSet_map_fst_of_mem g.in_degree v _ w1 hv
  have hgkeys : g'.graph.map Prod.fst = g.graph.map Prod.fst :=
    mapSet_map_fst_of_mem g.graph u _ hgs hug
  have hadj : ∀ u', adjOf g' u' =
      if u' = u then adjOf g u ++ [v] else adjOf g u' := by
    intro u'
    by_cases hu' : u' = u
    · subst hu'
      simp [adjOf, mapFind?_mapSet_self]
    · simp [adjOf, hu', mapFind?_mapSet_ne _ _ _ _ hu']
  have hindeg : ∀ w, indegOf g' w =
      if w = v then indegOf g w + 1 else indegOf g w := by
    intro w
    by_cases hw : w = v
    · subst hw
      simp [indegOf, mapFind?_mapSet_self]
    · simp [indegOf, hw, mapFind?_mapSet_ne _ _ _ _ hw]
  have hedges : ∀ w, edgesInto g' w =
      edgesInto g w + (if w = v then 1 else 0) := by
    intro w
    obtain ⟨m1, y, m2, he, hset⟩ :=
      mapSet_decomp g.graph u ((mapFind? g.graph u).getD [] ++ [v]) hgs hug
    have hy : mapFind? g.graph u = some y := by
      apply mapFind?_of_mem_nodup g.graph u y (hgs.imp Nat.ne_of_lt)
      rw [he]
      simp
    rw [hy] at hset
    simp only [Option.getD_some] at hset
    have hgg : g'.graph = m1 ++ (u, y ++ [v]) :: m2 := by
      rw [hg']
      show mapSet g.graph u ((mapFind? g.graph u).getD [] ++ [v]) = _
      rw [hy]
      exact hset
    have e1 : edgesInto g' w = ((m1 ++ (u, y ++ [v]) :: m2).map
        (fun p => p.2.count w)).sum := by
      simp only [edgesInto]
      rw [hy]
      simp only [Option.getD_some]
      rw [hset]
    have e2 : edgesInto g w = ((m1 ++ (u, y) :: m2).map
        (fun p => p.2.count w)).sum := by
      simp only [edgesInto, he]
    rw [e1, e2]
    simp only [List.map_append, List.sum_append, List.map_cons, List.sum_cons,
      List.count_append]
    have hc : List.count w [v] = if w = v then 1 else 0 := by
      by_cases hw : w = v <;> simp [hw]
    omega
  refine ⟨?_, ?_, ?_, ?_⟩
  · show (g'.in_degree.map Prod.fst).Pairwise (· < ·)
    have h' : g'.in_degree.map Prod.fst = g.in_degree.map Prod.fst := hkeys
    rw [h']
    exact w1
  · show g'.graph.map Prod.fst = g'.in_degree.map Prod.fst
    rw [hgkeys, w2]
    exact hkeys.symm
  · intro u' w hw
    rw [hadj] at hw
    have hkg : keysOf g' = keysOf g := hkeys
    rw [hkg]
    by_cases hu' : u' = u
    · rw [if_pos hu'] at hw
      rcases List.mem_append.mp hw with hw | hw
      · exact w3 u w hw
      · simp at hw
        subst hw
        exact hv
    · rw [if_neg hu'] at hw
      exact w3 u' w hw
  · intro w
    rw [hindeg, hedges, w4]
    by_cases hw : w = v <;> simp [hw]


theorem WFG_empty : WFG emptyTopo := by
  refine ⟨?_, ?_, ?_, ?_⟩ <;> simp [emptyTopo, adjOf, indegOf, edgesInto, keysOf, mapFind?]

theorem WFG_reg1 (G : TopologicalSort) (n : Nat) (h : WFG G) :
    WFG (if mapFind? G.graph n = none then registerNode G n else G) ∧
    n ∈ keysOf (if mapFind? G.graph n = none then registerNode G n else G) ∧
    (∀ w, w ∈ keysOf G →
      w ∈ keysOf (if mapFind? G.graph n = none then registerNode G n else G)) := by
  by_cases hc : mapFind? G.graph n = none
  · rw [if_pos hc]
    rw [mapFind?_eq_none_iff, h.2.1] at hc
    obtain ⟨hw, hmem⟩ := WFG_registerNode G n h hc
    exact ⟨hw, (hmem n).mpr (Or.inl rfl), fun w hw' => (hmem w).mpr (Or.inr hw')⟩
  · rw [if_neg hc]
    refine ⟨h, ?_, fun w hw => hw⟩
    rw [mapFind?_eq_none_iff, h.2.1] at hc
    exact not_not.mp hc

theorem WFG_reg2 (G : TopologicalSort) (n : Nat) (h : WFG G) :
    WFG (if mapFind? G.in_degree n = none then registerNode G n else G) ∧
    n ∈ keysOf (if mapFind? G.in_degree n = none then registerNode G n else G) ∧
    (∀ w, w ∈ keysOf G →
      w ∈ keysOf (if mapFind? G.in_degree n = none then registerNode G n else G)) := by
  by_cases hc : mapFind? G.in_degree n = none
  · rw [if_pos hc]
    rw [mapFind?_eq_none_iff] at hc
    obtain ⟨hw, hmem⟩ := WFG_registerNode G n h hc
    exact ⟨hw, (hmem n).mpr (Or.inl rfl), fun w hw' => (hmem w).mpr (Or.inr hw')⟩
  · rw [if_neg hc]
    refine ⟨h, ?_, fun w hw => hw⟩
    rw [mapFind?_eq_none_iff] at hc
    exact not_not.mp hc

theorem WFG_add_edge (g : TopologicalSort) (u v : Nat) (h : WFG g) :
    WFG (g.add_edge u v) := by
  obtain ⟨h1, hu1, hmono1⟩ := WFG_reg1 g u h
  obtain ⟨h2, hv2, hmono2⟩ :=
    WFG_reg2 (if mapFind? g.graph u = none then registerNode g u else g) v h1
  exact WFG_addArc _ u v h2 (hmono2 u hu1) hv2

theorem WFG_topoOf (edges : List (Nat × Nat)) : WFG (topoOf edges) := by
  suffices h : ∀ g, WFG g → WFG (edges.foldl (fun s e => s.add_edge e.1 e.2) g) from
    h emptyTopo WFG_empty
  induction edges with
  | nil => exact fun g hg => hg
  | cons e rest ih => exact fun g hg => ih _ (WFG_add_edge g e.1 e.2 hg)


/-! ### Topological orderings exclude cycles -/

theorem posIn_append_left (l1 l2 : List Nat) (u : Nat) (h : u ∈ l1) :
    posIn (l1 ++ l2) u = posIn l1 u := by
  induction l1 with
  | nil => simp at h
  | cons x t ih =>
    by_cases hx : x = u
    · simp [posIn, hx]
    · rcases List.mem_cons.mp h with h' | h'
      · exact absurd h'.symm hx
      · simp [posIn, hx, ih h']

theorem posIn_lt_length (l : List Nat) (u : Nat) (h : u ∈ l) :
    posIn l u < l.length := by
  induction l with
  | nil => simp at h
  | cons x t ih =>
    by_cases hx : x = u
    · simp [posIn, hx]
    · rcases List.mem_cons.mp h with h' | h'
      · exact absurd h'.symm hx
      · have := ih h'
        simp only [posIn, List.length_cons]
        rw [if_neg hx]
        omega

theorem posIn_append_right (l1 l2 : List Nat) (u : Nat) (h : u ∉ l1) :
    posIn (l1 ++ l2) u = l1.length + posIn l2 u := by
  induction l1 with
  | nil => simp [posIn]
  | cons x t ih =>
    simp only [List.mem_cons] at h
    push_neg at h
    have hx : x ≠ u := fun he => h.1 he.symm
    simp only [List.cons_append, posIn, List.length_cons]
    rw [if_neg hx]
    show posIn (t ++ l2) u + 1 = t.length + 1 + posIn l2 u
    rw [ih h.2]
    omega

theorem split_posIn_lt (l l1 l2 : List Nat) (u v : Nat) (hn : l.Nodup)
    (he : l = l1 ++ l2) (hu : u ∈ l1) (hv : v ∈ l2) : posIn l u < posIn l v := by
  subst he
  have hvl : v ∉ l1 := by
    intro hmem
    exact (List.disjoint_of_nodup_append hn) hmem hv
  rw [posIn_append_left l1 l2 u hu, posIn_append_right l1 l2 v hvl]
  have := posIn_lt_length l1 u hu
  omega

theorem validTopo_edge_lt (g : TopologicalSort) (l : List Nat) (hn : l.Nodup)
    (hvt : ValidTopo g l) (u v : Nat) (he : Edge g u v) : posIn l u < posIn l v := by
  obtain ⟨l1, l2, h1, h2, h3⟩ := hvt.2 u v he
  exact split_posIn_lt l l1 l2 u v hn h1 h2 h3

theorem validTopo_reaches_lt (g : TopologicalSort) (l : List Nat) (hn : l.Nodup)
    (hvt : ValidTopo g l) :
    ∀ n u v, ReachesIn g (n + 1) u v → posIn l u < posIn l v := by
  intro n
  induction n with
  | zero =>
    intro u v hr
    obtain ⟨w, hw, hwv⟩ := hr
    cases hwv
    exact validTopo_edge_lt g l hn hvt u v hw
  | succ m ih =>
    intro u v hr
    obtain ⟨w, hw, hwv⟩ := hr
    exact lt_trans (validTopo_edge_lt g l hn hvt u w hw) (ih w v hwv)

theorem validTopo_no_cycle (g : TopologicalSort) (l : List Nat)
    (hk : (keysOf g).Nodup) (hvt : ValidTopo g l) : ¬HasCycle g := by
  rintro ⟨u, n, hr⟩
  have hn : l.Nodup := hvt.1.nodup_iff.mpr hk
  exact lt_irrefl _ (validTopo_reaches_lt g l hn hvt n u u hr)

/-! ### Back-stepping pigeonhole: an inescapable set yields a cycle -/

theorem hasCycle_of_backstep (g : TopologicalSort) (P : Nat → Prop) (m0 : Nat)
    (hkeys : ∀ m, P m → m ∈ keysOf g) (h0 : P m0)
    (hstep : ∀ m, P m → ∃ u, P u ∧ Edge g u m) : HasCycle g := by
  have hch : ∀ m, ∃ u, P m → (P u ∧ Edge g u m) := by
    intro m
    by_cases hm : P m
    · obtain ⟨u, hu⟩ := hstep m hm
      exact ⟨u, fun _ => hu⟩
    · exact ⟨m, fun c => absurd c hm⟩
  choose f hf using hch
  have hP : ∀ n, P (f^[n] m0) := by
    intro n
    induction n with
    | zero => exact h0
    | succ m ih =>
      rw [Function.iterate_succ_apply' f m m0]
      exact (hf _ ih).1
  have hedge : ∀ n, Edge g (f^[n + 1] m0) (f^[n] m0) := by
    intro n
    rw [Function.iterate_succ_apply' f n m0]
    exact (hf _ (hP n)).2
  have hreach : ∀ b a, ReachesIn g b (f^[a + b] m0) (f^[a] m0) := by
    intro b
    induction b with
    | zero => intro a; rfl
    | succ c ih =>
      intro a
      refine ⟨f^[a + c] m0, ?_, ih a⟩
      have : a + (c + 1) = (a + c) + 1 := by omega
      rw [this]
      exact hedge (a + c)
  set N := (keysOf g).length with hN
  have hmaps : ∀ i ∈ Finset.range (N + 1), f^[i] m0 ∈ (keysOf g).toFinset := by
    intro i _
    exact List.mem_toFinset.mpr (hkeys _ (hP i))
  have hcard : (keysOf g).toFinset.card < (Finset.range (N + 1)).card := by
    rw [Finset.card_range]
    have := (keysOf g).toFinset_card_le
    omega
  obtain ⟨a, ha, b, hb, hab, he⟩ :=
    Finset.exists_ne_map_eq_of_card_lt_of_maps_to hcard hmaps
  rcases Nat.lt_or_ge a b with hlt | hge
  · refine ⟨f^[b] m0, b - a - 1, ?_⟩
    have hba : b - a - 1 + 1 = b - a := by omega
    rw [hba]
    have h2 : a + (b - a) = b := by omega
    have := hreach (b - a) a
    rw [h2] at this
    rw [← he] at this
    rw [← he]
    exact this
  · have hlt : b < a := by omega
    refine ⟨f^[a] m0, a - b - 1, ?_⟩
    have hba : a - b - 1 + 1 = a - b := by omega
    rw [hba]
    have h2 : b + (a - b) = a := by omega
    have := hreach (a - b) b
    rw [h2] at this
    rw [he] at this
    rw [he]
    exact this


/-! ### Counting edges into a node over subsets of processed sources -/

/-- Edges into `v` whose source lies in `R` (with multiplicity). -/
def countInto (g : TopologicalSort) (R : List Nat) (v : Nat) : Nat :=
  (R.map (fun u => (adjOf g u).count v)).sum

theorem countInto_append (g : TopologicalSort) (R S : List Nat) (v : Nat) :
    countInto g (R ++ S) v = countInto g R v + countInto g S v := by
  simp [countInto]

theorem countInto_perm (g : TopologicalSort) (R S : List Nat) (v : Nat)
    (h : R.Perm S) : countInto g R v = countInto g S v :=
  (h.map _).sum_eq

theorem sum_le_of_sublist (l l' : List Nat) (h : List.Sublist l l') : l.sum ≤ l'.sum := by
  induction h with
  | slnil => exact le_refl 0
  | cons a _ ih => simp only [List.sum_cons]; omega
  | cons₂ a _ ih => simp only [List.sum_cons]; omega

theorem countInto_subperm_le (g : TopologicalSort) (R S : List Nat) (v : Nat)
    (h : List.Subperm R S) : countInto g R v ≤ countInto g S v := by
  obtain ⟨l', hperm, hsub⟩ := h
  calc countInto g R v = countInto g l' v := (countInto_perm g l' R v hperm).symm
    _ ≤ countInto g S v := sum_le_of_sublist _ _ (hsub.map _)

theorem edge_src_mem_keys (g : TopologicalSort) (h : WFG g) (u v : Nat)
    (he : Edge g u v) : u ∈ keysOf g := by
  unfold Edge adjOf at he
  cases hf : mapFind? g.graph u with
  | none => rw [hf] at he; simp at he
  | some l =>
    have : u ∈ g.graph.map Prod.fst := by
      by_contra hc
      rw [← mapFind?_eq_none_iff] at hc
      rw [hc] at hf
      cases hf
    rw [h.2.1] at this
    exact this

theorem edge_tgt_mem_keys (g : TopologicalSort) (h : WFG g) (u v : Nat)
    (he : Edge g u v) : v ∈ keysOf g := h.2.2.1 u v he

theorem edgesInto_eq_countInto_keys (g : TopologicalSort) (h : WFG g) (v : Nat) :
    edgesInto g v = countInto g (keysOf g) v := by
  have hnd : (g.graph.map Prod.fst).Nodup := (h.2.1 ▸ h.1).imp Nat.ne_of_lt
  have hadj : ∀ p ∈ g.graph, adjOf g p.1 = p.2 := by
    intro p hp
    obtain ⟨k, x⟩ := p
    simp only [adjOf, mapFind?_of_mem_nodup g.graph k x hnd hp, Option.getD_some]
  unfold edgesInto countInto
  rw [show keysOf g = g.graph.map Prod.fst from h.2.1.symm, List.map_map]
  apply congrArg
  apply List.map_congr_left
  intro p hp
  show p.2.count v = ((fun u => (adjOf g u).count v) ∘ Prod.fst) p
  simp only [Function.comp_apply]
  rw [hadj p hp]

theorem countInto_le_edgesInto (g : TopologicalSort) (h : WFG g) (R : List Nat)
    (v : Nat) (hnd : R.Nodup) (hsub : ∀ x ∈ R, x ∈ keysOf g) :
    countInto g R v ≤ edgesInto g v := by
  rw [edgesInto_eq_countInto_keys g h]
  exact countInto_subperm_le g R (keysOf g) v (List.Nodup.subperm hnd hsub)

theorem mem_of_countInto_full (g : TopologicalSort) (h : WFG g) (R : List Nat)
    (v : Nat) (hnd : R.Nodup) (hsub : ∀ x ∈ R, x ∈ keysOf g)
    (hfull : countInto g R v = edgesInto g v) (u : Nat) (he : Edge g u v) :
    u ∈ R := by
  by_contra hu
  have hnd' : (R ++ [u]).Nodup := by
    rw [List.nodup_append]
    refine ⟨hnd, List.nodup_singleton u, ?_⟩
    intro a ha hau
    simp only [List.mem_singleton] at hau
    subst hau
    exact hu ha
  have hsub' : ∀ x ∈ R ++ [u], x ∈ keysOf g := by
    intro x hx
    rcases List.mem_append.mp hx with hx | hx
    · exact hsub x hx
    · simp at hx
      rw [hx]
      exact edge_src_mem_keys g h u v he
  have hle := countInto_le_edgesInto g h (R ++ [u]) v hnd' hsub'
  rw [countInto_append] at hle
  have hcnt : 0 < (adjOf g u).count v := List.count_pos_iff.mpr he
  have : countInto g [u] v = (adjOf g u).count v := by simp [countInto]
  omega

theorem sublist_exists_perm_append (l l' : List Nat) (h : List.Sublist l l') :
    ∃ t, l'.Perm (l ++ t) := by
  induction h with
  | slnil => exact ⟨[], List.Perm.refl _⟩
  | @cons l1 l2 a hs ih =>
    obtain ⟨t, ht⟩ := ih
    exact ⟨a :: t, (ht.cons a).trans List.perm_middle.symm⟩
  | @cons₂ l1 l2 a hs ih =>
    obtain ⟨t, ht⟩ := ih
    exact ⟨t, ht.cons a⟩

theorem subperm_exists_perm_append (l l' : List Nat) (h : List.Subperm l l') :
    ∃ t, l'.Perm (l ++ t) := by
  obtain ⟨l'', hperm, hsub⟩ := h
  obtain ⟨t, ht⟩ := sublist_exists_perm_append l'' l' hsub
  exact ⟨t, ht.trans (hperm.append_right t)⟩


/-! ### The relaxation step of Kahn's algorithm -/

theorem count_cons_nat (a b : Nat) (l : List Nat) :
    (b :: l).count a = l.count a + if b = a then 1 else 0 := by
  rw [List.count_cons]
  simp

theorem kahnRelax_fst (adjl : List Nat) :
    ∀ (ind : Nat → Int) (q : List Nat) (w : Nat),
      (kahnRelax adjl ind q).1 w = ind w - adjl.count w := by
  induction adjl with
  | nil =>
    intro ind q w
    simp [kahnRelax]
  | cons v rest ih =>
    intro ind q w
    have hstep : kahnRelax (v :: rest) ind q =
        kahnRelax rest (fun w' => if w' = v then ind w' - 1 else ind w')
          (if (if v = v then ind v - 1 else ind v) = 0 then q ++ [v] else q) := by
      simp only [kahnRelax]
    rw [hstep, ih]
    rw [count_cons_nat w v rest]
    by_cases hw : w = v
    · subst hw
      simp only [if_pos rfl]
      push_cast
      ring
    · have hvw : v ≠ w := fun he => hw he.symm
      simp only [if_neg hw, if_neg hvw]
      push_cast
      ring

theorem kahnRelax_snd (adjl : List Nat) :
    ∀ (ind : Nat → Int) (q : List Nat),
      ∃ qext, (kahnRelax adjl ind q).2 = q ++ qext ∧ qext.Nodup ∧
        (∀ x, x ∈ qext ↔
          (ind x - adjl.count x ≤ 0 ∧ 1 ≤ ind x ∧ x ∈ adjl)) := by
  induction adjl with
  | nil =>
    intro ind q
    exact ⟨[], by simp [kahnRelax], List.nodup_nil, by simp⟩
  | cons v rest ih =>
    intro ind q
    have hstep : kahnRelax (v :: rest) ind q =
        kahnRelax rest (fun w' => if w' = v then ind w' - 1 else ind w')
          (if (if v = v then ind v - 1 else ind v) = 0 then q ++ [v] else q) := by
      simp only [kahnRelax]
    set ind1 : Nat → Int := fun w' => if w' = v then ind w' - 1 else ind w' with hind1
    obtain ⟨qext2, hq2, hnd2, hmem2⟩ :=
      ih ind1 (if (if v = v then ind v - 1 else ind v) = 0 then q ++ [v] else q)
    have hind1v : ind1 v = ind v - 1 := by simp [hind1]
    have hind1w : ∀ w, w ≠ v → ind1 w = ind w := by
      intro w hw
      simp [hind1, hw]
    by_cases hpush : (if v = v then ind v - 1 else ind v) = 0
    · rw [if_pos rfl] at hpush
      refine ⟨v :: qext2, ?_, ?_, ?_⟩
      · rw [hstep, hq2, if_pos (by rw [if_pos rfl]; exact hpush)]
        simp
      · rw [List.nodup_cons]
        refine ⟨?_, hnd2⟩
        intro hv
        have := (hmem2 v).mp hv
        rw [hind1v] at this
        omega
      · intro x
        rw [List.mem_cons, hmem2 x, count_cons_nat x v rest, List.mem_cons]
        by_cases hx : x = v
        · subst hx
          rw [hind1v]
          simp only [if_pos rfl]
          constructor
          · intro _
            have : (0 : Int) ≤ rest.count x := by positivity
            push_cast
            refine ⟨by omega, by omega, Or.inl trivial⟩
          · intro _
            exact Or.inl trivial
        · rw [hind1w x hx]
          have hvx : v ≠ x := fun he => hx he.symm
          simp only [if_neg hvx]
          constructor
          · rintro (he | hr)
            · exact absurd he hx
            · push_cast at hr ⊢
              exact ⟨by omega, hr.2.1, Or.inr hr.2.2⟩
          · rintro ⟨h1, h2, h3 | h3⟩
            · exact absurd h3 hx
            · push_cast at h1 ⊢
              exact Or.inr ⟨by omega, h2, h3⟩
    · rw [if_pos rfl] at hpush
      refine ⟨qext2, ?_, hnd2, ?_⟩
      · rw [hstep, hq2, if_neg (by rw [if_pos rfl]; exact hpush)]
      · intro x
        rw [hmem2 x, count_cons_nat x v rest, List.mem_cons]
        by_cases hx : x = v
        · subst hx
          rw [hind1v]
          simp only [if_pos rfl]
          constructor
          · rintro ⟨h1, h2, h3⟩
            push_cast at h1 ⊢
            refine ⟨by omega, by omega, Or.inr h3⟩
          · rintro ⟨h1, h2, _⟩
            push_cast at h1 ⊢
            have hcnt : 1 ≤ rest.count x := by
              by_contra hc
              have h0 : rest.count x = 0 := by omega
              rw [h0] at h1
              push_cast at h1
              omega
            refine ⟨by omega, by omega, ?_⟩
            exact List.count_pos_iff.mp (by omega)
        · rw [hind1w x hx]
          have hvx : v ≠ x := fun he => hx he.symm
          simp only [if_neg hvx]
          constructor
          · rintro ⟨h1, h2, h3⟩
            push_cast at h1 ⊢
            exact ⟨by omega, h2, Or.inr h3⟩
          · rintro ⟨h1, h2, h3 | h3⟩
            · exact absurd h3 hx
            · push_cast at h1 ⊢
              exact ⟨by omega, h2, h3⟩


/-! ### The Kahn loop invariant -/

def KInv (g : TopologicalSort) (q : List Nat) (ind : Nat → Int)
    (result : List Nat) : Prop :=
  (result ++ q).Nodup ∧
  (∀ x ∈ result ++ q, x ∈ keysOf g) ∧
  (∀ v, ind v = (edgesInto g v : Int) - countInto g result v) ∧
  (∀ x ∈ result ++ q, ind x ≤ 0) ∧
  (∀ v ∈ q, ∀ u, Edge g u v → u ∈ result) ∧
  (∀ v ∈ result, ∀ u, Edge g u v →
    ∃ s1 s2, result = s1 ++ s2 ∧ u ∈ s1 ∧ v ∈ s2) ∧
  (∀ m ∈ keysOf g, ind m = 0 → m ∈ result ++ q)

theorem KInv_nonneg (g : TopologicalSort) (h : WFG g) (q : List Nat)
    (ind : Nat → Int) (result : List Nat) (hk : KInv g q ind result) :
    ∀ v, 0 ≤ ind v := by
  intro v
  rw [hk.2.2.1 v]
  have hnd : result.Nodup := (List.nodup_append.mp hk.1).1
  have hsub : ∀ x ∈ result, x ∈ keysOf g := by
    intro x hx
    exact hk.2.1 x (List.mem_append.mpr (Or.inl hx))
  have := countInto_le_edgesInto g h result v hnd hsub
  omega

theorem KInv_init (g : TopologicalSort) (h : WFG g) :
    KInv g ((keysOf g).filter fun v => indegOf g v == 0)
      (fun v => (indegOf g v : Int)) [] := by
  have hknd := keysOf_nodup g h
  have hfilter : ∀ x, x ∈ (keysOf g).filter (fun v => indegOf g v == 0) →
      x ∈ keysOf g ∧ indegOf g x = 0 := by
    intro x hx
    obtain ⟨h1, h2⟩ := List.mem_filter.mp hx
    exact ⟨h1, Nat.beq_eq_true_eq _ _ ▸ h2⟩
  refine ⟨?_, ?_, ?_, ?_, ?_, ?_, ?_⟩
  · simpa using hknd.filter _
  · intro x hx
    rw [List.nil_append] at hx
    exact (hfilter x hx).1
  · intro v
    simp [countInto, h.2.2.2 v]
  · intro x hx
    rw [List.nil_append] at hx
    have h2 := (hfilter x hx).2
    show (indegOf g x : Int) ≤ 0
    omega
  · intro v hv u hedge
    have h0 : indegOf g v = 0 := (hfilter v hv).2
    have hfull : countInto g [] v = edgesInto g v := by
      rw [← h.2.2.2 v, h0]
      simp [countInto]
    exact mem_of_countInto_full g h [] v (by simp) (by simp) hfull u hedge
  · simp
  · intro m hm h0
    rw [List.nil_append]
    apply List.mem_filter.mpr
    refine ⟨hm, ?_⟩
    have h0' : (indegOf g m : Int) = 0 := h0
    have : indegOf g m = 0 := by exact_mod_cast h0'
    simp [this]

theorem KInv_step (g : TopologicalSort) (h : WFG g) (node : Nat) (q : List Nat)
    (ind : Nat → Int) (result : List Nat) (hk : KInv g (node :: q) ind result) :
    KInv g (kahnRelax (adjOf g node) ind q).2 (kahnRelax (adjOf g node) ind q).1
      (result ++ [node]) := by
  obtain ⟨k1, k2, k3, k4, k5, k6, k7⟩ := hk
  obtain ⟨qext, hq, hndq, hmem⟩ := kahnRelax_snd (adjOf g node) ind q
  have hfst := kahnRelax_fst (adjOf g node) ind q
  have hnonneg := KInv_nonneg g h (node :: q) ind result ⟨k1, k2, k3, k4, k5, k6, k7⟩
  have hassoc : (result ++ [node]) ++ q = result ++ node :: q := by
    rw [List.append_assoc]
    rfl
  have hold_nodup : ((result ++ [node]) ++ q).Nodup := by
    rw [hassoc]
    exact k1
  have hqext_fresh : ∀ x ∈ qext, x ∉ (result ++ [node]) ++ q := by
    intro x hx hmem'
    have h1 := (hmem x).mp hx
    have h2 : ind x ≤ 0 := by
      apply k4
      rw [← hassoc]
      exact hmem'
    omega
  have hqext_adj : ∀ x ∈ qext, x ∈ adjOf g node := by
    intro x hx
    exact ((hmem x).mp hx).2.2
  have c1 : ((result ++ [node]) ++ (kahnRelax (adjOf g node) ind q).2).Nodup := by
    rw [hq, ← List.append_assoc]
    rw [List.nodup_append]
    refine ⟨hold_nodup, hndq, ?_⟩
    intro a ha ha'
    exact hqext_fresh a ha' ha
  have c2 : ∀ x ∈ (result ++ [node]) ++ (kahnRelax (adjOf g node) ind q).2,
      x ∈ keysOf g := by
    rw [hq, ← List.append_assoc]
    intro x hx
    rcases List.mem_append.mp hx with hx | hx
    · rw [hassoc] at hx
      exact k2 x hx
    · exact h.2.2.1 node x (hqext_adj x hx)
  have c3 : ∀ v, (kahnRelax (adjOf g node) ind q).1 v =
      (edgesInto g v : Int) - countInto g (result ++ [node]) v := by
    intro v
    rw [hfst v, k3 v, countInto_append]
    have : countInto g [node] v = (adjOf g node).count v := by simp [countInto]
    rw [this]
    push_cast
    ring
  have c4 : ∀ x ∈ (result ++ [node]) ++ (kahnRelax (adjOf g node) ind q).2,
      (kahnRelax (adjOf g node) ind q).1 x ≤ 0 := by
    rw [hq, ← List.append_assoc]
    intro x hx
    rw [hfst x]
    rcases List.mem_append.mp hx with hx | hx
    · have h2 : ind x ≤ 0 := by
        apply k4
        rw [← hassoc]
        exact hx
      have : (0 : Int) ≤ (adjOf g node).count x := by positivity
      omega
    · exact ((hmem x).mp hx).1
  have hnd' : (result ++ [node]).Nodup := (List.nodup_append.mp c1).1
  have hsub' : ∀ x ∈ result ++ [node], x ∈ keysOf g := by
    intro x hx
    exact c2 x (List.mem_append.mpr (Or.inl hx))
  have c5 : ∀ v ∈ (kahnRelax (adjOf g node) ind q).2, ∀ u, Edge g u v →
      u ∈ result ++ [node] := by
    rw [hq]
    intro v hv u hedge
    rcases List.mem_append.mp hv with hv | hv
    · exact List.mem_append.mpr (Or.inl (k5 v (List.mem_cons_of_mem node hv) u hedge))
    · have hle : (kahnRelax (adjOf g node) ind q).1 v ≤ 0 := by
        rw [hfst v]
        exact ((hmem v).mp hv).1
      have hge : (0 : Int) ≤ (kahnRelax (adjOf g node) ind q).1 v := by
        rw [c3 v]
        have := countInto_le_edgesInto g h (result ++ [node]) v hnd' hsub'
        omega
      have heq : countInto g (result ++ [node]) v = edgesInto g v := by
        have := c3 v
        omega
      exact mem_of_countInto_full g h (result ++ [node]) v hnd' hsub' heq u hedge
  have c6 : ∀ v ∈ result ++ [node], ∀ u, Edge g u v →
      ∃ s1 s2, result ++ [node] = s1 ++ s2 ∧ u ∈ s1 ∧ v ∈ s2 := by
    intro v hv u hedge
    rcases List.mem_append.mp hv with hv | hv
    · obtain ⟨s1, s2, he, hu, hvv⟩ := k6 v hv u hedge
      exact ⟨s1, s2 ++ [node], by rw [he, List.append_assoc], hu,
        List.mem_append.mpr (Or.inl hvv)⟩
    · simp only [List.mem_singleton] at hv
      subst hv
      have hu : u ∈ result := k5 v (List.mem_cons_self v q) u hedge
      exact ⟨result, [v], rfl, hu, List.mem_singleton.mpr rfl⟩
  have c7 : ∀ m ∈ keysOf g, (kahnRelax (adjOf g node) ind q).1 m = 0 →
      m ∈ (result ++ [node]) ++ (kahnRelax (adjOf g node) ind q).2 := by
    intro m hm h0
    rw [hfst m] at h0
    by_cases hold : m ∈ result ++ node :: q
    · rw [hq, ← List.append_assoc, hassoc]
      exact List.mem_append.mpr (Or.inl hold)
    · have hne : ind m ≠ 0 := fun hc => hold (k7 m hm hc)
      have hpos : 1 ≤ ind m := by
        have := hnonneg m
        omega
      have hcnt : 0 < (adjOf g node).count m := by
        by_contra hc
        have : (adjOf g node).count m = 0 := by omega
        rw [this] at h0
        push_cast at h0
        omega
      have hqm : m ∈ qext := by
        rw [hmem m]
        exact ⟨by omega, hpos, List.count_pos_iff.mp hcnt⟩
      rw [hq, ← List.append_assoc]
      exact List.mem_append.mpr (Or.inr hqm)
  exact ⟨c1, c2, c3, c4, c5, c6, c7⟩


theorem kahnLoop_spec (g : TopologicalSort) (h : WFG g) :
    ∀ (fuel : Nat) (q : List Nat) (ind : Nat → Int) (result : List Nat),
      KInv g q ind result → (keysOf g).length + 1 ≤ fuel + result.length →
      ∃ res ind', kahnLoop g fuel q ind result = some res ∧ KInv g [] ind' res := by
  intro fuel
  induction fuel with
  | zero =>
    intro q ind result hk hlen
    cases q with
    | nil => exact ⟨result, ind, rfl, hk⟩
    | cons node q2 =>
      exfalso
      have hnd : result.Nodup := (List.nodup_append.mp hk.1).1
      have hsub : ∀ x ∈ result, x ∈ keysOf g := fun x hx =>
        hk.2.1 x (List.mem_append.mpr (Or.inl hx))
      have := (List.Nodup.subperm hnd hsub).length_le
      omega
  | succ fuel ih =>
    intro q ind result hk hlen
    cases q with
    | nil => exact ⟨result, ind, rfl, hk⟩
    | cons node q2 =>
      have hstep := KInv_step g h node q2 ind result hk
      obtain ⟨res, ind', hloop, hfin⟩ :=
        ih (kahnRelax (adjOf g node) ind q2).2 (kahnRelax (adjOf g node) ind q2).1
          (result ++ [node]) hstep (by simp only [List.length_append]; simp; omega)
      refine ⟨res, ind', ?_, hfin⟩
      rw [← hloop]
      simp only [kahnLoop]

theorem kahn_facts (g : TopologicalSort) (h : WFG g) :
    (∀ l, g.kahn_sort = some l → ValidTopo g l) ∧
    (g.kahn_sort = none → HasCycle g) := by
  obtain ⟨res, ind', hloop, hfin⟩ :=
    kahnLoop_spec g h ((keysOf g).length + 1)
      ((keysOf g).filter fun v => indegOf g v == 0)
      (fun v => (indegOf g v : Int)) [] (KInv_init g h) (by omega)
  obtain ⟨k1, k2, k3, k4, k5, k6, k7⟩ := hfin
  rw [List.append_nil] at k1 k2 k4
  have hks : g.kahn_sort =
      if res.length = (keysOf g).length then some res else none := by
    simp only [TopologicalSort.kahn_sort]
    rw [hloop]
  have hknd := keysOf_nodup g h
  have hsubp : List.Subperm res (keysOf g) := List.Nodup.subperm k1 k2
  constructor
  · intro l hsome
    rw [hks] at hsome
    by_cases hlen : res.length = (keysOf g).length
    · rw [if_pos hlen] at hsome
      obtain rfl : res = l := Option.some.inj hsome
      have hperm : res.Perm (keysOf g) :=
        List.Subperm.perm_of_length_le hsubp (by omega)
      refine ⟨hperm, ?_⟩
      intro u v hedge
      have hv : v ∈ res := hperm.mem_iff.mpr (edge_tgt_mem_keys g h u v hedge)
      exact k6 v hv u hedge
    · rw [if_neg hlen] at hsome
      cases hsome
  · intro hnone
    rw [hks] at hnone
    have hlen : res.length ≠ (keysOf g).length := by
      intro hc
      rw [if_pos hc] at hnone
      cases hnone
    have hlt : res.length < (keysOf g).length := by
      have := hsubp.length_le
      omega
    have hexists : ∃ m, m ∈ keysOf g ∧ m ∉ res := by
      by_contra hc
      push_neg at hc
      have : List.Subperm (keysOf g) res := List.Nodup.subperm hknd hc
      have := this.length_le
      omega
    obtain ⟨m0, hm0k, hm0r⟩ := hexists
    obtain ⟨t, ht⟩ := subperm_exists_perm_append res (keysOf g) hsubp
    have htnodup : (res ++ t).Nodup := ht.nodup_iff.mp hknd
    apply hasCycle_of_backstep g (fun m => m ∈ keysOf g ∧ m ∉ res) m0
      (fun m hm => hm.1) ⟨hm0k, hm0r⟩
    intro m hm
    have hne : ind' m ≠ 0 := by
      intro hc
      have := k7 m hm.1 hc
      rw [List.append_nil] at this
      exact hm.2 this
    have hnn : 0 ≤ ind' m :=
      KInv_nonneg g h [] ind' res ⟨by rwa [List.append_nil],
        by rwa [List.append_nil], k3, by rwa [List.append_nil], k5, k6, k7⟩ m
    have hlt2 : countInto g res m < edgesInto g m := by
      have := k3 m
      omega
    have hkeys_sum : countInto g (keysOf g) m = countInto g res m + countInto g t m := by
      rw [countInto_perm g (keysOf g) (res ++ t) m ht, countInto_append]
    have htpos : 0 < countInto g t m := by
      have := edgesInto_eq_countInto_keys g h m
      omega
    have hex : ∃ u ∈ t, 0 < (adjOf g u).count m := by
      by_contra hc
      push_neg at hc
      have hz : countInto g t m = 0 := by
        unfold countInto
        rw [List.sum_eq_zero]
        intro x hx
        obtain ⟨u, hu, rfl⟩ := List.mem_map.mp hx
        have := hc u hu
        omega
      omega
    obtain ⟨u, hut, hupos⟩ := hex
    refine ⟨u, ⟨?_, ?_⟩, List.count_pos_iff.mp hupos⟩
    · exact ht.symm.subset (List.mem_append.mpr (Or.inr hut))
    · intro hur
      exact (List.disjoint_of_nodup_append htnodup) hur hut



/-! ### DFS unfolding lemmas -/

theorem dfsGo_nil (g : TopologicalSort) (fuel : Nat) (color : Nat → Color)
    (result : List Nat) : dfsGo g fuel [] color result = some (true, color, result) := by
  rw [dfsGo.eq_def]

theorem dfsGo_cons_gray (g : TopologicalSort) (fuel : Nat) (x : Nat) (t : List Nat)
    (color : Nat → Color) (result : List Nat) (h1 : color x = Color.GRAY) :
    dfsGo g fuel (x :: t) color result = some (false, color, result) := by
  rw [dfsGo.eq_def]
  show (if color x = Color.GRAY then some (false, color, result) else _) = _
  rw [if_pos h1]

theorem dfsGo_cons_black (g : TopologicalSort) (fuel : Nat) (x : Nat) (t : List Nat)
    (color : Nat → Color) (result : List Nat) (h1 : ¬color x = Color.GRAY)
    (h2 : color x = Color.BLACK) :
    dfsGo g fuel (x :: t) color result = dfsGo g fuel t color result := by
  rw [dfsGo.eq_def]
  show (if color x = Color.GRAY then some (false, color, result)
    else if color x = Color.BLACK then dfsGo g fuel t color result else _) = _
  rw [if_neg h1, if_pos h2]

theorem dfsGo_cons_white_zero (g : TopologicalSort) (x : Nat) (t : List Nat)
    (color : Nat → Color) (result : List Nat) (h1 : ¬color x = Color.GRAY)
    (h2 : ¬color x = Color.BLACK) :
    dfsGo g 0 (x :: t) color result = none := by
  rw [dfsGo.eq_def]
  show (if color x = Color.GRAY then some (false, color, result)
    else if color x = Color.BLACK then dfsGo g 0 t color result else none) = _
  rw [if_neg h1, if_neg h2]

theorem dfsGo_cons_white_succ (g : TopologicalSort) (fuel' : Nat) (x : Nat)
    (t : List Nat) (color : Nat → Color) (result : List Nat)
    (h1 : ¬color x = Color.GRAY) (h2 : ¬color x = Color.BLACK) :
    dfsGo g (fuel' + 1) (x :: t) color result =
      match dfsGo g fuel' (adjOf g x)
          (fun w => if w = x then Color.GRAY else color w) result with
      | none => none
      | some (false, c, r) => some (false, c, r)
      | some (true, c, r) =>
        dfsGo g (fuel' + 1) t (fun w => if w = x then Color.BLACK else c w)
          (r ++ [x]) := by
  rw [dfsGo.eq_def]
  show (if color x = Color.GRAY then some (false, color, result)
    else if color x = Color.BLACK then dfsGo g (fuel' + 1) t color result
    else _) = _
  rw [if_neg h1, if_neg h2]


/-! ### DFS colour lemmas -/

def rank : Color → Nat
  | Color.WHITE => 0
  | Color.GRAY => 1
  | Color.BLACK => 2

theorem rank_white (c : Color) (h1 : c ≠ Color.GRAY) (h2 : c ≠ Color.BLACK) :
    c = Color.WHITE := by
  cases c <;> simp_all

theorem dfsGo_mono (g : TopologicalSort) (fuel : Nat) (l : List Nat)
    (color : Nat → Color) (result : List Nat) :
    ∀ b c r, dfsGo g fuel l color result = some (b, c, r) →
      ∀ w, rank (color w) ≤ rank (c w) := by
  refine dfsGo.induct g
    (motive := fun fuel l color result => ∀ b c r,
      dfsGo g fuel l color result = some (b, c, r) →
      ∀ w, rank (color w) ≤ rank (c w))
    ?_ ?_ ?_ ?_ ?_ ?_ ?_ fuel l color result
  · intro fuel color result b c r hsome w
    rw [dfsGo_nil] at hsome
    cases hsome
    exact le_refl _
  · intro fuel color result x t h1 b c r hsome w
    rw [dfsGo_cons_gray g fuel x t color result h1] at hsome
    cases hsome
    exact le_refl _
  · intro fuel color result x t h1 h2 ih b c r hsome w
    rw [dfsGo_cons_black g fuel x t color result h1 h2] at hsome
    exact ih b c r hsome w
  · intro color result x t h1 h2 b c r hsome w
    rw [dfsGo_cons_white_zero g x t color result h1 h2] at hsome
    cases hsome
  · intro color result x t h1 h2 fuel' heq ih b c r hsome w
    rw [dfsGo_cons_white_succ g fuel' x t color result h1 h2] at hsome
    have heq' : dfsGo g fuel' (adjOf g x)
        (fun w => if w = x then Color.GRAY else color w) result = none := heq
    rw [heq'] at hsome
    exact Option.noConfusion hsome
  · intro color result x t h1 h2 fuel' c1 r1 heq ih b c r hsome w
    rw [dfsGo_cons_white_succ g fuel' x t color result h1 h2] at hsome
    have heq' : dfsGo g fuel' (adjOf g x)
        (fun w => if w = x then Color.GRAY else color w) result =
        some (false, c1, r1) := heq
    rw [heq'] at hsome
    have hsome' : some ((false : Bool), c1, r1) = some (b, c, r) := hsome
    cases hsome'
    by_cases hw : w = x
    · subst hw
      rw [rank_white (color w) h1 h2]
      exact Nat.zero_le _
    · have hstep := ih false c1 r1 heq w
      simp only [dif_neg hw] at hstep
      exact hstep
  · intro color result x t h1 h2 fuel' c1 r1 heq ih1 ih2 b c r hsome w
    rw [dfsGo_cons_white_succ g fuel' x t color result h1 h2] at hsome
    have heq' : dfsGo g fuel' (adjOf g x)
        (fun w => if w = x then Color.GRAY else color w) result =
        some (true, c1, r1) := heq
    rw [heq'] at hsome
    by_cases hw : w = x
    · subst hw
      rw [rank_white (color w) h1 h2]
      exact Nat.zero_le _
    · have hstep1 := ih1 true c1 r1 heq w
      simp only [dif_neg hw] at hstep1
      have hstep2 := ih2 b c r hsome w
      simp only [dif_neg hw] at hstep2
      exact le_trans hstep1 hstep2


theorem dfsGo_gray_eq (g : TopologicalSort) (fuel : Nat) (l : List Nat)
    (color : Nat → Color) (result : List Nat) :
    ∀ c r, dfsGo g fuel l color result = some (true, c, r) →
      ∀ w, (c w = Color.GRAY ↔ color w = Color.GRAY) := by
  refine dfsGo.induct g
    (motive := fun fuel l color result => ∀ c r,
      dfsGo g fuel l color result = some (true, c, r) →
      ∀ w, (c w = Color.GRAY ↔ color w = Color.GRAY))
    ?_ ?_ ?_ ?_ ?_ ?_ ?_ fuel l color result
  · intro fuel color result c r hsome w
    rw [dfsGo_nil] at hsome
    cases hsome
    exact Iff.rfl
  · intro fuel color result x t h1 c r hsome w
    rw [dfsGo_cons_gray g fuel x t color result h1] at hsome
    cases hsome
  · intro fuel color result x t h1 h2 ih c r hsome w
    rw [dfsGo_cons_black g fuel x t color result h1 h2] at hsome
    exact ih c r hsome w
  · intro color result x t h1 h2 c r hsome w
    rw [dfsGo_cons_white_zero g x t color result h1 h2] at hsome
    exact Option.noConfusion hsome
  · intro color result x t h1 h2 fuel' heq ih c r hsome w
    rw [dfsGo_cons_white_succ g fuel' x t color result h1 h2] at hsome
    have heq' : dfsGo g fuel' (adjOf g x)
        (fun w => if w = x then Color.GRAY else color w) result = none := heq
    rw [heq'] at hsome
    exact Option.noConfusion hsome
  · intro color result x t h1 h2 fuel' c1 r1 heq ih c r hsome w
    rw [dfsGo_cons_white_succ g fuel' x t color result h1 h2] at hsome
    have heq' : dfsGo g fuel' (adjOf g x)
        (fun w => if w = x then Color.GRAY else color w) result =
        some (false, c1, r1) := heq
    rw [heq'] at hsome
    have hsome' : some ((false : Bool), c1, r1) = some (true, c, r) := hsome
    cases hsome'
  · intro color result x t h1 h2 fuel' c1 r1 heq ih1 ih2 c r hsome w
    rw [dfsGo_cons_white_succ g fuel' x t color result h1 h2] at hsome
    have heq' : dfsGo g fuel' (adjOf g x)
        (fun w => if w = x then Color.GRAY else color w) result =
        some (true, c1, r1) := heq
    rw [heq'] at hsome
    have hstep1 := ih1 c1 r1 heq w
    have hstep2 := ih2 c r hsome w
    by_cases hw : w = x
    · subst hw
      simp only [dif_pos rfl] at hstep2
      rw [hstep2]
      constructor
      · intro hg
        cases hg
      · intro hg
        exact absurd hg h1
    · simp only [dif_neg hw] at hstep1 hstep2
      rw [hstep2, hstep1]

theorem dfsGo_blacks (g : TopologicalSort) (fuel : Nat) (l : List Nat)
    (color : Nat → Color) (result : List Nat) :
    ∀ c r, dfsGo g fuel l color result = some (true, c, r) →
      ∀ w ∈ l, c w = Color.BLACK := by
  refine dfsGo.induct g
    (motive := fun fuel l color result => ∀ c r,
      dfsGo g fuel l color result = some (true, c, r) →
      ∀ w ∈ l, c w = Color.BLACK)
    ?_ ?_ ?_ ?_ ?_ ?_ ?_ fuel l color result
  · intro fuel color result c r hsome w hw
    simp at hw
  · intro fuel color result x t h1 c r hsome w hw
    rw [dfsGo_cons_gray g fuel x t color result h1] at hsome
    cases hsome
  · intro fuel color result x t h1 h2 ih c r hsome w hw
    rw [dfsGo_cons_black g fuel x t color result h1 h2] at hsome
    rcases List.mem_cons.mp hw with hw | hw
    · subst hw
      have hmono := dfsGo_mono g fuel t color result true c r hsome w
      rw [h2] at hmono
      cases hcw : c w <;> rw [hcw] at hmono <;> simp [rank] at hmono ⊢
    · exact ih c r hsome w hw
  · intro color result x t h1 h2 c r hsome w hw
    rw [dfsGo_cons_white_zero g x t color result h1 h2] at hsome
    exact Option.noConfusion hsome
  · intro color result x t h1 h2 fuel' heq ih c r hsome w hw
    rw [dfsGo_cons_white_succ g fuel' x t color result h1 h2] at hsome
    have heq' : dfsGo g fuel' (adjOf g x)
        (fun w => if w = x then Color.GRAY else color w) result = none := heq
    rw [heq'] at hsome
    exact Option.noConfusion hsome
  · intro color result x t h1 h2 fuel' c1 r1 heq ih c r hsome w hw
    rw [dfsGo_cons_white_succ g fuel' x t color result h1 h2] at hsome
    have heq' : dfsGo g fuel' (adjOf g x)
        (fun w => if w = x then Color.GRAY else color w) result =
        some (false, c1, r1) := heq
    rw [heq'] at hsome
    have hsome' : some ((false : Bool), c1, r1) = some (true, c, r) := hsome
    cases hsome'
  · intro color result x t h1 h2 fuel' c1 r1 heq ih1 ih2 c r hsome w hw
    rw [dfsGo_cons_white_succ g fuel' x t color result h1 h2] at hsome
    have heq' : dfsGo g fuel' (adjOf g x)
        (fun w => if w = x then Color.GRAY else color w) result =
        some (true, c1, r1) := heq
    rw [heq'] at hsome
    rcases List.mem_cons.mp hw with hw | hw
    · subst hw
      have hmono := dfsGo_mono g (fuel' + 1) t
        (fun w' => if w' = w then Color.BLACK else c1 w') (r1 ++ [w]) true c r hsome w
      simp only [if_pos rfl] at hmono
      cases hcw : c w <;> rw [hcw] at hmono <;> simp [rank] at hmono ⊢
    · exact ih2 c r hsome w hw


/-! ### The DFS invariant -/

def DInv (g : TopologicalSort) (color : Nat → Color) (result : List Nat) : Prop :=
  result.Nodup ∧
  (∀ w, color w = Color.BLACK ↔ w ∈ result) ∧
  (∀ w ∈ result, w ∈ keysOf g) ∧
  (∀ u' ∈ result, ∀ w, Edge g u' w →
    ∃ s1 s2, result = s1 ++ s2 ∧ w ∈ s1 ∧ u' ∈ s2)

theorem dfsGo_DInv (g : TopologicalSort) (h : WFG g) (fuel : Nat) (l : List Nat)
    (color : Nat → Color) (result : List Nat) :
    ∀ c r, (∀ x ∈ l, x ∈ keysOf g) → DInv g color result →
      dfsGo g fuel l color result = some (true, c, r) → DInv g c r := by
  refine dfsGo.induct g
    (motive := fun fuel l color result => ∀ c r,
      (∀ x ∈ l, x ∈ keysOf g) → DInv g color result →
      dfsGo g fuel l color result = some (true, c, r) → DInv g c r)
    ?_ ?_ ?_ ?_ ?_ ?_ ?_ fuel l color result
  · intro fuel color result c r hl hinv hsome
    rw [dfsGo_nil] at hsome
    cases hsome
    exact hinv
  · intro fuel color result x t h1 c r hl hinv hsome
    rw [dfsGo_cons_gray g fuel x t color result h1] at hsome
    cases hsome
  · intro fuel color result x t h1 h2 ih c r hl hinv hsome
    rw [dfsGo_cons_black g fuel x t color result h1 h2] at hsome
    exact ih c r (fun y hy => hl y (List.mem_cons_of_mem x hy)) hinv hsome
  · intro color result x t h1 h2 c r hl hinv hsome
    rw [dfsGo_cons_white_zero g x t color result h1 h2] at hsome
    exact Option.noConfusion hsome
  · intro color result x t h1 h2 fuel' heq ih c r hl hinv hsome
    rw [dfsGo_cons_white_succ g fuel' x t color result h1 h2] at hsome
    have heq' : dfsGo g fuel' (adjOf g x)
        (fun w => if w = x then Color.GRAY else color w) result = none := heq
    rw [heq'] at hsome
    exact Option.noConfusion hsome
  · intro color result x t h1 h2 fuel' c1 r1 heq ih c r hl hinv hsome
    rw [dfsGo_cons_white_succ g fuel' x t color result h1 h2] at hsome
    have heq' : dfsGo g fuel' (adjOf g x)
        (fun w => if w = x then Color.GRAY else color w) result =
        some (false, c1, r1) := heq
    rw [heq'] at hsome
    have hsome' : some ((false : Bool), c1, r1) = some (true, c, r) := hsome
    cases hsome'
  · intro color result x t h1 h2 fuel' c1 r1 heq ih1 ih2 c r hl hinv hsome
    rw [dfsGo_cons_white_succ g fuel' x t color result h1 h2] at hsome
    have heq' : dfsGo g fuel' (adjOf g x)
        (fun w => if w = x then Color.GRAY else color w) result =
        some (true, c1, r1) := heq
    rw [heq'] at hsome
    obtain ⟨d1, d2, d3, d4⟩ := hinv
    have hxw : color x = Color.WHITE := rank_white (color x) h1 h2
    have hxnotm : x ∉ result := by
      intro hc
      rw [← d2 x] at hc
      exact h2 hc
    have hinv1 : DInv g (fun w => if w = x then Color.GRAY else color w) result := by
      refine ⟨d1, ?_, d3, d4⟩
      intro w
      by_cases hw : w = x
      · subst hw
        simp only [if_pos rfl]
        constructor
        · intro hg
          cases hg
        · intro hm
          exact absurd hm hxnotm
      · simp only [if_neg hw]
        exact d2 w
    have hadjsub : ∀ y ∈ adjOf g x, y ∈ keysOf g := fun y hy => h.2.2.1 x y hy
    have hinner := ih1 c1 r1 hadjsub hinv1 heq'
    obtain ⟨e1, e2, e3, e4⟩ := hinner
    have hc1x : c1 x = Color.GRAY := by
      rw [dfsGo_gray_eq g fuel' (adjOf g x) _ result c1 r1 heq' x]
      simp
    have hxnotr1 : x ∉ r1 := by
      intro hc
      rw [← e2 x] at hc
      rw [hc1x] at hc
      cases hc
    have hinv2 : DInv g (fun w => if w = x then Color.BLACK else c1 w) (r1 ++ [x]) := by
      refine ⟨?_, ?_, ?_, ?_⟩
      · rw [List.nodup_append]
        refine ⟨e1, List.nodup_singleton x, ?_⟩
        intro a ha hax
        simp only [List.mem_singleton] at hax
        subst hax
        exact hxnotr1 ha
      · intro w
        by_cases hw : w = x
        · subst hw
          simp only [if_pos rfl]
          simp
        · simp only [if_neg hw]
          rw [e2 w]
          constructor
          · intro hm
            exact List.mem_append.mpr (Or.inl hm)
          · intro hm
            rcases List.mem_append.mp hm with hm | hm
            · exact hm
            · simp only [List.mem_singleton] at hm
              exact absurd hm hw
      · intro w hw
        rcases List.mem_append.mp hw with hw | hw
        · exact e3 w hw
        · simp only [List.mem_singleton] at hw
          subst hw
          exact hl w (List.mem_cons_self w t)
      · intro u' hu' w hw
        rcases List.mem_append.mp hu' with hu' | hu'
        · obtain ⟨s1, s2, hs, hws, hus⟩ := e4 u' hu' w hw
          exact ⟨s1, s2 ++ [x], by rw [hs, List.append_assoc], hws,
            List.mem_append.mpr (Or.inl hus)⟩
        · simp only [List.mem_singleton] at hu'
          subst hu'
          have hwadj : w ∈ adjOf g u' := hw
          have hwblack := dfsGo_blacks g fuel' (adjOf g u') _ result c1 r1 heq' w hwadj
          have hwr1 : w ∈ r1 := (e2 w).mp hwblack
          exact ⟨r1, [u'], rfl, hwr1, List.mem_singleton.mpr rfl⟩
    exact ih2 c r (fun y hy => hl y (List.mem_cons_of_mem x hy)) hinv2 hsome


theorem reachesIn_snoc (g : TopologicalSort) :
    ∀ (k : Nat) (u v v' : Nat), ReachesIn g k u v → Edge g v v' →
      ReachesIn g (k + 1) u v' := by
  intro k
  induction k with
  | zero =>
    intro u v v' hr he
    cases hr
    exact ⟨v', he, rfl⟩
  | succ m ih =>
    intro u v v' hr he
    obtain ⟨w, hw, hr2⟩ := hr
    exact ⟨w, hw, ih w v v' hr2 he⟩

theorem dfsGo_false_cycle (g : TopologicalSort) (fuel : Nat) (l : List Nat)
    (color : Nat → Color) (result : List Nat) :
    ∀ c r, (∀ w, color w = Color.GRAY → ∀ v ∈ l, ∃ k, 1 ≤ k ∧ ReachesIn g k w v) →
      dfsGo g fuel l color result = some (false, c, r) → HasCycle g := by
  refine dfsGo.induct g
    (motive := fun fuel l color result => ∀ c r,
      (∀ w, color w = Color.GRAY → ∀ v ∈ l, ∃ k, 1 ≤ k ∧ ReachesIn g k w v) →
      dfsGo g fuel l color result = some (false, c, r) → HasCycle g)
    ?_ ?_ ?_ ?_ ?_ ?_ ?_ fuel l color result
  · intro fuel color result c r hgr hsome
    rw [dfsGo_nil] at hsome
    cases hsome
  · intro fuel color result x t h1 c r hgr hsome
    obtain ⟨k, hk1, hreach⟩ := hgr x h1 x (List.mem_cons_self x t)
    refine ⟨x, k - 1, ?_⟩
    have : k - 1 + 1 = k := by omega
    rw [this]
    exact hreach
  · intro fuel color result x t h1 h2 ih c r hgr hsome
    rw [dfsGo_cons_black g fuel x t color result h1 h2] at hsome
    exact ih c r (fun w hw v hv => hgr w hw v (List.mem_cons_of_mem x hv)) hsome
  · intro color result x t h1 h2 c r hgr hsome
    rw [dfsGo_cons_white_zero g x t color result h1 h2] at hsome
    exact Option.noConfusion hsome
  · intro color result x t h1 h2 fuel' heq ih c r hgr hsome
    rw [dfsGo_cons_white_succ g fuel' x t color result h1 h2] at hsome
    have heq' : dfsGo g fuel' (adjOf g x)
        (fun w => if w = x then Color.GRAY else color w) result = none := heq
    rw [heq'] at hsome
    exact Option.noConfusion hsome
  · intro color result x t h1 h2 fuel' c1 r1 heq ih c r hgr hsome
    have heq' : dfsGo g fuel' (adjOf g x)
        (fun w => if w = x then Color.GRAY else color w) result =
        some (false, c1, r1) := heq
    apply ih c1 r1 ?_ heq'
    intro w hw v hv
    by_cases hwx : w = x
    · subst hwx
      exact ⟨1, le_refl 1, ⟨v, hv, rfl⟩⟩
    · simp only [dif_neg hwx] at hw
      obtain ⟨k, hk1, hreach⟩ := hgr w hw x (List.mem_cons_self x t)
      exact ⟨k + 1, by omega, reachesIn_snoc g k w x v hreach hv⟩
  · intro color result x t h1 h2 fuel' c1 r1 heq ih1 ih2 c r hgr hsome
    rw [dfsGo_cons_white_succ g fuel' x t color result h1 h2] at hsome
    have heq' : dfsGo g fuel' (adjOf g x)
        (fun w => if w = x then Color.GRAY else color w) result =
        some (true, c1, r1) := heq
    rw [heq'] at hsome
    apply ih2 c r ?_ hsome
    intro w hw v hv
    have hwx : w ≠ x := by
      intro hc
      subst hc
      simp only [dif_pos rfl] at hw
      cases hw
    simp only [dif_neg hwx] at hw
    have hc1gray : c1 w = Color.GRAY := hw
    have hcolor1gray := (dfsGo_gray_eq g fuel' (adjOf g x) _ result c1 r1 heq' w).mp hc1gray
    simp only [if_neg hwx] at hcolor1gray
    obtain ⟨k, hk1, hreach⟩ := hgr w hcolor1gray x (List.mem_cons_self x t)
    have hv' : v ∈ x :: t := List.mem_cons_of_mem x hv
    obtain ⟨k2, hk2, hreach2⟩ := hgr w hcolor1gray v hv'
    exact ⟨k2, hk2, hreach2⟩

/-! ### DFS fuel sufficiency -/

def whitesOf (g : TopologicalSort) (color : Nat → Color) : List Nat :=
  (keysOf g).filter fun v => color v == Color.WHITE

theorem filter_length_mono (L : List Nat) (p q : Nat → Bool)
    (h : ∀ a ∈ L, p a = true → q a = true) :
    (L.filter p).length ≤ (L.filter q).length := by
  induction L with
  | nil => simp
  | cons a t ih =>
    have iht := ih (fun b hb hpb => h b (List.mem_cons_of_mem a hb) hpb)
    by_cases hp : p a = true
    · have hq := h a (List.mem_cons_self a t) hp
      simp [List.filter_cons, hp, hq]
      omega
    · by_cases hq : q a = true
      · simp [List.filter_cons, hp, hq]
        omega
      · simp [List.filter_cons, hp, hq]
        omega

theorem filter_flip_length (L : List Nat) (x : Nat) (p p' : Nat → Bool) :
    L.Nodup → x ∈ L → p x = true → p' x = false →
    (∀ a, a ≠ x → p' a = p a) →
    (L.filter p').length + 1 = (L.filter p).length := by
  induction L with
  | nil =>
    intro _ hx
    simp at hx
  | cons a t ih =>
    intro hnd hx hpx hp'x hagree
    rw [List.nodup_cons] at hnd
    by_cases hax : a = x
    · subst hax
      have hsame : t.filter p' = t.filter p := by
        apply List.filter_congr
        intro b hb
        exact hagree b (fun hc => hnd.1 (hc ▸ hb))
      simp [List.filter_cons, hpx, hp'x, hsame]
    · have hxt : x ∈ t := by
        rcases List.mem_cons.mp hx with hc | hc
        · exact absurd hc.symm hax
        · exact hc
      have hpa : p' a = p a := hagree a hax
      have iht := ih hnd.2 hxt hpx hp'x hagree
      by_cases hq : p a = true
      · have hq2 : p' a = true := by rw [hpa]; exact hq
        simp [List.filter_cons, hq, hq2]
        omega
      · have hq2 : ¬p' a = true := by rw [hpa]; exact hq
        simp [List.filter_cons, hq, hq2]
        omega

theorem dfsGo_ne_none (g : TopologicalSort) (h : WFG g) (fuel : Nat) (l : List Nat)
    (color : Nat → Color) (result : List Nat) :
    (∀ x ∈ l, x ∈ keysOf g) → (whitesOf g color).length < fuel →
      dfsGo g fuel l color result ≠ none := by
  refine dfsGo.induct g
    (motive := fun fuel l color result =>
      (∀ x ∈ l, x ∈ keysOf g) → (whitesOf g color).length < fuel →
      dfsGo g fuel l color result ≠ none)
    ?_ ?_ ?_ ?_ ?_ ?_ ?_ fuel l color result
  · intro fuel color result hl hf
    rw [dfsGo_nil]
    simp
  · intro fuel color result x t h1 hl hf
    rw [dfsGo_cons_gray g fuel x t color result h1]
    simp
  · intro fuel color result x t h1 h2 ih hl hf
    rw [dfsGo_cons_black g fuel x t color result h1 h2]
    exact ih (fun y hy => hl y (List.mem_cons_of_mem x hy)) hf
  · intro color result x t h1 h2 hl hf
    omega
  · intro color result x t h1 h2 fuel' heq ih hl hf
    exfalso
    apply ih ?_ ?_ heq
    · exact fun y hy => h.2.2.1 x y hy
    · show (whitesOf g (fun w => if w = x then Color.GRAY else color w)).length < fuel'
      have hxw : color x = Color.WHITE := rank_white (color x) h1 h2
      have hflip := filter_flip_length (keysOf g) x
        (fun v => color v == Color.WHITE)
        (fun v => (if v = x then Color.GRAY else color v) == Color.WHITE)
        (keysOf_nodup g h) (hl x (List.mem_cons_self x t))
        (by simp [hxw]) (by simp) (by intro a ha; simp [ha])
      simp only [whitesOf] at hf ⊢
      omega
  · intro color result x t h1 h2 fuel' c1 r1 heq ih hl hf
    rw [dfsGo_cons_white_succ g fuel' x t color result h1 h2]
    have heq' : dfsGo g fuel' (adjOf g x)
        (fun w => if w = x then Color.GRAY else color w) result =
        some (false, c1, r1) := heq
    rw [heq']
    simp
  · intro color result x t h1 h2 fuel' c1 r1 heq ih1 ih2 hl hf
    rw [dfsGo_cons_white_succ g fuel' x t color result h1 h2]
    have heq' : dfsGo g fuel' (adjOf g x)
        (fun w => if w = x then Color.GRAY else color w) result =
        some (true, c1, r1) := heq
    rw [heq']
    apply ih2 (fun y hy => hl y (List.mem_cons_of_mem x hy))
    show (whitesOf g (fun w => if w = x then Color.BLACK else c1 w)).length < fuel' + 1
    have hxw : color x = Color.WHITE := rank_white (color x) h1 h2
    have hflip := filter_flip_length (keysOf g) x
      (fun v => color v == Color.WHITE)
      (fun v => (if v = x then Color.GRAY else color v) == Color.WHITE)
      (keysOf_nodup g h) (hl x (List.mem_cons_self x t))
      (by simp [hxw]) (by simp) (by intro a ha; simp [ha])
    have hmono := filter_length_mono (keysOf g)
      (fun v => (if v = x then Color.BLACK else c1 v) == Color.WHITE)
      (fun v => (if v = x then Color.GRAY else color v) == Color.WHITE) ?_
    · simp only [whitesOf] at hf ⊢
      omega
    · intro a _ hpa
      by_cases hax : a = x
      · subst hax
        simp at hpa
      · simp only [if_neg hax] at hpa ⊢
        have hc1a : c1 a = Color.WHITE := by
          simpa using hpa
        have hm := dfsGo_mono g fuel' (adjOf g x)
          (fun w => if w = x then Color.GRAY else color w) result true c1 r1 heq' a
        simp only [if_neg hax] at hm
        rw [hc1a] at hm
        have hca2 : color a = Color.WHITE := by
          cases hca : color a <;> rw [hca] at hm <;> simp [rank] at hm ⊢
        simp [hca2]

theorem black_of_rank_le (c : Color) (h : 2 ≤ rank c) : c = Color.BLACK := by
  cases c <;> simp [rank] at h ⊢

theorem dfsOuter_spec (g : TopologicalSort) (h : WFG g) (l : List Nat) :
    ∀ (color : Nat → Color) (result : List Nat),
      (∀ x ∈ l, x ∈ keysOf g) → DInv g color result →
      (∀ w, color w ≠ Color.GRAY) →
      (dfsOuter g l color result ≠ none) ∧
      (∀ c r, dfsOuter g l color result = some (false, c, r) → HasCycle g) ∧
      (∀ c r, dfsOuter g l color result = some (true, c, r) → DInv g c r ∧
        (∀ x ∈ l, c x = Color.BLACK) ∧ (∀ w, rank (color w) ≤ rank (c w))) := by
  induction l with
  | nil =>
    intro color result hl hinv hng
    refine ⟨by simp [dfsOuter], ?_, ?_⟩
    · intro c r hsome
      simp [dfsOuter] at hsome
    · intro c r hsome
      simp only [dfsOuter, Option.some.injEq, Prod.mk.injEq] at hsome
      obtain ⟨-, hc, hr⟩ := hsome
      subst hc
      subst hr
      exact ⟨hinv, by simp, fun w => le_refl _⟩
  | cons node rest ih =>
    intro color result hl hinv hng
    by_cases hwnode : color node = Color.WHITE
    · have hnn : dfsGo g ((keysOf g).length + 1) [node] color result ≠ none := by
        apply dfsGo_ne_none g h
        · intro y hy
          simp only [List.mem_singleton] at hy
          rw [hy]
          exact hl node (List.mem_cons_self node rest)
        · have hle : (whitesOf g color).length ≤ (keysOf g).length := by
            unfold whitesOf
            exact List.length_filter_le _ _
          omega
      cases hcall : dfsGo g ((keysOf g).length + 1) [node] color result with
      | none => exact absurd hcall hnn
      | some res3 =>
        obtain ⟨b1, c1, r1⟩ := res3
        cases b1 with
        | false =>
          have houter : dfsOuter g (node :: rest) color result = some (false, c1, r1) := by
            simp only [dfsOuter, if_pos hwnode, dfs_helper, hcall]
          have hcyc : HasCycle g := by
            apply dfsGo_false_cycle g ((keysOf g).length + 1) [node] color result c1 r1
              ?_ hcall
            intro w' hw'
            exact absurd hw' (hng w')
          refine ⟨by rw [houter]; simp, fun c r _ => hcyc, ?_⟩
          intro c r hsome
          rw [houter] at hsome
          simp at hsome
        | true =>
          have hsub1 : ∀ x ∈ [node], x ∈ keysOf g := by
            intro y hy
            simp only [List.mem_singleton] at hy
            rw [hy]
            exact hl node (List.mem_cons_self node rest)
          have hinv1 : DInv g c1 r1 :=
            dfsGo_DInv g h ((keysOf g).length + 1) [node] color result c1 r1
              hsub1 hinv hcall
          have hng1 : ∀ w, c1 w ≠ Color.GRAY := by
            intro w hc
            exact hng w ((dfsGo_gray_eq g ((keysOf g).length + 1) [node]
              color result c1 r1 hcall w).mp hc)
          have hmono1 := dfsGo_mono g ((keysOf g).length + 1) [node]
            color result true c1 r1 hcall
          have hblack1 : c1 node = Color.BLACK :=
            dfsGo_blacks g ((keysOf g).length + 1) [node] color result c1 r1 hcall
              node (List.mem_singleton.mpr rfl)
          obtain ⟨hne2, hfalse2, htrue2⟩ :=
            ih c1 r1 (fun y hy => hl y (List.mem_cons_of_mem node hy)) hinv1 hng1
          have houter : dfsOuter g (node :: rest) color result =
              dfsOuter g rest c1 r1 := by
            simp only [dfsOuter, if_pos hwnode, dfs_helper, hcall]
          refine ⟨by rw [houter]; exact hne2, ?_, ?_⟩
          · intro c r hsome
            rw [houter] at hsome
            exact hfalse2 c r hsome
          · intro c r hsome
            rw [houter] at hsome
            obtain ⟨hi, hb, hm⟩ := htrue2 c r hsome
            refine ⟨hi, ?_, fun w' => le_trans (hmono1 w') (hm w')⟩
            intro x hx
            rcases List.mem_cons.mp hx with hx | hx
            · subst hx
              apply black_of_rank_le
              have := hm x
              rw [hblack1] at this
              exact this
            · exact hb x hx
    · have hblack : color node = Color.BLACK := by
        have := hng node
        cases hc : color node <;> simp_all
      have houter : dfsOuter g (node :: rest) color result =
          dfsOuter g rest color result := by
        simp only [dfsOuter, if_neg hwnode]
      obtain ⟨hne2, hfalse2, htrue2⟩ :=
        ih color result (fun y hy => hl y (List.mem_cons_of_mem node hy)) hinv hng
      refine ⟨by rw [houter]; exact hne2, ?_, ?_⟩
      · intro c r hsome
        rw [houter] at hsome
        exact hfalse2 c r hsome
      · intro c r hsome
        rw [houter] at hsome
        obtain ⟨hi, hb, hm⟩ := htrue2 c r hsome
        refine ⟨hi, ?_, hm⟩
        intro x hx
        rcases List.mem_cons.mp hx with hx | hx
        · subst hx
          apply black_of_rank_le
          have := hm x
          rw [hblack] at this
          exact this
        · exact hb x hx

theorem dfs_facts (g : TopologicalSort) (h : WFG g) :
    (∀ l, g.dfs_sort = some l → ValidTopo g l) ∧
    (g.dfs_sort = none → HasCycle g) := by
  have hinv0 : DInv g (fun _ => Color.WHITE) [] := by
    refine ⟨List.nodup_nil, ?_, by simp, by simp⟩
    intro w
    simp
  obtain ⟨hne, hfalse, htrue⟩ := dfsOuter_spec g h (keysOf g)
    (fun _ => Color.WHITE) [] (fun x hx => hx) hinv0 (fun w => by simp)
  cases houter : dfsOuter g (keysOf g) (fun _ => Color.WHITE) [] with
  | none => exact absurd houter hne
  | some res =>
    obtain ⟨b, c, r⟩ := res
    have hds : g.dfs_sort = if b then some r.reverse else none := by
      simp only [TopologicalSort.dfs_sort, houter]
      cases b <;> rfl
    cases b with
    | false =>
      have hcyc := hfalse c r houter
      constructor
      · intro l hsome
        rw [hds] at hsome
        simp at hsome
      · intro _
        exact hcyc
    | true =>
      obtain ⟨⟨e1, e2, e3, e4⟩, hallb, -⟩ := htrue c r houter
      have hksub : ∀ x ∈ keysOf g, x ∈ r := by
        intro x hx
        exact (e2 x).mp (hallb x hx)
      have hknd := keysOf_nodup g h
      have hperm : r.Perm (keysOf g) :=
        List.Subperm.antisymm (List.Nodup.subperm e1 e3) (List.Nodup.subperm hknd hksub)
      constructor
      · intro l hsome
        rw [hds] at hsome
        simp only [if_pos rfl] at hsome
        obtain rfl : r.reverse = l := Option.some.inj hsome
        refine ⟨(List.reverse_perm r).trans hperm, ?_⟩
        intro u v hedge
        have hur : u ∈ r := hksub u (edge_src_mem_keys g h u v hedge)
        obtain ⟨s1, s2, hs, hvs, hus⟩ := e4 u hur v hedge
        refine ⟨s2.reverse, s1.reverse, ?_, ?_, ?_⟩
        · rw [hs, List.reverse_append]
        · exact List.mem_reverse.mpr hus
        · exact List.mem_reverse.mpr hvs
      · intro hnone
        rw [hds] at hnone
        simp at hnone


/-- C6: for every directed graph built by a sequence of `add_edge` calls, both
`kahn_sort` and `dfs_sort` return an empty optional exactly when the graph has
a cycle, and whenever they return a list it is a valid topological ordering of
all nodes (a permutation of the node set in which the source of every edge
appears strictly before its target). -/
theorem C6_topological_sorts_none_iff_cycle (edges : List (Nat × Nat)) :
    ((topoOf edges).kahn_sort = none ↔ HasCycle (topoOf edges)) ∧
    ((topoOf edges).dfs_sort = none ↔ HasCycle (topoOf edges)) ∧
    (∀ l, (topoOf edges).kahn_sort = some l → ValidTopo (topoOf edges) l) ∧
    (∀ l, (topoOf edges).dfs_sort = some l → ValidTopo (topoOf edges) l) := by
  have hw := WFG_topoOf edges
  obtain ⟨hksome, hknone⟩ := kahn_facts _ hw
  obtain ⟨hdsome, hdnone⟩ := dfs_facts _ hw
  have hnd := keysOf_nodup _ hw
  refine ⟨⟨hknone, ?_⟩, ⟨hdnone, ?_⟩, hksome, hdsome⟩
  · intro hcyc
    cases hk : (topoOf edges).kahn_sort with
    | none => rfl
    | some l => exact absurd hcyc (validTopo_no_cycle _ l hnd (hksome l hk))
  · intro hcyc
    cases hd : (topoOf edges).dfs_sort with
    | none => rfl
    | some l => exact absurd hcyc (validTopo_no_cycle _ l hnd (hdsome l hd))

theorem C6_witness :
    (topoOf [(1, 2), (2, 3), (3, 1)]).kahn_sort = none ∧
    (topoOf [(1, 2), (2, 3), (3, 1)]).dfs_sort = none ∧
    (topoOf [(1, 2)]).kahn_sort = some [1, 2] ∧
    ValidTopo (topoOf [(1, 2)]) [1, 2] := by
  have h1 := C6_topological_sorts_none_iff_cycle [(1, 2), (2, 3), (3, 1)]
  have h2 := C6_topological_sorts_none_iff_cycle [(1, 2)]
  have hcyc : HasCycle (topoOf [(1, 2), (2, 3), (3, 1)]) := by
    refine ⟨1, 2, ⟨2, ?_, ⟨3, ?_, ⟨1, ?_, rfl⟩⟩⟩⟩ <;> (unfold Edge; decide)
  have hk : (topoOf [(1, 2)]).kahn_sort = some [1, 2] := by rfl
  exact ⟨h1.1.mpr hcyc, h1.2.1.mpr hcyc, hk, h2.2.2.1 [1, 2] hk⟩

end NCPC
